import Mathlib

/-!
Shallow embedding of the stockcraft orderbook engine
(`internal/orderbook/core`: types.go, book.go, core.go;
`internal/orderbook/view`: tape.go, view.go;
`internal/orderbook/service`: config.go, service.go;
`internal/market/service`: service.go), together with proofs of the
spec claims about matching, invariants, view refinement and the
service layer.

Go `int64` values (prices, sizes, ids, timestamps) are embedded as
`Int`; none of the verified claims concerns wrap-around behaviour.
Go maps keyed by price or id are embedded as association lists with
lookup semantics; Go's intrusive doubly-linked FIFO lists are embedded
as `List`s; the per-side level heap is embedded by selecting the
extremal-price level of the side's level list, which is exactly the
observable behaviour of `levelHeap.best`.
-/

namespace Stockcraft

/-- `Side` from core/types.go.  The Go type is a `uint8` with two named
values; validation rejects every other value, and all verified claims
concern validated orders, so the embedding uses the two-valued sum. -/
inductive Side where
  | buy
  | sell
  deriving DecidableEq, Repr

/-- `OrderKind` from core/types.go. -/
inductive OrderKind where
  | limit
  | market
  deriving DecidableEq, Repr

/-- `Order` from core/types.go (input value; `price` is in integer ticks). -/
structure Order where
  id : Int
  userID : Int
  side : Side
  kind : OrderKind
  price : Int
  size : Int
  time : Int
  deriving DecidableEq, Repr

/-- `RemoveReason` from core/events.go. -/
inductive RemoveReason where
  | filled
  | canceled
  deriving DecidableEq, Repr

/-- `TradeEvent` from core/events.go. -/
structure TradeEvent where
  price : Int
  size : Int
  takerSide : Side
  time : Int
  takerOrderID : Int
  takerUserID : Int
  makerOrderID : Int
  makerUserID : Int
  deriving DecidableEq, Repr

/-- `OrderRestedEvent` from core/events.go. -/
structure OrderRestedEvent where
  orderID : Int
  userID : Int
  side : Side
  price : Int
  size : Int
  time : Int
  deriving DecidableEq, Repr

/-- `OrderReducedEvent` from core/events.go (`delta` is negative). -/
structure OrderReducedEvent where
  orderID : Int
  delta : Int
  remaining : Int
  price : Int
  side : Side
  userID : Int
  matchTime : Int
  deriving DecidableEq, Repr

/-- `OrderRemovedEvent` from core/events.go. -/
structure OrderRemovedEvent where
  orderID : Int
  reason : RemoveReason
  remaining : Int
  price : Int
  side : Side
  userID : Int
  time : Int
  deriving DecidableEq, Repr

/-- The `Event` interface of core/events.go as a closed sum. -/
inductive Event where
  | trade (e : TradeEvent)
  | rested (e : OrderRestedEvent)
  | reduced (e : OrderReducedEvent)
  | removed (e : OrderRemovedEvent)
  deriving DecidableEq, Repr

/-- `Fill` from core/core.go. -/
structure Fill where
  makerOrderID : Int
  price : Int
  size : Int
  deriving DecidableEq, Repr

/-- `SubmitReport` from core/core.go. -/
structure SubmitReport where
  orderID : Int
  remaining : Int
  fills : List Fill
  rested : Bool
  deriving DecidableEq, Repr

/-- `CancelReport` from core/core.go. -/
structure CancelReport where
  orderID : Int
  canceledSize : Int
  deriving DecidableEq, Repr

/-- The error values of core/core.go. -/
inductive CoreError where
  | invalidOrder
  | duplicateId
  | notFound
  deriving DecidableEq, Repr

/-- `restingOrder` from core/book.go, without the intrusive
`level`/`prev`/`next` pointers: linkage is carried by the enclosing
level's FIFO list. -/
structure RestingOrder where
  id : Int
  userID : Int
  side : Side
  price : Int
  size : Int
  time : Int
  deriving DecidableEq, Repr

/-- `level` from core/book.go: a price level with its FIFO queue
(`head`..`tail` embedded as a list, head first) and `totalVolume`. -/
structure Level where
  price : Int
  fifo : List RestingOrder
  totalVolume : Int
  deriving DecidableEq, Repr

/-- `orderBook` from core/book.go.  Each side's `levels` map plus heap
is embedded as the list of present levels; `orders` (the id map over
resting orders; its values are pointers into the FIFOs) is embedded as
its key list, the pointed-to data living in the level FIFOs. -/
structure CoreState where
  bids : List Level
  asks : List Level
  orders : List Int
  deriving DecidableEq, Repr

/-- `newOrderBook` / `NewCore`: the empty book. -/
def CoreState.empty : CoreState := ⟨[], [], []⟩

/-- Sum of the remaining sizes in a FIFO queue. -/
def fifoSum (fifo : List RestingOrder) : Int := (fifo.map (·.size)).sum

/-- `levelHeap.Less` from core/book.go: bids form a max-heap, asks a
min-heap. -/
def betterPrice (isBid : Bool) (p q : Int) : Bool :=
  if isBid then decide (p > q) else decide (p < q)

/-- `bookSide.bestLevel` from core/book.go, together with the removal
of the returned level from the remaining list: returns the
extremal-price level (what `levelHeap.best` yields) and the other
levels. -/
def extractBest (isBid : Bool) : List Level → Option (Level × List Level)
  | [] => none
  | l :: ls =>
    match extractBest isBid ls with
    | none => some (l, [])
    | some (b, rest) =>
      if betterPrice isBid l.price b.price then some (l, ls) else some (b, l :: rest)

/-- Result of the inner maker loop of `Core.match` at one level. -/
structure InnerRes where
  remaining : Int
  fifo : List RestingOrder
  vol : Int
  fills : List Fill
  events : List Event
  removed : List Int
  deriving DecidableEq, Repr

/-- The inner loop of `Core.match` (core/core.go): consume makers from
the head of one level's FIFO while the taker has remaining size.
`lvlPrice` is `best.price`, `vol` is `best.totalVolume`.  `removed`
collects the ids deleted from the book's id map. -/
def matchInner (taker : Order) (lvlPrice : Int) (remaining vol : Int) :
    List RestingOrder → InnerRes
  | [] => ⟨remaining, [], vol, [], [], []⟩
  | maker :: rest =>
    if remaining ≤ 0 then ⟨remaining, maker :: rest, vol, [], [], []⟩
    else if maker.size ≤ 0 then
      -- defensive: purge broken maker (popHead + delete, no events)
      let r := matchInner taker lvlPrice remaining vol rest
      { r with removed := maker.id :: r.removed }
    else
      let traded := min remaining maker.size
      if traded ≤ 0 then
        -- defensive: avoid infinite loop (popHead + delete, no events)
        let r := matchInner taker lvlPrice remaining vol rest
        { r with removed := maker.id :: r.removed }
      else
        let tradeEv : Event := .trade ⟨lvlPrice, traded, taker.side, taker.time,
          taker.id, taker.userID, maker.id, maker.userID⟩
        let fill : Fill := ⟨maker.id, lvlPrice, traded⟩
        if maker.size - traded ≤ 0 then
          -- maker.isFilled(): popHead, delete from id map, Removed(Filled)
          let removedEv : Event := .removed ⟨maker.id, .filled, 0, maker.price,
            maker.side, maker.userID, taker.time⟩
          let r := matchInner taker lvlPrice (remaining - traded) (vol - traded) rest
          ⟨r.remaining, r.fifo, r.vol, fill :: r.fills,
            tradeEv :: removedEv :: r.events, maker.id :: r.removed⟩
        else
          -- partial fill: Reduced; here traded = remaining, so the Go inner
          -- loop's next `*remaining > 0` test fails and the loop exits
          let reducedEv : Event := .reduced ⟨maker.id, -traded, maker.size - traded,
            maker.price, maker.side, maker.userID, taker.time⟩
          ⟨remaining - traded, { maker with size := maker.size - traded } :: rest,
            vol - traded, [fill], [tradeEv, reducedEv], []⟩

/-- The limit-price check of `Core.match`: `true` means the best
opposite price is not acceptable and matching stops. -/
def limitStop (side : Side) (limitPrice : Option Int) (bestPrice : Int) : Bool :=
  match limitPrice with
  | none => false
  | some lim =>
    match side with
    | .buy => decide (bestPrice > lim)
    | .sell => decide (bestPrice < lim)

/-- Result of the outer loop of `Core.match` over one book side. -/
structure LoopRes where
  remaining : Int
  levels : List Level
  fills : List Fill
  events : List Event
  removed : List Int
  deriving DecidableEq, Repr

theorem extractBest_eq_none {isBid : Bool} {ls : List Level} :
    extractBest isBid ls = none ↔ ls = [] := by
  cases ls with
  | nil => simp [extractBest]
  | cons l ls =>
    simp only [extractBest]
    cases h : extractBest isBid ls with
    | none => simp
    | some p =>
      obtain ⟨b, rest⟩ := p
      by_cases hb : betterPrice isBid l.price b.price <;> simp [hb]

theorem extractBest_length {isBid : Bool} :
    ∀ {ls : List Level} {b : Level} {rest : List Level},
      extractBest isBid ls = some (b, rest) → rest.length + 1 = ls.length := by
  intro ls
  induction ls with
  | nil => intro b rest h; simp [extractBest] at h
  | cons l ls ih =>
    intro b rest h
    simp only [extractBest] at h
    cases hrec : extractBest isBid ls with
    | none =>
      rw [hrec] at h
      obtain rfl : ls = [] := extractBest_eq_none.mp hrec
      simp at h
      simp [h.2]
    | some p =>
      obtain ⟨b', rest'⟩ := p
      rw [hrec] at h
      by_cases hb : betterPrice isBid l.price b'.price
      · simp [hb] at h
        simp [h.2]
      · simp [hb] at h
        obtain ⟨rfl, rfl⟩ := h
        have := ih hrec
        simp [List.length_cons]
        omega

/-- The outer loop of `Core.match` (core/core.go) over the opposite
side `opp`.  Mirrors the Go control flow: stop when the taker is
filled, the side is empty, or (limit takers) the best price is
unacceptable; otherwise consume the best level's FIFO; remove the
level when drained.  When the level survives, the inner loop has
driven `remaining` to `0`, so the Go `for *remaining > 0` loop exits
and the level is put back unchanged further. -/
def matchLoop (taker : Order) (limitPrice : Option Int) (isBidOpp : Bool)
    (remaining : Int) (opp : List Level) : LoopRes :=
  if remaining ≤ 0 then ⟨remaining, opp, [], [], []⟩
  else
    match h : extractBest isBidOpp opp with
    | none => ⟨remaining, opp, [], [], []⟩
    | some (best, rest) =>
      if limitStop taker.side limitPrice best.price then ⟨remaining, opp, [], [], []⟩
      else
        let r := matchInner taker best.price remaining best.totalVolume best.fifo
        if r.vol ≤ 0 ∨ r.fifo = [] then
          let r2 := matchLoop taker limitPrice isBidOpp r.remaining rest
          ⟨r2.remaining, r2.levels, r.fills ++ r2.fills, r.events ++ r2.events,
            r.removed ++ r2.removed⟩
        else
          ⟨r.remaining, rest ++ [{ best with fifo := r.fifo, totalVolume := r.vol }],
            r.fills, r.events, r.removed⟩
termination_by opp.length
decreasing_by
  have := extractBest_length h
  omega

/-- `Core.match` (core/core.go): dispatch on the taker's side, run the
loop over the opposite side, and delete consumed maker ids from the
id map. -/
def coreMatch (st : CoreState) (taker : Order) (remaining : Int)
    (limitPrice : Option Int) : Int × CoreState × List Fill × List Event :=
  match taker.side with
  | .buy =>
    let r := matchLoop taker limitPrice false remaining st.asks
    (r.remaining,
      { st with asks := r.levels, orders := st.orders.filter (fun i => ¬ i ∈ r.removed) },
      r.fills, r.events)
  | .sell =>
    let r := matchLoop taker limitPrice true remaining st.bids
    (r.remaining,
      { st with bids := r.levels, orders := st.orders.filter (fun i => ¬ i ∈ r.removed) },
      r.fills, r.events)

/-- `bookSide.getOrCreate` followed by `level.append` and the
`totalVolume += size` update of `orderBook.addResting`
(core/book.go): append the node to the FIFO of the level at `price`,
creating the level if absent. -/
def addToLevels (price : Int) (node : RestingOrder) : List Level → List Level
  | [] => [⟨price, [node], node.size⟩]
  | l :: ls =>
    if l.price = price then
      { l with fifo := l.fifo ++ [node], totalVolume := l.totalVolume + node.size } :: ls
    else l :: addToLevels price node ls

/-- `orderBook.addResting` (core/book.go). -/
def CoreState.addResting (st : CoreState) (o : Order) : CoreState :=
  let node : RestingOrder := ⟨o.id, o.userID, o.side, o.price, o.size, o.time⟩
  match o.side with
  | .buy => { st with bids := addToLevels o.price node st.bids, orders := st.orders ++ [o.id] }
  | .sell => { st with asks := addToLevels o.price node st.asks, orders := st.orders ++ [o.id] }

/-- `validateLimit` (core/core.go).  The `Side` range check is
vacuously true in the two-valued embedding of `Side`. -/
def validateLimit (o : Order) : Bool :=
  o.kind = OrderKind.limit && o.id ≠ 0 && o.userID ≠ 0 && o.size > 0 &&
    o.price > 0 && o.time > 0

/-- `validateMarket` (core/core.go). -/
def validateMarket (o : Order) : Bool :=
  o.kind = OrderKind.market && o.id ≠ 0 && o.userID ≠ 0 && o.size > 0 && o.time > 0

/-- `Core.SubmitLimit` (core/core.go). -/
def Core.submitLimit (st : CoreState) (o : Order) :
    Except CoreError (SubmitReport × List Event × CoreState) :=
  if ¬ validateLimit o then .error .invalidOrder
  else if o.id ∈ st.orders then .error .duplicateId
  else
    let m := coreMatch st o o.size (some o.price)
    let rem := m.1
    let st1 := m.2.1
    let fills := m.2.2.1
    let evs := m.2.2.2
    if rem > 0 then
      let st2 := st1.addResting { o with size := rem }
      .ok (⟨o.id, rem, fills, true⟩,
        evs ++ [.rested ⟨o.id, o.userID, o.side, o.price, rem, o.time⟩], st2)
    else
      .ok (⟨o.id, rem, fills, false⟩, evs, st1)

/-- `Core.SubmitMarket` (core/core.go). -/
def Core.submitMarket (st : CoreState) (o : Order) :
    Except CoreError (SubmitReport × List Event × CoreState) :=
  if ¬ validateMarket o then .error .invalidOrder
  else if o.id ∈ st.orders then .error .duplicateId
  else
    let m := coreMatch st o o.size none
    .ok (⟨o.id, m.1, m.2.2.1, false⟩, m.2.2.2, m.2.1)

/-- Lookup of the resting order a book-side id map entry points to:
the node with this id in some level FIFO (unique when the book
invariant holds). -/
def findResting (st : CoreState) (id : Int) : Option RestingOrder :=
  (st.bids ++ st.asks).findSome? (fun l => l.fifo.find? (fun o => o.id = id))

/-- `orderBook.cancel`'s level surgery (core/book.go): in the level
holding `id`, subtract `sz` from `totalVolume`, unlink the node, and
remove the level when drained. -/
def cancelLevels (id sz : Int) : List Level → List Level
  | [] => []
  | l :: ls =>
    if l.fifo.any (fun o => o.id = id) then
      let fifo' := l.fifo.filter (fun o => ¬ o.id = id)
      let vol' := l.totalVolume - sz
      if vol' ≤ 0 ∨ fifo' = [] then ls
      else { l with fifo := fifo', totalVolume := vol' } :: ls
    else l :: cancelLevels id sz ls

/-- `Core.Cancel` (core/core.go) on top of `orderBook.cancel`
(core/book.go).  The Go id-map lookup hands back the pointed-to node;
the embedding recovers it with `findResting` (present exactly when the
id is a key of the map, given the book invariant). -/
def Core.cancel (st : CoreState) (id now : Int) :
    Except CoreError (CancelReport × List Event × CoreState) :=
  if id = 0 ∨ now ≤ 0 then .error .invalidOrder
  else if ¬ id ∈ st.orders then .error .notFound
  else
    match findResting st id with
    | none => .error .notFound
    | some node =>
      let st' :=
        match node.side with
        | .buy => { st with bids := cancelLevels id node.size st.bids,
                            orders := st.orders.filter (fun i => ¬ i = id) }
        | .sell => { st with asks := cancelLevels id node.size st.asks,
                             orders := st.orders.filter (fun i => ¬ i = id) }
      let ev : Event := .removed ⟨node.id, .canceled, node.size, node.price,
        node.side, node.userID, now⟩
      .ok (⟨id, node.size⟩, [ev], st')

/-- A command against one core, as serialized by the service. -/
inductive Command where
  | limit (o : Order)
  | market (o : Order)
  | cancel (id : Int) (now : Int)
  deriving DecidableEq, Repr

/-- Apply one command to the core; rejected commands leave the state
unchanged and emit no events (core/core.go returns before mutating). -/
def applyCommand (st : CoreState) : Command → CoreState × List Event
  | .limit o =>
    match Core.submitLimit st o with
    | .ok (_, evs, st') => (st', evs)
    | .error _ => (st, [])
  | .market o =>
    match Core.submitMarket st o with
    | .ok (_, evs, st') => (st', evs)
    | .error _ => (st, [])
  | .cancel id now =>
    match Core.cancel st id now with
    | .ok (_, evs, st') => (st', evs)
    | .error _ => (st, [])

/-- Run a command sequence from the empty book, accumulating the event
log in order. -/
def runCommands (cmds : List Command) : CoreState × List Event :=
  cmds.foldl (fun acc c =>
    let r := applyCommand acc.1 c
    (r.1, acc.2 ++ r.2)) (CoreState.empty, [])

/-! ## Derived notions used to state the spec claims -/

/-- Total size of a report's fills. -/
def fillSizeSum (fills : List Fill) : Int := (fills.map (·.size)).sum

/-- The sizes of the `Trade` events of an event list, in order. -/
def tradeSizes (evs : List Event) : List Int :=
  evs.filterMap (fun e => match e with | .trade t => some t.size | _ => none)

/-- Total traded size announced by an event list. -/
def tradeSizeSum (evs : List Event) : Int := (tradeSizes evs).sum

/-- The `Trade` events of an event list, in order. -/
def tradesOf (evs : List Event) : List TradeEvent :=
  evs.filterMap (fun e => match e with | .trade t => some t | _ => none)

/-- Whether an event is a `Rested` event. -/
def isRestedEv : Event → Bool
  | .rested _ => true
  | _ => false

/-- The §3-invariant-6 shape of the maker-consumption part of a
command's event list: a sequence of `Trade` immediately followed by
`Reduced` or `Removed(Filled)` pairs. -/
def pairsShaped : List Event → Bool
  | [] => true
  | .trade _ :: .reduced _ :: rest => pairsShaped rest
  | .trade _ :: .removed e :: rest => decide (e.reason = RemoveReason.filled) && pairsShaped rest
  | _ => false

/-- Ids resting in one level's FIFO. -/
def levelIds (l : Level) : List Int := l.fifo.map (·.id)

/-- Ids resting in a book side, in level-list order. -/
def sideIds (ls : List Level) : List Int := (ls.map levelIds).flatten

/-- Ids resting anywhere in the book. -/
def allIds (st : CoreState) : List Int := sideIds st.bids ++ sideIds st.asks

/-- Aggregate resting size of a book side at a price. -/
def sideAgg (ls : List Level) (p : Int) : Int :=
  ((ls.filter (fun l => l.price = p)).map (fun l => fifoSum l.fifo)).sum

/-- Well-formedness of one price level of side `S` (spec §3
invariants 1 and 2, plus consistency of the node fields with the
enclosing level). -/
def LevelWF (S : Side) (l : Level) : Prop :=
  l.fifo ≠ [] ∧ l.totalVolume = fifoSum l.fifo ∧
    ∀ o ∈ l.fifo, 0 < o.size ∧ o.price = l.price ∧ o.side = S

/-- Well-formedness of a book side: distinct level prices (the Go
`levels` map is keyed by price) and well-formed levels. -/
def SideWF (S : Side) (ls : List Level) : Prop :=
  (ls.map (·.price)).Nodup ∧ ∀ l ∈ ls, LevelWF S l

/-- The book invariants of spec §3 as a state predicate: well-formed
sides, globally distinct resting ids, the id map keyed exactly by the
resting ids, and an uncrossed book. -/
def BookInvariants (st : CoreState) : Prop :=
  SideWF Side.buy st.bids ∧ SideWF Side.sell st.asks ∧
    (allIds st).Nodup ∧ (∀ i, i ∈ st.orders ↔ i ∈ allIds st) ∧
    ∀ b ∈ st.bids, ∀ a ∈ st.asks, b.price < a.price

/-! ## Book view (read model), from view/view.go and view/tape.go -/

/-- `orderState` from view/view.go. -/
structure OrderSnap where
  userID : Int
  side : Side
  price : Int
  size : Int
  time : Int
  deriving DecidableEq, Repr

/-- Lookup in an integer-keyed Go map embedded as an association
list; a missing key reads as the zero value `0`. -/
def alGet (m : List (Int × Int)) (k : Int) : Int :=
  match m.find? (fun e => e.1 = k) with
  | some e => e.2
  | none => 0

/-- Store into an integer-keyed Go map embedded as an association list. -/
def alSet (k v : Int) : List (Int × Int) → List (Int × Int)
  | [] => [(k, v)]
  | e :: es => if e.1 = k then (k, v) :: es else e :: alSet k v es

/-- Delete from an integer-keyed Go map embedded as an association list. -/
def alErase (k : Int) (m : List (Int × Int)) : List (Int × Int) :=
  m.filter (fun e => ¬ e.1 = k)

/-- Lookup in the view's `orders` map. -/
def osGet (m : List (Int × OrderSnap)) (k : Int) : Option OrderSnap :=
  (m.find? (fun e => e.1 = k)).map (·.2)

/-- Store into the view's `orders` map. -/
def osSet (k : Int) (v : OrderSnap) : List (Int × OrderSnap) → List (Int × OrderSnap)
  | [] => [(k, v)]
  | e :: es => if e.1 = k then (k, v) :: es else e :: osSet k v es

/-- Delete from the view's `orders` map. -/
def osErase (k : Int) (m : List (Int × OrderSnap)) : List (Int × OrderSnap) :=
  m.filter (fun e => ¬ e.1 = k)

/-- `BookView` from view/view.go (without the `RWMutex`, which guards
concurrent access and does not affect the sequential semantics).  The
`TradeTape` ring buffer of view/tape.go is embedded as its content in
chronological order plus its capacity. -/
structure BookView where
  orders : List (Int × OrderSnap)
  bids : List (Int × Int)
  asks : List (Int × Int)
  tape : List TradeEvent
  tapeCap : Nat
  deriving DecidableEq, Repr

/-- `NewBookView` / `NewTradeTape`: a non-positive tape capacity is
replaced by `1` (view/tape.go). -/
def BookView.new (tapeCapacity : Int) : BookView :=
  ⟨[], [], [], [], if tapeCapacity ≤ 0 then 1 else tapeCapacity.toNat⟩

/-- `TradeTape.Append` (view/tape.go): append, overwriting the oldest
entry when full. -/
def tapeAppend (cap : Nat) (tape : List TradeEvent) (tr : TradeEvent) : List TradeEvent :=
  if tape.length < cap then tape ++ [tr] else tape.drop 1 ++ [tr]

/-- `BookView.Apply` (view/view.go). -/
def BookView.apply (v : BookView) : Event → BookView
  | .trade e => { v with tape := tapeAppend v.tapeCap v.tape e }
  | .rested e =>
    let orders' := osSet e.orderID ⟨e.userID, e.side, e.price, e.size, e.time⟩ v.orders
    match e.side with
    | .buy => { v with orders := orders',
                       bids := alSet e.price (alGet v.bids e.price + e.size) v.bids }
    | .sell => { v with orders := orders',
                        asks := alSet e.price (alGet v.asks e.price + e.size) v.asks }
  | .reduced e =>
    match osGet v.orders e.orderID with
    | none => v -- incomplete or out-of-order event stream: ignore
    | some st =>
      let orders' := osSet e.orderID { st with size := e.remaining } v.orders
      match st.side with
      | .buy =>
        let nv := alGet v.bids st.price + e.delta
        { v with orders := orders',
                 bids := if nv ≤ 0 then alErase st.price v.bids else alSet st.price nv v.bids }
      | .sell =>
        let nv := alGet v.asks st.price + e.delta
        { v with orders := orders',
                 asks := if nv ≤ 0 then alErase st.price v.asks else alSet st.price nv v.asks }
  | .removed e =>
    match osGet v.orders e.orderID with
    | none => v
    | some st =>
      let orders' := osErase e.orderID v.orders
      match st.side with
      | .buy =>
        let nv := alGet v.bids st.price - st.size
        { v with orders := orders',
                 bids := if nv ≤ 0 then alErase st.price v.bids else alSet st.price nv v.bids }
      | .sell =>
        let nv := alGet v.asks st.price - st.size
        { v with orders := orders',
                 asks := if nv ≤ 0 then alErase st.price v.asks else alSet st.price nv v.asks }

/-- Apply an event list in order (the dispatcher loop of
service/service.go calls `view.Apply` per event, in order). -/
def applyEvents (v : BookView) (evs : List Event) : BookView :=
  evs.foldl BookView.apply v

/-- The snapshot of a resting order as the view stores it. -/
def restSnap (o : RestingOrder) : OrderSnap := ⟨o.userID, o.side, o.price, o.size, o.time⟩

/-- Refinement relation between a core state and the view (spec §3
invariant 7): the view's `orders` map holds exactly the snapshots of
the core's resting orders, and the view's per-side aggregates equal
the core's per-price resting volume. -/
def Corresponds (st : CoreState) (v : BookView) : Prop :=
  (∀ l ∈ st.bids ++ st.asks, ∀ o ∈ l.fifo, osGet v.orders o.id = some (restSnap o)) ∧
    (∀ i, i ∉ allIds st → osGet v.orders i = none) ∧
    (∀ p, alGet v.bids p = sideAgg st.bids p) ∧
    (∀ p, alGet v.asks p = sideAgg st.asks p)

/-! ## Orderbook service configuration, from service/config.go and
`NewService` (service/service.go) -/

/-- `Config` from service/config.go. -/
structure Config where
  CommandBuffer : Int
  EventBuffer : Int
  TradeTapeSize : Int
  DropExternalEvents : Bool
  ExternalEventBuffer : Int
  deriving DecidableEq, Repr

/-- `DefaultConfig` from service/config.go. -/
def DefaultConfig : Config :=
  { CommandBuffer := 256
    EventBuffer := 1024
    TradeTapeSize := 1000
    DropExternalEvents := true
    ExternalEventBuffer := 256 }

/-- The configuration normalization at the top of `NewService`
(service/service.go): each non-positive capacity is replaced by its
default. -/
def normalizeConfig (cfg : Config) : Config :=
  let cfg := if cfg.CommandBuffer ≤ 0 then
    { cfg with CommandBuffer := DefaultConfig.CommandBuffer } else cfg
  let cfg := if cfg.EventBuffer ≤ 0 then
    { cfg with EventBuffer := DefaultConfig.EventBuffer } else cfg
  let cfg := if cfg.TradeTapeSize ≤ 0 then
    { cfg with TradeTapeSize := DefaultConfig.TradeTapeSize } else cfg
  let cfg := if cfg.ExternalEventBuffer ≤ 0 then
    { cfg with ExternalEventBuffer := DefaultConfig.ExternalEventBuffer } else cfg
  cfg

/-! ## Orderbook service shutdown behaviour, from service/service.go

After `Close()` has returned, the `closed` channel is closed and both
worker goroutines have exited.  Every command method then hits a
`select` in which the `<-s.closed` case is ready and no reply can ever
arrive, so the call returns `context.Canceled` in every interleaving.
The sequential embedding below captures exactly this observable
behaviour of the command path. -/

/-- The error taxonomy surfaced by the service layer.  `canceled`
embeds Go's `context.Canceled`.  `closed` is the distinct `Closed`
error named by the specification's taxonomy; the implementation in
service/service.go defines no such error and never returns it. -/
inductive ServiceError where
  | invalidOrder
  | duplicateId
  | notFound
  | canceled
  | closed
  deriving DecidableEq, Repr

/-- Core errors surface to service callers verbatim. -/
def liftErr : CoreError → ServiceError
  | .invalidOrder => .invalidOrder
  | .duplicateId => .duplicateId
  | .notFound => .notFound

/-- The command-relevant state of `Service` (service/service.go):
whether the `closed` channel has been closed, plus the owned core. -/
structure ServiceState where
  closed : Bool
  st : CoreState
  deriving DecidableEq, Repr

/-- `NewService`: open service over an empty core. -/
def ServiceState.new : ServiceState := ⟨false, CoreState.empty⟩

/-- `Service.Close` (service/service.go): `closeOnce.Do(close(closed))`
then `wg.Wait()`. -/
def ServiceState.close (s : ServiceState) : ServiceState := { s with closed := true }

/-- `Service.SubmitLimit` (service/service.go) as observed by a caller
once the command processor has run (or, after close, once the closed
channel short-circuits the call). -/
def ServiceState.submitLimit (s : ServiceState) (o : Order) :
    Except ServiceError (SubmitReport × ServiceState) :=
  if s.closed then .error .canceled
  else
    match Core.submitLimit s.st o with
    | .ok (rep, _, st') => .ok (rep, { s with st := st' })
    | .error e => .error (liftErr e)

/-- `Service.SubmitMarket` (service/service.go), as above. -/
def ServiceState.submitMarket (s : ServiceState) (o : Order) :
    Except ServiceError (SubmitReport × ServiceState) :=
  if s.closed then .error .canceled
  else
    match Core.submitMarket s.st o with
    | .ok (rep, _, st') => .ok (rep, { s with st := st' })
    | .error e => .error (liftErr e)

/-- `Service.Cancel` (service/service.go), as above. -/
def ServiceState.cancel (s : ServiceState) (id now : Int) :
    Except ServiceError (CancelReport × ServiceState) :=
  if s.closed then .error .canceled
  else
    match Core.cancel s.st id now with
    | .ok (rep, _, st') => .ok (rep, { s with st := st' })
    | .error e => .error (liftErr e)

/-! ## Market service shutdown, from market/service/service.go -/

/-- The shutdown-relevant state of `MarketService`
(market/service/service.go): whether `closeOnce` has fired (the
`closed` channel) and whether the consolidated `externalEvents`
channel has been closed.  Closing a closed Go channel panics, which
the embedding surfaces as `none`. -/
structure MarketSvcState where
  closedSignal : Bool
  streamClosed : Bool
  deriving DecidableEq, Repr

/-- A freshly constructed `MarketService`. -/
def MarketSvcState.new : MarketSvcState := ⟨false, false⟩

/-- `MarketService.Close` (market/service/service.go):
`closeOnce.Do(close(closed))`, close every child book (idempotent),
`wg.Wait()`, then `close(s.externalEvents)` unconditionally — the last
step panics (`none`) when the channel is already closed. -/
def MarketSvcState.close (s : MarketSvcState) : Option MarketSvcState :=
  let s1 := { s with closedSignal := true }
  if s1.streamClosed then none
  else some { s1 with streamClosed := true }

/-! ## Lemmas about the matching loops -/

theorem extractBest_perm {isBid : Bool} :
    ∀ {ls : List Level} {b : Level} {rest : List Level},
      extractBest isBid ls = some (b, rest) → List.Perm ls (b :: rest) := by
  intro ls
  induction ls with
  | nil => intro b rest h; simp [extractBest] at h
  | cons l ls ih =>
    intro b rest h
    cases hrec : extractBest isBid ls with
    | none =>
      obtain rfl : ls = [] := extractBest_eq_none.mp hrec
      simp only [extractBest, hrec, Option.some.injEq, Prod.mk.injEq] at h
      obtain ⟨rfl, rfl⟩ := h
      exact List.Perm.refl _
    | some p =>
      obtain ⟨b', rest'⟩ := p
      simp only [extractBest, hrec] at h
      by_cases hb : betterPrice isBid l.price b'.price
      · rw [if_pos hb] at h
        simp only [Option.some.injEq, Prod.mk.injEq] at h
        obtain ⟨rfl, rfl⟩ := h
        exact List.Perm.refl _
      · rw [if_neg hb] at h
        simp only [Option.some.injEq, Prod.mk.injEq] at h
        obtain ⟨rfl, rfl⟩ := h
        exact ((ih hrec).cons l).trans (List.Perm.swap b' l rest')

theorem betterPrice_irrefl {isBid : Bool} {p : Int} : betterPrice isBid p p = false := by
  cases isBid <;> simp [betterPrice]

theorem extractBest_is_top {isBid : Bool} :
    ∀ {ls : List Level} {b : Level} {rest : List Level},
      extractBest isBid ls = some (b, rest) →
        ∀ l ∈ ls, betterPrice isBid l.price b.price = false := by
  intro ls
  induction ls with
  | nil => intro b rest h; simp [extractBest] at h
  | cons l ls ih =>
    intro b rest h x hx
    cases hrec : extractBest isBid ls with
    | none =>
      obtain rfl : ls = [] := extractBest_eq_none.mp hrec
      simp only [extractBest, hrec, Option.some.injEq, Prod.mk.injEq] at h
      obtain ⟨rfl, rfl⟩ := h
      simp at hx
      rw [hx]
      exact betterPrice_irrefl
    | some p =>
      obtain ⟨b', rest'⟩ := p
      simp only [extractBest, hrec] at h
      by_cases hb : betterPrice isBid l.price b'.price
      · rw [if_pos hb] at h
        simp only [Option.some.injEq, Prod.mk.injEq] at h
        obtain ⟨rfl, rfl⟩ := h
        cases hx with
        | head => exact betterPrice_irrefl
        | tail _ hx =>
          have hx' := ih hrec x hx
          cases isBid <;> simp [betterPrice] at hx' hb ⊢ <;> omega
      · rw [if_neg hb] at h
        simp only [Option.some.injEq, Prod.mk.injEq] at h
        obtain ⟨rfl, rfl⟩ := h
        cases hx with
        | head => exact Bool.of_not_eq_true hb
        | tail _ hx => exact ih hrec x hx

theorem pairsShaped_append :
    ∀ {a b : List Event}, pairsShaped a = true → pairsShaped b = true →
      pairsShaped (a ++ b) = true := by
  intro a
  induction a using pairsShaped.induct with
  | case1 => intro b _ hb; simpa using hb
  | case2 t e rest ih =>
    intro b ha hb
    simp only [pairsShaped] at ha
    simpa [pairsShaped] using ih ha hb
  | case3 t e rest ih =>
    intro b ha hb
    simp only [pairsShaped, Bool.and_eq_true] at ha
    simp [pairsShaped, ha.1, ih ha.2 hb]
  | case4 evs h1 h2 h3 =>
    intro b ha hb
    rw [pairsShaped.eq_def] at ha
    split at ha
    · simp_all
    · simp_all
    · simp_all
    · exact absurd ha (by simp)

/-- Unconditional facts about the inner maker loop: conservation of
traded size between fills, trade events and remaining; volume
tracking; the consumed ids are exactly the FIFO ids removed from the
front; the event list is a sequence of Trade-then-Reduced-or-Removed
pairs with no Rested event; fills carry the level price; and when the
loop leaves the FIFO non-empty the taker is exhausted. -/
theorem matchInner_facts (taker : Order) (lvlPrice : Int)
    (remaining vol : Int) (fifo : List RestingOrder) :
    (fillSizeSum (matchInner taker lvlPrice remaining vol fifo).fills
        = remaining - (matchInner taker lvlPrice remaining vol fifo).remaining)
      ∧ (tradeSizeSum (matchInner taker lvlPrice remaining vol fifo).events
        = remaining - (matchInner taker lvlPrice remaining vol fifo).remaining)
      ∧ ((matchInner taker lvlPrice remaining vol fifo).vol
        = vol - (remaining - (matchInner taker lvlPrice remaining vol fifo).remaining))
      ∧ ((matchInner taker lvlPrice remaining vol fifo).removed
            ++ ((matchInner taker lvlPrice remaining vol fifo).fifo.map (·.id))
          = fifo.map (·.id))
      ∧ (pairsShaped (matchInner taker lvlPrice remaining vol fifo).events = true)
      ∧ (∀ e ∈ (matchInner taker lvlPrice remaining vol fifo).events, isRestedEv e = false)
      ∧ (∀ f ∈ (matchInner taker lvlPrice remaining vol fifo).fills, f.price = lvlPrice)
      ∧ ((matchInner taker lvlPrice remaining vol fifo).fifo ≠ [] →
          (matchInner taker lvlPrice remaining vol fifo).remaining ≤ 0)
      ∧ ((matchInner taker lvlPrice remaining vol fifo).remaining ≤ remaining)
      ∧ (0 ≤ remaining → 0 ≤ (matchInner taker lvlPrice remaining vol fifo).remaining) := by
  induction remaining, vol, fifo using matchInner.induct taker lvlPrice with
  | case1 remaining vol =>
    simp [matchInner, fillSizeSum, tradeSizeSum, tradeSizes, pairsShaped]
  | case2 remaining vol maker rest h =>
    simp [matchInner, h, fillSizeSum, tradeSizeSum, tradeSizes, pairsShaped]
  | case3 remaining vol maker rest h1 h2 ih =>
    simp only [matchInner, if_neg h1, if_pos h2]
    obtain ⟨i1, i2, i3, i4, i5, i6, i7, i8, i9, i10⟩ := ih
    refine ⟨i1, i2, i3, ?_, i5, i6, i7, i8, i9, i10⟩
    simp [i4]
  | case4 remaining vol maker rest h1 h2 traded htr ih =>
    simp only [matchInner, if_neg h1, if_neg h2, if_pos htr]
    obtain ⟨i1, i2, i3, i4, i5, i6, i7, i8, i9, i10⟩ := ih
    refine ⟨i1, i2, i3, ?_, i5, i6, i7, i8, i9, i10⟩
    simp [i4]
  | case5 remaining vol maker rest h1 h2 traded htr hfill ih =>
    simp only [show traded = min remaining maker.size from rfl] at htr hfill ih
    simp only [matchInner, if_neg h1, if_neg h2, if_neg htr, if_pos hfill]
    obtain ⟨i1, i2, i3, i4, i5, i6, i7, i8, i9, i10⟩ := ih
    refine ⟨?_, ?_, ?_, ?_, ?_, ?_, ?_, i8, ?_, ?_⟩
    · simp only [fillSizeSum, List.map_cons, List.sum_cons] at i1 ⊢
      omega
    · simp only [tradeSizeSum, tradeSizes, List.filterMap_cons, List.sum_cons] at i2 ⊢
      omega
    · omega
    · rw [List.cons_append, List.map_cons, ← i4]
    · simp [pairsShaped, i5]
    · intro e he
      simp at he
      rcases he with rfl | rfl | he
      · rfl
      · rfl
      · exact i6 e he
    · intro f hf
      simp at hf
      rcases hf with rfl | hf
      · rfl
      · exact i7 f hf
    · omega
    · omega
  | case6 remaining vol maker rest h1 h2 traded htr hfill =>
    simp only [show traded = min remaining maker.size from rfl] at htr hfill
    simp only [matchInner, if_neg h1, if_neg h2, if_neg htr, if_neg hfill]
    refine ⟨?_, ?_, ?_, ?_, ?_, ?_, ?_, ?_, ?_, ?_⟩
    · simp only [fillSizeSum, List.map_cons, List.map_nil, List.sum_cons, List.sum_nil]
      omega
    · simp only [tradeSizeSum, tradeSizes, List.filterMap_cons, List.filterMap_nil,
        List.sum_cons, List.sum_nil]
      omega
    · omega
    · simp
    · simp [pairsShaped]
    · intro e he
      fin_cases he <;> rfl
    · intro f hf
      fin_cases hf
      rfl
    · intro _
      omega
    · omega
    · intro _
      omega

theorem fifoSum_nil : fifoSum [] = 0 := rfl

theorem fifoSum_cons (o : RestingOrder) (l : List RestingOrder) :
    fifoSum (o :: l) = o.size + fifoSum l := by
  simp [fifoSum]

theorem fifoSum_append (a b : List RestingOrder) :
    fifoSum (a ++ b) = fifoSum a + fifoSum b := by
  simp [fifoSum]

theorem fifoSum_nonneg : ∀ {fifo : List RestingOrder},
    (∀ o ∈ fifo, 0 ≤ o.size) → 0 ≤ fifoSum fifo := by
  intro fifo
  induction fifo with
  | nil => intro _; simp [fifoSum_nil]
  | cons o l ih =>
    intro h
    rw [fifoSum_cons]
    have h1 := h o (by simp)
    have h2 := ih (fun p hp => h p (by simp [hp]))
    omega

theorem fifoSum_pos {fifo : List RestingOrder}
    (h : ∀ o ∈ fifo, 0 < o.size) (hne : fifo ≠ []) : 0 < fifoSum fifo := by
  cases fifo with
  | nil => exact absurd rfl hne
  | cons o l =>
    rw [fifoSum_cons]
    have h1 := h o (by simp)
    have h2 : 0 ≤ fifoSum l :=
      fifoSum_nonneg (fun p hp => le_of_lt (h p (List.mem_cons_of_mem o hp)))
    omega

theorem sideIds_nil : sideIds [] = [] := rfl

theorem sideIds_cons (l : Level) (ls : List Level) :
    sideIds (l :: ls) = levelIds l ++ sideIds ls := by
  simp [sideIds]

theorem sideIds_append (a b : List Level) :
    sideIds (a ++ b) = sideIds a ++ sideIds b := by
  simp [sideIds]

theorem sideIds_perm {ls ls' : List Level} (h : List.Perm ls ls') :
    List.Perm (sideIds ls) (sideIds ls') := by
  induction h with
  | nil => exact List.Perm.refl _
  | cons x _ ih =>
    rw [sideIds_cons, sideIds_cons]
    exact ih.append_left (levelIds x)
  | swap x y l =>
    rw [sideIds_cons, sideIds_cons, sideIds_cons, sideIds_cons,
      ← List.append_assoc, ← List.append_assoc]
    exact List.perm_append_comm.append_right (sideIds l)
  | trans _ _ ih1 ih2 => exact ih1.trans ih2

/-- Facts about the inner maker loop that need the level to be
well-formed: node fields stay consistent, `totalVolume` keeps tracking
the FIFO sum, and the consumed makers form a prefix of the FIFO
(FIFO consumption order). -/
theorem matchInner_wf (taker : Order) (S : Side) (lvlPrice : Int)
    (remaining vol : Int) (fifo : List RestingOrder)
    (hWF : ∀ o ∈ fifo, 0 < o.size ∧ o.price = lvlPrice ∧ o.side = S)
    (hvol : vol = fifoSum fifo) :
    (∀ o ∈ (matchInner taker lvlPrice remaining vol fifo).fifo,
        0 < o.size ∧ o.price = lvlPrice ∧ o.side = S)
      ∧ ((matchInner taker lvlPrice remaining vol fifo).vol
          = fifoSum (matchInner taker lvlPrice remaining vol fifo).fifo)
      ∧ (∃ t, ((matchInner taker lvlPrice remaining vol fifo).fills.map (·.makerOrderID)) ++ t
          = fifo.map (·.id)) := by
  induction remaining, vol, fifo using matchInner.induct taker lvlPrice with
  | case1 remaining vol =>
    simp [matchInner, fifoSum_nil] at hvol ⊢
    exact hvol
  | case2 remaining vol maker rest h =>
    simp only [matchInner, if_pos h]
    exact ⟨hWF, hvol, ⟨(maker :: rest).map (·.id), by simp⟩⟩
  | case3 remaining vol maker rest h1 h2 ih =>
    exact absurd (hWF maker (by simp)).1 (by omega)
  | case4 remaining vol maker rest h1 h2 traded htr ih =>
    simp only [show traded = min remaining maker.size from rfl] at htr
    omega
  | case5 remaining vol maker rest h1 h2 traded htr hfill ih =>
    simp only [show traded = min remaining maker.size from rfl] at htr hfill ih
    simp only [matchInner, if_neg h1, if_neg h2, if_neg htr, if_pos hfill]
    have hmk := hWF maker (by simp)
    have htrd : min remaining maker.size = maker.size := by omega
    have hWF' : ∀ o ∈ rest, 0 < o.size ∧ o.price = lvlPrice ∧ o.side = S :=
      fun o ho => hWF o (by simp [ho])
    have hvol' : vol - min remaining maker.size = fifoSum rest := by
      rw [hvol, fifoSum_cons]; omega
    obtain ⟨w1, w2, w3⟩ := ih hWF' hvol'
    refine ⟨w1, w2, ?_⟩
    obtain ⟨t, ht⟩ := w3
    exact ⟨t, by simp [ht]⟩
  | case6 remaining vol maker rest h1 h2 traded htr hfill =>
    simp only [show traded = min remaining maker.size from rfl] at htr hfill
    simp only [matchInner, if_neg h1, if_neg h2, if_neg htr, if_neg hfill]
    have hmk := hWF maker (by simp)
    refine ⟨?_, ?_, ?_⟩
    · intro o ho
      rcases List.mem_cons.mp ho with rfl | ho
      · exact ⟨by show (0:Int) < maker.size - min remaining maker.size; omega,
          hmk.2.1, hmk.2.2⟩
      · exact hWF o (by simp [ho])
    · rw [fifoSum_cons]
      simp only [hvol, fifoSum_cons]
      omega
    · exact ⟨rest.map (·.id), by simp⟩

/-- `Core.match` on an exhausted opposite side does nothing. -/
theorem matchLoop_nil (taker : Order) (limitPrice : Option Int) (isBidOpp : Bool)
    (remaining : Int) :
    matchLoop taker limitPrice isBidOpp remaining [] = ⟨remaining, [], [], [], []⟩ := by
  rw [matchLoop]
  simp [extractBest]

theorem matchLoop_exhausted {taker : Order} {limitPrice : Option Int} {isBidOpp : Bool}
    {remaining : Int} {opp : List Level} (h : remaining ≤ 0) :
    matchLoop taker limitPrice isBidOpp remaining opp = ⟨remaining, opp, [], [], []⟩ := by
  rw [matchLoop]
  simp [h]

theorem matchLoop_empty {taker : Order} {limitPrice : Option Int} {isBidOpp : Bool}
    {remaining : Int} {opp : List Level} (h1 : ¬ remaining ≤ 0)
    (h2 : extractBest isBidOpp opp = none) :
    matchLoop taker limitPrice isBidOpp remaining opp = ⟨remaining, opp, [], [], []⟩ := by
  rw [matchLoop, if_neg h1]
  split
  · rfl
  · rename_i best' rest' heq
    simp [h2] at heq

theorem matchLoop_limit {taker : Order} {limitPrice : Option Int} {isBidOpp : Bool}
    {remaining : Int} {opp : List Level} {best : Level} {rest : List Level}
    (h1 : ¬ remaining ≤ 0) (h2 : extractBest isBidOpp opp = some (best, rest))
    (h3 : limitStop taker.side limitPrice best.price = true) :
    matchLoop taker limitPrice isBidOpp remaining opp = ⟨remaining, opp, [], [], []⟩ := by
  rw [matchLoop, if_neg h1]
  split
  · rename_i heq
    simp [heq] at h2
  · rename_i best' rest' heq
    rw [h2] at heq
    injection heq with heq
    injection heq with e1 e2
    subst e1
    subst e2
    rw [if_pos h3]

theorem matchLoop_removed {taker : Order} {limitPrice : Option Int} {isBidOpp : Bool}
    {remaining : Int} {opp : List Level} {best : Level} {rest : List Level}
    (h1 : ¬ remaining ≤ 0) (h2 : extractBest isBidOpp opp = some (best, rest))
    (h3 : ¬ limitStop taker.side limitPrice best.price = true)
    (h4 : (matchInner taker best.price remaining best.totalVolume best.fifo).vol ≤ 0
      ∨ (matchInner taker best.price remaining best.totalVolume best.fifo).fifo = []) :
    matchLoop taker limitPrice isBidOpp remaining opp =
      ⟨(matchLoop taker limitPrice isBidOpp
          (matchInner taker best.price remaining best.totalVolume best.fifo).remaining rest).remaining,
        (matchLoop taker limitPrice isBidOpp
          (matchInner taker best.price remaining best.totalVolume best.fifo).remaining rest).levels,
        (matchInner taker best.price remaining best.totalVolume best.fifo).fills
          ++ (matchLoop taker limitPrice isBidOpp
            (matchInner taker best.price remaining best.totalVolume best.fifo).remaining rest).fills,
        (matchInner taker best.price remaining best.totalVolume best.fifo).events
          ++ (matchLoop taker limitPrice isBidOpp
            (matchInner taker best.price remaining best.totalVolume best.fifo).remaining rest).events,
        (matchInner taker best.price remaining best.totalVolume best.fifo).removed
          ++ (matchLoop taker limitPrice isBidOpp
            (matchInner taker best.price remaining best.totalVolume best.fifo).remaining rest).removed⟩ := by
  conv_lhs => rw [matchLoop]
  rw [if_neg h1]
  split
  · rename_i heq
    simp [heq] at h2
  · rename_i best' rest' heq
    rw [h2] at heq
    injection heq with heq
    injection heq with e1 e2
    subst e1
    subst e2
    rw [if_neg h3, if_pos h4]

theorem matchLoop_kept {taker : Order} {limitPrice : Option Int} {isBidOpp : Bool}
    {remaining : Int} {opp : List Level} {best : Level} {rest : List Level}
    (h1 : ¬ remaining ≤ 0) (h2 : extractBest isBidOpp opp = some (best, rest))
    (h3 : ¬ limitStop taker.side limitPrice best.price = true)
    (h4 : ¬ ((matchInner taker best.price remaining best.totalVolume best.fifo).vol ≤ 0
      ∨ (matchInner taker best.price remaining best.totalVolume best.fifo).fifo = [])) :
    matchLoop taker limitPrice isBidOpp remaining opp =
      ⟨(matchInner taker best.price remaining best.totalVolume best.fifo).remaining,
        rest ++ [{ best with
          fifo := (matchInner taker best.price remaining best.totalVolume best.fifo).fifo,
          totalVolume := (matchInner taker best.price remaining best.totalVolume best.fifo).vol }],
        (matchInner taker best.price remaining best.totalVolume best.fifo).fills,
        (matchInner taker best.price remaining best.totalVolume best.fifo).events,
        (matchInner taker best.price remaining best.totalVolume best.fifo).removed⟩ := by
  conv_lhs => rw [matchLoop]
  rw [if_neg h1]
  split
  · rename_i heq
    simp [heq] at h2
  · rename_i best' rest' heq
    rw [h2] at heq
    injection heq with heq
    injection heq with e1 e2
    subst e1
    subst e2
    rw [if_neg h3, if_neg h4]

theorem fillSizeSum_append (a b : List Fill) :
    fillSizeSum (a ++ b) = fillSizeSum a + fillSizeSum b := by
  simp [fillSizeSum]

theorem tradeSizeSum_append (a b : List Event) :
    tradeSizeSum (a ++ b) = tradeSizeSum a + tradeSizeSum b := by
  simp [tradeSizeSum, tradeSizes]

/-- Unconditional facts about the outer match loop: size conservation
between fills, trade events and remaining; event shape; no `Rested`
events; bounds on `remaining`; and every fill is struck at an
acceptable price belonging to an opposite level. -/
theorem matchLoop_facts (taker : Order) (limitPrice : Option Int) (isBidOpp : Bool)
    (remaining : Int) (opp : List Level) :
    (fillSizeSum (matchLoop taker limitPrice isBidOpp remaining opp).fills
        = remaining - (matchLoop taker limitPrice isBidOpp remaining opp).remaining)
      ∧ (tradeSizeSum (matchLoop taker limitPrice isBidOpp remaining opp).events
        = remaining - (matchLoop taker limitPrice isBidOpp remaining opp).remaining)
      ∧ (pairsShaped (matchLoop taker limitPrice isBidOpp remaining opp).events = true)
      ∧ (∀ e ∈ (matchLoop taker limitPrice isBidOpp remaining opp).events,
          isRestedEv e = false)
      ∧ ((matchLoop taker limitPrice isBidOpp remaining opp).remaining ≤ remaining)
      ∧ (0 ≤ remaining → 0 ≤ (matchLoop taker limitPrice isBidOpp remaining opp).remaining)
      ∧ (∀ f ∈ (matchLoop taker limitPrice isBidOpp remaining opp).fills,
          limitStop taker.side limitPrice f.price = false
            ∧ ∃ l0 ∈ opp, l0.price = f.price) := by
  induction remaining, opp using matchLoop.induct taker limitPrice isBidOpp with
  | case1 remaining opp h =>
    rw [matchLoop_exhausted h]
    simp [fillSizeSum, tradeSizeSum, tradeSizes, pairsShaped]
  | case2 remaining opp h1 hnone =>
    rw [matchLoop_empty h1 hnone]
    simp [fillSizeSum, tradeSizeSum, tradeSizes, pairsShaped]
  | case3 remaining opp h1 best rest hex hstop =>
    rw [matchLoop_limit h1 hex hstop]
    simp [fillSizeSum, tradeSizeSum, tradeSizes, pairsShaped]
  | case4 remaining opp h1 best rest hex hstop r hrem ih =>
    simp only [show r = matchInner taker best.price remaining best.totalVolume best.fifo
      from rfl] at hrem ih
    rw [matchLoop_removed h1 hex hstop hrem]
    dsimp only
    obtain ⟨j1, j2, j3, j4, j5, j6, j7⟩ := ih
    obtain ⟨i1, i2, -, -, i5, i6, i7, -, i9, i10⟩ :=
      matchInner_facts taker best.price remaining best.totalVolume best.fifo
    have hbest : best ∈ opp := (extractBest_perm hex).mem_iff.mpr (by simp)
    refine ⟨?_, ?_, ?_, ?_, ?_, ?_, ?_⟩
    · rw [fillSizeSum_append, i1, j1]
      omega
    · rw [tradeSizeSum_append, i2, j2]
      omega
    · exact pairsShaped_append i5 j3
    · intro e he
      rcases List.mem_append.mp he with he | he
      · exact i6 e he
      · exact j4 e he
    · omega
    · omega
    · intro f hf
      rcases List.mem_append.mp hf with hf | hf
      · refine ⟨?_, best, hbest, (i7 f hf).symm⟩
        rw [i7 f hf]
        exact Bool.of_not_eq_true hstop
      · obtain ⟨hs, l0, hl0, hp⟩ := j7 f hf
        exact ⟨hs, l0, (extractBest_perm hex).mem_iff.mpr (by simp [hl0]), hp⟩
  | case5 remaining opp h1 best rest hex hstop r hkept =>
    simp only [show r = matchInner taker best.price remaining best.totalVolume best.fifo
      from rfl] at hkept
    rw [matchLoop_kept h1 hex hstop hkept]
    dsimp only
    obtain ⟨i1, i2, -, -, ish, inr, i7, -, i9, i10⟩ :=
      matchInner_facts taker best.price remaining best.totalVolume best.fifo
    have hbest : best ∈ opp := (extractBest_perm hex).mem_iff.mpr (by simp)
    refine ⟨i1, i2, ish, inr, i9, i10, ?_⟩
    · intro f hf
      refine ⟨?_, best, hbest, (i7 f hf).symm⟩
      rw [i7 f hf]
      exact Bool.of_not_eq_true hstop

/-- When the outer loop leaves the taker with remaining size, every
surviving opposite level is price-unacceptable (for a market taker
this forces the opposite side to be empty, since `limitStop` is then
constantly `false`). -/
theorem matchLoop_stop (taker : Order) (limitPrice : Option Int) (isBidOpp : Bool)
    (hdir : (taker.side = Side.buy ∧ isBidOpp = false)
      ∨ (taker.side = Side.sell ∧ isBidOpp = true))
    (remaining : Int) (opp : List Level) :
    0 < (matchLoop taker limitPrice isBidOpp remaining opp).remaining →
      ∀ l ∈ (matchLoop taker limitPrice isBidOpp remaining opp).levels,
        limitStop taker.side limitPrice l.price = true := by
  induction remaining, opp using matchLoop.induct taker limitPrice isBidOpp with
  | case1 remaining opp h =>
    rw [matchLoop_exhausted h]
    dsimp only
    intro hpos
    omega
  | case2 remaining opp h1 hnone =>
    rw [matchLoop_empty h1 hnone]
    dsimp only
    obtain rfl : opp = [] := extractBest_eq_none.mp hnone
    intro _ l hl
    exact absurd hl (by simp)
  | case3 remaining opp h1 best rest hex hstop =>
    rw [matchLoop_limit h1 hex hstop]
    dsimp only
    intro _ l hl
    have htop := extractBest_is_top hex l hl
    rcases hdir with ⟨hside, hbid⟩ | ⟨hside, hbid⟩ <;> subst hbid <;>
      rw [hside] at hstop ⊢ <;>
      cases limitPrice with
      | none => simp [limitStop] at hstop
      | some lim =>
        simp [limitStop, betterPrice] at hstop htop ⊢
        omega
  | case4 remaining opp h1 best rest hex hstop r hrem ih =>
    simp only [show r = matchInner taker best.price remaining best.totalVolume best.fifo
      from rfl] at hrem ih
    rw [matchLoop_removed h1 hex hstop hrem]
    dsimp only
    exact ih
  | case5 remaining opp h1 best rest hex hstop r hkept =>
    simp only [show r = matchInner taker best.price remaining best.totalVolume best.fifo
      from rfl] at hkept
    rw [matchLoop_kept h1 hex hstop hkept]
    dsimp only
    intro hpos
    obtain ⟨-, -, -, -, -, -, -, i8, -, -⟩ :=
      matchInner_facts taker best.price remaining best.totalVolume best.fifo
    have : (matchInner taker best.price remaining best.totalVolume best.fifo).fifo ≠ [] := by
      intro hnil
      exact hkept (Or.inr hnil)
    exact absurd (i8 this) (by omega)

/-- Facts about the outer loop that need the side to be well-formed:
levels stay well-formed, the resting ids of the side are exactly the
removed ids plus the surviving ids (as a permutation), surviving level
prices come from the original side, and price distinctness survives. -/
theorem matchLoop_wf (taker : Order) (limitPrice : Option Int) (isBidOpp : Bool)
    {S : Side} (remaining : Int) (opp : List Level)
    (hWF : ∀ l ∈ opp, LevelWF S l) :
    (∀ l ∈ (matchLoop taker limitPrice isBidOpp remaining opp).levels, LevelWF S l)
      ∧ List.Perm (sideIds opp)
        ((matchLoop taker limitPrice isBidOpp remaining opp).removed
          ++ sideIds (matchLoop taker limitPrice isBidOpp remaining opp).levels)
      ∧ (∀ l ∈ (matchLoop taker limitPrice isBidOpp remaining opp).levels,
          l.price ∈ opp.map (·.price))
      ∧ ((opp.map (·.price)).Nodup →
          ((matchLoop taker limitPrice isBidOpp remaining opp).levels.map (·.price)).Nodup) := by
  induction remaining, opp using matchLoop.induct taker limitPrice isBidOpp with
  | case1 remaining opp h =>
    rw [matchLoop_exhausted h]
    exact ⟨hWF, List.Perm.refl _, fun l hl => List.mem_map_of_mem _ hl, fun h => h⟩
  | case2 remaining opp h1 hnone =>
    rw [matchLoop_empty h1 hnone]
    exact ⟨hWF, List.Perm.refl _, fun l hl => List.mem_map_of_mem _ hl, fun h => h⟩
  | case3 remaining opp h1 best rest hex hstop =>
    rw [matchLoop_limit h1 hex hstop]
    exact ⟨hWF, List.Perm.refl _, fun l hl => List.mem_map_of_mem _ hl, fun h => h⟩
  | case4 remaining opp h1 best rest hex hstop r hrem ih =>
    simp only [show r = matchInner taker best.price remaining best.totalVolume best.fifo
      from rfl] at hrem ih
    rw [matchLoop_removed h1 hex hstop hrem]
    dsimp only
    have hperm := extractBest_perm hex
    have hbest : best ∈ opp := hperm.mem_iff.mpr (by simp)
    have hbwf := hWF best hbest
    have hWFrest : ∀ l ∈ rest, LevelWF S l :=
      fun l hl => hWF l (hperm.mem_iff.mpr (by simp [hl]))
    obtain ⟨w1, w2, -⟩ := matchInner_wf taker S best.price remaining best.totalVolume
      best.fifo (hbwf.2.2) (hbwf.2.1)
    obtain ⟨-, -, -, i4, -, -, -, -, -, -⟩ :=
      matchInner_facts taker best.price remaining best.totalVolume best.fifo
    have hfifo : (matchInner taker best.price remaining best.totalVolume best.fifo).fifo = [] := by
      rcases hrem with hv | hf
      · by_contra hne
        have : 0 < fifoSum (matchInner taker best.price remaining best.totalVolume best.fifo).fifo :=
          fifoSum_pos (fun o ho => (w1 o ho).1) hne
        omega
      · exact hf
    have hrumv : (matchInner taker best.price remaining best.totalVolume best.fifo).removed
        = levelIds best := by
      have := i4
      rw [hfifo] at this
      simpa [levelIds] using this
    obtain ⟨a1, a2, a3, a4⟩ := ih hWFrest
    refine ⟨a1, ?_, ?_, ?_⟩
    · have h0 : List.Perm (sideIds opp) (levelIds best ++ sideIds rest) := by
        have := sideIds_perm hperm
        rwa [sideIds_cons] at this
      refine h0.trans ?_
      rw [hrumv, List.append_assoc]
      exact a2.append_left (levelIds best)
    · intro l hl
      have hm := a3 l hl
      have hmap : List.Perm (opp.map (·.price)) (best.price :: rest.map (·.price)) := by
        simpa using hperm.map (·.price)
      exact hmap.mem_iff.mpr (List.mem_cons_of_mem _ hm)
    · intro hnd
      have hmap : List.Perm (opp.map (·.price)) (best.price :: rest.map (·.price)) := by
        simpa using hperm.map (·.price)
      exact a4 ((hmap.nodup_iff.mp hnd).of_cons)
  | case5 remaining opp h1 best rest hex hstop r hkept =>
    simp only [show r = matchInner taker best.price remaining best.totalVolume best.fifo
      from rfl] at hkept
    rw [matchLoop_kept h1 hex hstop hkept]
    dsimp only
    have hperm := extractBest_perm hex
    have hbest : best ∈ opp := hperm.mem_iff.mpr (by simp)
    have hbwf := hWF best hbest
    have hWFrest : ∀ l ∈ rest, LevelWF S l :=
      fun l hl => hWF l (hperm.mem_iff.mpr (by simp [hl]))
    obtain ⟨w1, w2, -⟩ := matchInner_wf taker S best.price remaining best.totalVolume
      best.fifo (hbwf.2.2) (hbwf.2.1)
    obtain ⟨-, -, -, i4, -, -, -, -, -, -⟩ :=
      matchInner_facts taker best.price remaining best.totalVolume best.fifo
    have hmap : List.Perm (opp.map (·.price)) (best.price :: rest.map (·.price)) := by
      simpa using hperm.map (·.price)
    refine ⟨?_, ?_, ?_, ?_⟩
    · intro l hl
      rcases List.mem_append.mp hl with hl | hl
      · exact hWFrest l hl
      · simp at hl
        subst hl
        refine ⟨by intro hnil; exact hkept (Or.inr hnil), w2, w1⟩
    · have h0 : List.Perm (sideIds opp) (levelIds best ++ sideIds rest) := by
        have := sideIds_perm hperm
        rwa [sideIds_cons] at this
      refine h0.trans ?_
      rw [sideIds_append, sideIds_cons, sideIds_nil, List.append_nil]
      have hib : levelIds best
          = (matchInner taker best.price remaining best.totalVolume best.fifo).removed
            ++ levelIds { best with
              fifo := (matchInner taker best.price remaining best.totalVolume best.fifo).fifo,
              totalVolume := (matchInner taker best.price remaining best.totalVolume best.fifo).vol } := by
        simpa [levelIds] using i4.symm
      rw [hib, List.append_assoc]
      exact List.Perm.append_left _ List.perm_append_comm
    · intro l hl
      rcases List.mem_append.mp hl with hl | hl
      · exact hmap.mem_iff.mpr (List.mem_cons_of_mem _ (List.mem_map_of_mem _ hl))
      · simp at hl
        subst hl
        exact hmap.mem_iff.mpr (List.mem_cons_self _ _)
    · intro hnd
      have hcons := hmap.nodup_iff.mp hnd
      have hp : List.Perm (rest.map (fun l => l.price) ++ [best.price])
          (best.price :: rest.map (fun l => l.price)) := by
        exact List.perm_append_comm
      simp only [List.map_append, List.map_cons, List.map_nil]
      exact hp.nodup_iff.mpr hcons


/-- FIFO consumption across levels: for every pre-match opposite
level, the fills struck at that level's price consume a prefix of that
level's FIFO, in order. -/
theorem matchLoop_fifo_prefix (taker : Order) (limitPrice : Option Int) (isBidOpp : Bool)
    {S : Side} (remaining : Int) (opp : List Level)
    (hWF : ∀ l ∈ opp, LevelWF S l) (hnd : (opp.map (·.price)).Nodup) :
    ∀ l0 ∈ opp, ∃ t,
      (((matchLoop taker limitPrice isBidOpp remaining opp).fills.filter
          (fun f => f.price = l0.price)).map (·.makerOrderID)) ++ t
        = l0.fifo.map (·.id) := by
  induction remaining, opp using matchLoop.induct taker limitPrice isBidOpp with
  | case1 remaining opp h =>
    rw [matchLoop_exhausted h]
    intro l0 _
    exact ⟨l0.fifo.map (·.id), by simp⟩
  | case2 remaining opp h1 hnone =>
    rw [matchLoop_empty h1 hnone]
    intro l0 _
    exact ⟨l0.fifo.map (·.id), by simp⟩
  | case3 remaining opp h1 best rest hex hstop =>
    rw [matchLoop_limit h1 hex hstop]
    intro l0 _
    exact ⟨l0.fifo.map (·.id), by simp⟩
  | case4 remaining opp h1 best rest hex hstop r hrem ih =>
    simp only [show r = matchInner taker best.price remaining best.totalVolume best.fifo
      from rfl] at hrem ih
    rw [matchLoop_removed h1 hex hstop hrem]
    dsimp only
    have hperm := extractBest_perm hex
    have hbest : best ∈ opp := hperm.mem_iff.mpr (by simp)
    have hbwf := hWF best hbest
    have hWFrest : ∀ l ∈ rest, LevelWF S l :=
      fun l hl => hWF l (hperm.mem_iff.mpr (by simp [hl]))
    have hmap : List.Perm (opp.map (·.price)) (best.price :: rest.map (·.price)) := by
      simpa using hperm.map (·.price)
    have hndc : (best.price :: rest.map (·.price)).Nodup := hmap.nodup_iff.mp hnd
    have hndrest : (rest.map (·.price)).Nodup := hndc.of_cons
    have hbnotin : best.price ∉ rest.map (·.price) := by
      intro hmem
      exact (List.nodup_cons.mp hndc).1 hmem
    obtain ⟨-, -, -, -, -, -, i7, -, -, -⟩ :=
      matchInner_facts taker best.price remaining best.totalVolume best.fifo
    obtain ⟨-, -, w3⟩ := matchInner_wf taker S best.price remaining best.totalVolume
      best.fifo (hbwf.2.2) (hbwf.2.1)
    obtain ⟨-, -, -, -, -, -, j7⟩ := matchLoop_facts taker limitPrice isBidOpp
      (matchInner taker best.price remaining best.totalVolume best.fifo).remaining rest
    intro l0 hl0
    rcases List.mem_cons.mp (hperm.mem_iff.mp hl0) with hbl | hl0rest
    · -- the consumed best level: recursive fills are at other prices
      subst hbl
      have hfa : ((matchInner taker l0.price remaining l0.totalVolume l0.fifo).fills.filter
          (fun f => f.price = l0.price)) =
          (matchInner taker l0.price remaining l0.totalVolume l0.fifo).fills :=
        List.filter_eq_self.mpr (fun f hf => by simp [i7 f hf])
      have hfb : ((matchLoop taker limitPrice isBidOpp
          (matchInner taker l0.price remaining l0.totalVolume l0.fifo).remaining rest).fills.filter
          (fun f => f.price = l0.price)) = [] := by
        rw [List.filter_eq_nil_iff]
        intro f hf
        obtain ⟨-, l', hl', hp'⟩ := j7 f hf
        simp only [decide_eq_true_eq]
        intro hcontra
        have hmem : l'.price ∈ rest.map (fun x => x.price) := List.mem_map_of_mem _ hl'
        rw [hp', hcontra] at hmem
        exact hbnotin hmem
      rw [List.filter_append, hfa, hfb, List.append_nil]
      exact w3
    · -- an untouched-by-best level: fills at the best price are filtered out
      have hl0p : l0.price ∈ rest.map (·.price) := List.mem_map_of_mem _ hl0rest
      have hfa : ((matchInner taker best.price remaining best.totalVolume best.fifo).fills.filter
          (fun f => f.price = l0.price)) = [] := by
        rw [List.filter_eq_nil_iff]
        intro f hf
        simp only [decide_eq_true_eq]
        rw [i7 f hf]
        intro hcontra
        exact hbnotin (hcontra ▸ hl0p)
      rw [List.filter_append, hfa, List.nil_append]
      exact ih hWFrest hndrest l0 hl0rest
  | case5 remaining opp h1 best rest hex hstop r hkept =>
    simp only [show r = matchInner taker best.price remaining best.totalVolume best.fifo
      from rfl] at hkept
    rw [matchLoop_kept h1 hex hstop hkept]
    dsimp only
    have hperm := extractBest_perm hex
    have hbest : best ∈ opp := hperm.mem_iff.mpr (by simp)
    have hbwf := hWF best hbest
    have hmap : List.Perm (opp.map (·.price)) (best.price :: rest.map (·.price)) := by
      simpa using hperm.map (·.price)
    have hndc : (best.price :: rest.map (·.price)).Nodup := hmap.nodup_iff.mp hnd
    have hbnotin : best.price ∉ rest.map (·.price) := by
      intro hmem
      exact (List.nodup_cons.mp hndc).1 hmem
    obtain ⟨-, -, -, -, -, -, i7, -, -, -⟩ :=
      matchInner_facts taker best.price remaining best.totalVolume best.fifo
    obtain ⟨-, -, w3⟩ := matchInner_wf taker S best.price remaining best.totalVolume
      best.fifo (hbwf.2.2) (hbwf.2.1)
    intro l0 hl0
    rcases List.mem_cons.mp (hperm.mem_iff.mp hl0) with hbl | hl0rest
    · subst hbl
      have hfa : ((matchInner taker l0.price remaining l0.totalVolume l0.fifo).fills.filter
          (fun f => f.price = l0.price)) =
          (matchInner taker l0.price remaining l0.totalVolume l0.fifo).fills :=
        List.filter_eq_self.mpr (fun f hf => by simp [i7 f hf])
      rw [hfa]
      exact w3
    · have hl0p : l0.price ∈ rest.map (·.price) := List.mem_map_of_mem _ hl0rest
      have hfa : ((matchInner taker best.price remaining best.totalVolume best.fifo).fills.filter
          (fun f => f.price = l0.price)) = [] := by
        rw [List.filter_eq_nil_iff]
        intro f hf
        simp only [decide_eq_true_eq]
        rw [i7 f hf]
        intro hcontra
        exact hbnotin (hcontra ▸ hl0p)
      rw [hfa]
      exact ⟨l0.fifo.map (·.id), by simp⟩


theorem sideAgg_nil (q : Int) : sideAgg [] q = 0 := rfl

theorem sideAgg_cons (l : Level) (ls : List Level) (q : Int) :
    sideAgg (l :: ls) q = (if l.price = q then fifoSum l.fifo else 0) + sideAgg ls q := by
  by_cases h : l.price = q <;> simp [sideAgg, h]

theorem sideAgg_append (a b : List Level) (q : Int) :
    sideAgg (a ++ b) q = sideAgg a q + sideAgg b q := by
  simp [sideAgg, List.filter_append]

theorem sideAgg_perm {a b : List Level} (h : List.Perm a b) (q : Int) :
    sideAgg a q = sideAgg b q := by
  unfold sideAgg
  exact List.Perm.sum_eq ((h.filter _).map _)

theorem sideAgg_nonneg {ls : List Level} {S : Side}
    (hWF : ∀ l ∈ ls, LevelWF S l) (q : Int) : 0 ≤ sideAgg ls q := by
  induction ls with
  | nil => simp [sideAgg_nil]
  | cons l ls ih =>
    rw [sideAgg_cons]
    have h1 : 0 ≤ fifoSum l.fifo :=
      fifoSum_nonneg (fun o ho => le_of_lt ((hWF l (by simp)).2.2 o ho).1)
    have h2 := ih (fun l hl => hWF l (by simp [hl]))
    split <;> omega

theorem addToLevels_wf (S : Side) (p : Int) (n : RestingOrder)
    (hn : 0 < n.size) (hp : n.price = p) (hs : n.side = S) :
    ∀ {ls : List Level}, (∀ l ∈ ls, LevelWF S l) →
      ∀ l ∈ addToLevels p n ls, LevelWF S l := by
  intro ls
  induction ls with
  | nil =>
    intro _ l hl
    simp [addToLevels] at hl
    subst hl
    exact ⟨by simp, by simp [fifoSum_cons, fifoSum_nil], by simp [hp, hs]; omega⟩
  | cons l0 ls ih =>
    intro hWF l hl
    simp only [addToLevels] at hl
    by_cases hp0 : l0.price = p
    · rw [if_pos hp0] at hl
      rcases List.mem_cons.mp hl with rfl | hl
      · have h0 := hWF l0 (by simp)
        refine ⟨by simp, ?_, ?_⟩
        · simp only [fifoSum_append, fifoSum_cons, fifoSum_nil]
          have := h0.2.1
          omega
        · intro o ho
          simp at ho
          rcases ho with ho | rfl
          · have := h0.2.2 o ho
            simpa using this
          · simp [hp, hs, hp0]
            omega
      · exact hWF l (by simp [hl])
    · rw [if_neg hp0] at hl
      rcases List.mem_cons.mp hl with rfl | hl
      · exact hWF l (by simp)
      · exact ih (fun l1 h1 => hWF l1 (by simp [h1])) l hl

theorem addToLevels_price_mem (p : Int) (n : RestingOrder) :
    ∀ (ls : List Level) (q : Int),
      q ∈ (addToLevels p n ls).map (·.price) ↔ q ∈ ls.map (·.price) ∨ q = p := by
  intro ls
  induction ls with
  | nil => intro q; simp [addToLevels]
  | cons l0 ls ih =>
    intro q
    simp only [addToLevels]
    by_cases hp0 : l0.price = p
    · rw [if_pos hp0]
      simp only [List.map_cons, List.mem_cons]
      constructor
      · intro h; tauto
      · rintro ((h | h) | rfl)
        · exact Or.inl h
        · exact Or.inr h
        · exact Or.inl hp0.symm
    · rw [if_neg hp0]
      simp only [List.map_cons, List.mem_cons, ih]
      tauto

theorem addToLevels_nodup (p : Int) (n : RestingOrder) :
    ∀ {ls : List Level}, (ls.map (·.price)).Nodup →
      ((addToLevels p n ls).map (·.price)).Nodup := by
  intro ls
  induction ls with
  | nil => intro _; simp [addToLevels]
  | cons l0 ls ih =>
    intro hnd
    simp only [addToLevels]
    by_cases hp0 : l0.price = p
    · rw [if_pos hp0]
      simpa using hnd
    · rw [if_neg hp0]
      simp only [List.map_cons, List.nodup_cons] at hnd ⊢
      refine ⟨?_, ih hnd.2⟩
      intro hmem
      rcases (addToLevels_price_mem p n ls l0.price).mp hmem with h | h
      · exact hnd.1 h
      · exact hp0 h

theorem addToLevels_ids_perm (p : Int) (n : RestingOrder) :
    ∀ (ls : List Level),
      List.Perm (sideIds (addToLevels p n ls)) (sideIds ls ++ [n.id]) := by
  intro ls
  induction ls with
  | nil => simp [addToLevels, sideIds_cons, sideIds_nil, levelIds]
  | cons l0 ls ih =>
    simp only [addToLevels]
    by_cases hp0 : l0.price = p
    · rw [if_pos hp0]
      rw [sideIds_cons, sideIds_cons]
      have h1 : levelIds { l0 with fifo := l0.fifo ++ [n], totalVolume := l0.totalVolume + n.size }
          = levelIds l0 ++ [n.id] := by
        simp [levelIds]
      rw [h1, List.append_assoc, List.append_assoc]
      exact List.Perm.append_left _ List.perm_append_comm
    · rw [if_neg hp0]
      rw [sideIds_cons, sideIds_cons, List.append_assoc]
      exact List.Perm.append_left _ ih

theorem addToLevels_agg (p : Int) (n : RestingOrder) :
    ∀ (ls : List Level) (q : Int),
      sideAgg (addToLevels p n ls) q = sideAgg ls q + (if q = p then n.size else 0) := by
  intro ls
  induction ls with
  | nil =>
    intro q
    rw [show addToLevels p n [] = [⟨p, [n], n.size⟩] from rfl, sideAgg_cons,
      sideAgg_nil]
    dsimp only
    simp only [fifoSum_cons, fifoSum_nil]
    split_ifs <;> omega
  | cons l0 ls ih =>
    intro q
    simp only [addToLevels]
    by_cases hp0 : l0.price = p
    · rw [if_pos hp0]
      rw [sideAgg_cons, sideAgg_cons]
      simp only [fifoSum_append, fifoSum_cons, fifoSum_nil]
      by_cases hq : l0.price = q
      · rw [if_pos hq, if_pos hq, if_pos (by rw [← hq, hp0])]
        omega
      · rw [if_neg hq, if_neg hq, if_neg (by intro hh; exact hq (by rw [hp0, hh]))]
        omega
    · rw [if_neg hp0]
      rw [sideAgg_cons, sideAgg_cons, ih]
      omega

theorem addToLevels_tail (p : Int) (n : RestingOrder) :
    ∀ (ls : List Level),
      ∃ l ∈ addToLevels p n ls, l.price = p ∧ ∃ pre, l.fifo = pre ++ [n] := by
  intro ls
  induction ls with
  | nil => exact ⟨⟨p, [n], n.size⟩, by simp [addToLevels], rfl, [], by simp⟩
  | cons l0 ls ih =>
    simp only [addToLevels]
    by_cases hp0 : l0.price = p
    · rw [if_pos hp0]
      exact ⟨{ l0 with fifo := l0.fifo ++ [n], totalVolume := l0.totalVolume + n.size },
        by simp, hp0, l0.fifo, rfl⟩
    · rw [if_neg hp0]
      obtain ⟨l, hl, h1, h2⟩ := ih
      exact ⟨l, by simp [hl], h1, h2⟩


theorem sideAgg_not_mem {ls : List Level} {q : Int}
    (h : q ∉ ls.map (fun l => l.price)) : sideAgg ls q = 0 := by
  induction ls with
  | nil => rfl
  | cons l ls ih =>
    rw [sideAgg_cons]
    have h1 : ¬ l.price = q := by
      intro hh
      exact h (by simp [hh.symm])
    rw [if_neg h1, ih (fun hh => h (by simp [hh]))]
    omega

theorem mem_sideIds {ls : List Level} {L : Level} {o : RestingOrder}
    (hL : L ∈ ls) (ho : o ∈ L.fifo) : o.id ∈ sideIds ls := by
  induction ls with
  | nil => simp at hL
  | cons L1 ls ih =>
    rw [sideIds_cons]
    rcases List.mem_cons.mp hL with rfl | hL
    · exact List.mem_append.mpr (Or.inl (List.mem_map_of_mem _ ho))
    · exact List.mem_append.mpr (Or.inr (ih hL))

theorem fifo_remove_perm {n : RestingOrder} :
    ∀ {fifo : List RestingOrder}, n ∈ fifo → ((fifo.map (·.id)).Nodup) →
      List.Perm fifo (n :: fifo.filter (fun o => ¬ o.id = n.id)) := by
  intro fifo
  induction fifo with
  | nil => intro h; exact absurd h (by simp)
  | cons o fifo ih =>
    intro hmem hnd
    simp only [List.map_cons, List.nodup_cons] at hnd
    rcases List.mem_cons.mp hmem with rfl | hmem
    · have hkeep : fifo.filter (fun o => ¬ o.id = n.id) = fifo := by
        rw [List.filter_eq_self]
        intro x hx
        simp only [decide_eq_true_eq]
        intro hh
        exact hnd.1 (hh ▸ List.mem_map_of_mem _ hx)
      have hdrop : (n :: fifo).filter (fun o => ¬ o.id = n.id) = fifo := by
        rw [List.filter_cons, if_neg (by simp), hkeep]
      rw [hdrop]
    · have hne : ¬ o.id = n.id := by
        intro hh
        exact hnd.1 (hh ▸ List.mem_map_of_mem _ hmem)
      have hcons : (o :: fifo).filter (fun x => ¬ x.id = n.id)
          = o :: fifo.filter (fun x => ¬ x.id = n.id) := by
        rw [List.filter_cons, if_pos (by simpa using hne)]
      rw [hcons]
      exact ((ih hmem hnd.2).cons o).trans (List.Perm.swap n o _)

theorem cancelLevels_found {S : Side} {n : RestingOrder} :
    ∀ {ls : List Level}, (∀ l ∈ ls, LevelWF S l) → (sideIds ls).Nodup →
      (∃ L ∈ ls, n ∈ L.fifo) →
      (∀ l ∈ cancelLevels n.id n.size ls, LevelWF S l)
        ∧ List.Perm (sideIds ls) (n.id :: sideIds (cancelLevels n.id n.size ls))
        ∧ (∀ q, sideAgg (cancelLevels n.id n.size ls) q
            = sideAgg ls q - (if q = n.price then n.size else 0))
        ∧ (∀ q, q ∈ (cancelLevels n.id n.size ls).map (fun l => l.price)
            → q ∈ ls.map (fun l => l.price))
        ∧ ((ls.map (fun l => l.price)).Nodup →
            ((cancelLevels n.id n.size ls).map (fun l => l.price)).Nodup)
        ∧ ((ls.map (fun l => l.price)).Nodup →
            ((∃ l ∈ cancelLevels n.id n.size ls, l.price = n.price)
              ↔ 0 < sideAgg ls n.price - n.size)) := by
  intro ls
  induction ls with
  | nil =>
    intro _ _ hfound
    exact absurd hfound (by simp)
  | cons L0 ls ih =>
    intro hWF hnd hfound
    rw [sideIds_cons] at hnd
    simp only [cancelLevels]
    by_cases hany : L0.fifo.any (fun o => o.id = n.id)
    · rw [if_pos hany]
      -- the node lives in this level
      obtain ⟨o, ho, hoid⟩ := List.any_eq_true.mp hany
      simp only [decide_eq_true_eq] at hoid
      have hnL0 : n ∈ L0.fifo := by
        rcases hfound with ⟨L, hL, hnL⟩
        rcases List.mem_cons.mp hL with rfl | hL
        · exact hnL
        · exfalso
          have h1 : n.id ∈ levelIds L0 := hoid ▸ List.mem_map_of_mem _ ho
          exact (List.disjoint_of_nodup_append hnd) h1 (mem_sideIds hL hnL)
      have hL0wf := hWF L0 (List.mem_cons_self _ _)
      have hndL0 : (L0.fifo.map (·.id)).Nodup := by
        have := hnd.of_append_left
        simpa [levelIds] using this
      have hpm := fifo_remove_perm hnL0 hndL0
      have hsum : fifoSum L0.fifo
          = n.size + fifoSum (L0.fifo.filter (fun o => ¬ o.id = n.id)) := by
        have := hpm
        calc fifoSum L0.fifo = fifoSum (n :: L0.fifo.filter (fun o => ¬ o.id = n.id)) := by
              unfold fifoSum
              exact List.Perm.sum_eq (this.map _)
          _ = n.size + fifoSum (L0.fifo.filter (fun o => ¬ o.id = n.id)) := fifoSum_cons _ _
      have hvol : L0.totalVolume = fifoSum L0.fifo := hL0wf.2.1
      have hnp : n.price = L0.price := (hL0wf.2.2 n hnL0).2.1
      have hidperm : List.Perm (levelIds L0)
          (n.id :: (L0.fifo.filter (fun o => ¬ o.id = n.id)).map (·.id)) := by
        simpa [levelIds] using hpm.map (·.id)
      by_cases hgone : L0.totalVolume - n.size ≤ 0
          ∨ L0.fifo.filter (fun o => ¬ o.id = n.id) = []
      · rw [if_pos hgone]
        have hfnil : L0.fifo.filter (fun o => ¬ o.id = n.id) = [] := by
          rcases hgone with hv | hf
          · by_contra hne
            have hpos : 0 < fifoSum (L0.fifo.filter (fun o => ¬ o.id = n.id)) :=
              fifoSum_pos (fun o ho =>
                (hL0wf.2.2 o (List.mem_of_mem_filter ho)).1) hne
            omega
          · exact hf
        have hsz : fifoSum L0.fifo = n.size := by
          rw [hsum, hfnil]
          simp [fifoSum_nil]
        refine ⟨fun l hl => hWF l (List.mem_cons_of_mem _ hl), ?_, ?_, ?_, ?_, ?_⟩
        · rw [sideIds_cons]
          have h1 : List.Perm (levelIds L0) [n.id] := by
            rw [hfnil] at hidperm
            simpa using hidperm
          exact h1.append_right (sideIds ls)
        · intro q
          rw [sideAgg_cons]
          by_cases hq : L0.price = q
          · rw [if_pos hq, if_pos (by rw [← hq, hnp])]
            omega
          · rw [if_neg hq, if_neg (by intro hh; exact hq (by rw [← hnp, hh]))]
            omega
        · intro q hq
          exact List.mem_cons_of_mem _ hq
        · intro hpnd
          exact (List.nodup_cons.mp (by simpa using hpnd)).2
        · intro hpnd
          simp only [List.map_cons, List.nodup_cons] at hpnd
          constructor
          · rintro ⟨l, hl, hlp⟩
            exfalso
            have : n.price ∈ ls.map (fun l => l.price) := by
              rw [← hlp]
              exact List.mem_map_of_mem _ hl
            rw [hnp] at this
            exact hpnd.1 this
          · intro hpos
            exfalso
            rw [sideAgg_cons, if_pos hnp.symm, hsz] at hpos
            have : sideAgg ls n.price = 0 := sideAgg_not_mem (by rw [hnp]; exact hpnd.1)
            omega
      · rw [if_neg hgone]
        push_neg at hgone
        have hvol' : L0.totalVolume - n.size
            = fifoSum (L0.fifo.filter (fun o => ¬ o.id = n.id)) := by
          rw [hvol, hsum]
          omega
        refine ⟨?_, ?_, ?_, ?_, ?_, ?_⟩
        · intro l hl
          rcases List.mem_cons.mp hl with rfl | hl
          · refine ⟨hgone.2, hvol', ?_⟩
            intro o ho
            have hsub : o ∈ L0.fifo := List.mem_of_mem_filter ho
            exact hL0wf.2.2 o hsub
          · exact hWF l (List.mem_cons_of_mem _ hl)
        · rw [sideIds_cons, sideIds_cons]
          have h2 : levelIds { L0 with
              fifo := L0.fifo.filter (fun o => ¬ o.id = n.id),
              totalVolume := L0.totalVolume - n.size }
              = (L0.fifo.filter (fun o => ¬ o.id = n.id)).map (·.id) := rfl
          rw [h2]
          exact hidperm.append_right (sideIds ls)
        · intro q
          rw [sideAgg_cons, sideAgg_cons]
          dsimp only
          by_cases hq : L0.price = q
          · rw [if_pos hq, if_pos hq, if_pos (by rw [← hq, hnp])]
            omega
          · rw [if_neg hq, if_neg hq, if_neg (by intro hh; exact hq (by rw [← hnp, hh]))]
            omega
        · intro q hq
          simpa using hq
        · intro hpnd
          simpa using hpnd
        · intro hpnd
          constructor
          · intro _
            rw [sideAgg_cons, if_pos hnp.symm, ← hvol, hnp]
            have : sideAgg ls n.price = 0 := by
              refine sideAgg_not_mem ?_
              simp only [List.map_cons, List.nodup_cons] at hpnd
              rw [hnp]
              exact hpnd.1
            rw [hnp] at this
            omega
          · intro _
            refine ⟨{ L0 with
              fifo := L0.fifo.filter (fun o => ¬ o.id = n.id),
              totalVolume := L0.totalVolume - n.size }, List.mem_cons_self _ _, hnp.symm⟩
    · rw [if_neg hany]
      have hnotL0 : n ∉ L0.fifo := by
        intro hmem
        exact hany (List.any_eq_true.mpr ⟨n, hmem, by simp⟩)
      have hfound' : ∃ L ∈ ls, n ∈ L.fifo := by
        rcases hfound with ⟨L, hL, hnL⟩
        rcases List.mem_cons.mp hL with rfl | hL
        · exact absurd hnL hnotL0
        · exact ⟨L, hL, hnL⟩
      have hWF' : ∀ l ∈ ls, LevelWF S l := fun l hl => hWF l (List.mem_cons_of_mem _ hl)
      have hnd' : (sideIds ls).Nodup := hnd.of_append_right
      obtain ⟨a1, a2, a3, a4, a5, a6⟩ := ih hWF' hnd' hfound'
      have hnpls : n.price ∈ ls.map (fun l => l.price) := by
        obtain ⟨L, hL, hnL⟩ := hfound'
        have := ((hWF' L hL).2.2 n hnL).2.1
        rw [this]
        exact List.mem_map_of_mem _ hL
      refine ⟨?_, ?_, ?_, ?_, ?_, ?_⟩
      · intro l hl
        rcases List.mem_cons.mp hl with rfl | hl
        · exact hWF l (List.mem_cons_self _ _)
        · exact a1 l hl
      · rw [sideIds_cons, sideIds_cons]
        refine (a2.append_left (levelIds L0)).trans ?_
        exact List.perm_middle
      · intro q
        rw [sideAgg_cons, sideAgg_cons, a3 q]
        omega
      · intro q hq
        simp only [List.map_cons, List.mem_cons] at hq ⊢
        rcases hq with hq | hq
        · exact Or.inl hq
        · exact Or.inr (a4 q hq)
      · intro hpnd
        simp only [List.map_cons, List.nodup_cons] at hpnd ⊢
        exact ⟨fun hm => hpnd.1 (a4 _ hm), a5 hpnd.2⟩
      · intro hpnd
        simp only [List.map_cons, List.nodup_cons] at hpnd
        have hL0ne : ¬ L0.price = n.price := by
          intro hh
          exact hpnd.1 (hh ▸ hnpls)
        rw [sideAgg_cons, if_neg hL0ne]
        constructor
        · rintro ⟨l, hl, hlp⟩
          rcases List.mem_cons.mp hl with rfl | hl
          · exact absurd hlp hL0ne
          · have := (a6 hpnd.2).mp ⟨l, hl, hlp⟩
            omega
        · intro hpos
          obtain ⟨l, hl, hlp⟩ := (a6 hpnd.2).mpr (by omega)
          exact ⟨l, List.mem_cons_of_mem _ hl, hlp⟩


theorem sideIds_mem_inv {ls : List Level} {i : Int} (h : i ∈ sideIds ls) :
    ∃ L ∈ ls, ∃ o ∈ L.fifo, o.id = i := by
  induction ls with
  | nil => simp [sideIds_nil] at h
  | cons L ls ih =>
    rw [sideIds_cons] at h
    rcases List.mem_append.mp h with h | h
    · obtain ⟨o, ho, hid⟩ := List.mem_map.mp h
      exact ⟨L, List.mem_cons_self _ _, o, ho, hid⟩
    · obtain ⟨L1, h1, o, ho, hid⟩ := ih h
      exact ⟨L1, List.mem_cons_of_mem _ h1, o, ho, hid⟩

/-- Book-level invariant consequences of running the match loop against
the opposite side `opp`, with `same` the taker's own side.  The id
layout in the conclusions is `same`-side first. -/
theorem afterMatch_inv (taker : Order) (limitPrice : Option Int) (isBidOpp : Bool)
    {Sopp : Side} (remaining : Int) (opp same : List Level) (orders : List Int)
    (hOpp : SideWF Sopp opp)
    (hnd : (sideIds same ++ sideIds opp).Nodup)
    (hord : ∀ i, i ∈ orders ↔ i ∈ sideIds same ++ sideIds opp) :
    SideWF Sopp (matchLoop taker limitPrice isBidOpp remaining opp).levels
      ∧ (sideIds same
          ++ sideIds (matchLoop taker limitPrice isBidOpp remaining opp).levels).Nodup
      ∧ (∀ i, i ∈ orders.filter
            (fun i => ¬ i ∈ (matchLoop taker limitPrice isBidOpp remaining opp).removed)
          ↔ i ∈ sideIds same
            ++ sideIds (matchLoop taker limitPrice isBidOpp remaining opp).levels)
      ∧ (∀ a ∈ (matchLoop taker limitPrice isBidOpp remaining opp).levels,
          a.price ∈ opp.map (fun l => l.price)) := by
  obtain ⟨w1, w2, w3, w4⟩ := matchLoop_wf taker limitPrice isBidOpp remaining opp hOpp.2
  have hndopp : (sideIds opp).Nodup := hnd.of_append_right
  have hndsame : (sideIds same).Nodup := hnd.of_append_left
  have hdisj := List.disjoint_of_nodup_append hnd
  have hnd2 : ((matchLoop taker limitPrice isBidOpp remaining opp).removed
      ++ sideIds (matchLoop taker limitPrice isBidOpp remaining opp).levels).Nodup :=
    w2.nodup_iff.mp hndopp
  have hnewsub : ∀ i, i ∈ sideIds (matchLoop taker limitPrice isBidOpp remaining opp).levels
      → i ∈ sideIds opp := by
    intro i hi
    exact w2.mem_iff.mpr (List.mem_append.mpr (Or.inr hi))
  have hremsub : ∀ i, i ∈ (matchLoop taker limitPrice isBidOpp remaining opp).removed
      → i ∈ sideIds opp := by
    intro i hi
    exact w2.mem_iff.mpr (List.mem_append.mpr (Or.inl hi))
  refine ⟨⟨w4 hOpp.1, w1⟩, ?_, ?_, ?_⟩
  · rw [List.nodup_append]
    refine ⟨hndsame, hnd2.of_append_right, ?_⟩
    intro a ha ha'
    exact hdisj ha (hnewsub a ha')
  · intro i
    rw [List.mem_filter]
    constructor
    · rintro ⟨hi, hnr⟩
      simp only [decide_eq_true_eq] at hnr
      rcases List.mem_append.mp ((hord i).mp hi) with h | h
      · exact List.mem_append.mpr (Or.inl h)
      · have h2 := w2.mem_iff.mp h
        rcases List.mem_append.mp h2 with h2 | h2
        · exact absurd h2 hnr
        · exact List.mem_append.mpr (Or.inr h2)
    · intro hi
      rcases List.mem_append.mp hi with h | h
      · refine ⟨(hord i).mpr (List.mem_append.mpr (Or.inl h)), ?_⟩
        simp only [decide_eq_true_eq]
        intro hc
        exact hdisj h (hremsub i hc)
      · refine ⟨(hord i).mpr (List.mem_append.mpr (Or.inr (hnewsub i h))), ?_⟩
        simp only [decide_eq_true_eq]
        intro hc
        exact (List.disjoint_of_nodup_append hnd2) hc h
  · exact w3


theorem coreMatch_buy {st : CoreState} {o : Order} {rem : Int} {lp : Option Int}
    (hside : o.side = Side.buy) :
    coreMatch st o rem lp =
      ((matchLoop o lp false rem st.asks).remaining,
        (⟨st.bids, (matchLoop o lp false rem st.asks).levels,
          st.orders.filter
            (fun i => ¬ i ∈ (matchLoop o lp false rem st.asks).removed)⟩ : CoreState),
        (matchLoop o lp false rem st.asks).fills,
        (matchLoop o lp false rem st.asks).events) := by
  simp [coreMatch, hside]

theorem coreMatch_sell {st : CoreState} {o : Order} {rem : Int} {lp : Option Int}
    (hside : o.side = Side.sell) :
    coreMatch st o rem lp =
      ((matchLoop o lp true rem st.bids).remaining,
        (⟨(matchLoop o lp true rem st.bids).levels, st.asks,
          st.orders.filter
            (fun i => ¬ i ∈ (matchLoop o lp true rem st.bids).removed)⟩ : CoreState),
        (matchLoop o lp true rem st.bids).fills,
        (matchLoop o lp true rem st.bids).events) := by
  simp [coreMatch, hside]

/-- The book invariants are preserved by an accepted limit submit. -/
theorem submitLimit_inv {st : CoreState} {o : Order} {rep : SubmitReport}
    {evs : List Event} {st' : CoreState}
    (hInv : BookInvariants st) (h : Core.submitLimit st o = .ok (rep, evs, st')) :
    BookInvariants st' := by
  obtain ⟨hbids, hasks, hnodup, hord, hcross⟩ := hInv
  by_cases hval : validateLimit o
  swap
  · simp [Core.submitLimit, hval] at h
  by_cases hdup : o.id ∈ st.orders
  · simp [Core.submitLimit, hval, hdup] at h
  have hrest : o.id ∉ allIds st := fun hc => hdup ((hord o.id).mpr hc)
  cases hside : o.side with
  | buy =>
    simp only [Core.submitLimit, coreMatch_buy hside] at h
    rw [if_neg (show ¬ ¬ validateLimit o = true by simp [hval]), if_neg hdup] at h
    obtain ⟨m1, m2, m3, m4⟩ := afterMatch_inv o (some o.price) false
      o.size st.asks st.bids st.orders hasks hnodup hord
    have hcross1 : ∀ b ∈ st.bids,
        ∀ a ∈ (matchLoop o (some o.price) false o.size st.asks).levels,
          b.price < a.price := by
      intro b hb a ha
      obtain ⟨a0, ha0, hpa0⟩ := List.mem_map.mp (m4 a ha)
      rw [← hpa0]
      exact hcross b hb a0 ha0
    by_cases hrem : (matchLoop o (some o.price) false o.size st.asks).remaining > 0
    · rw [if_pos hrem] at h
      simp only [Except.ok.injEq, Prod.mk.injEq] at h
      obtain ⟨-, -, hst⟩ := h
      rw [← hst]
      simp only [CoreState.addResting, hside, BookInvariants, allIds]
      have hstop := matchLoop_stop o (some o.price) false
        (Or.inl ⟨hside, rfl⟩) o.size st.asks hrem
      have hidp := addToLevels_ids_perm o.price
        (⟨o.id, o.userID, Side.buy, o.price,
          (matchLoop o (some o.price) false o.size st.asks).remaining, o.time⟩ : RestingOrder)
        st.bids
      refine ⟨?_, m1, ?_, ?_, ?_⟩
      · exact ⟨addToLevels_nodup _ _ hbids.1,
          addToLevels_wf Side.buy o.price _ hrem rfl rfl (fun l hl => hbids.2 l hl)⟩
      · have hperm := hidp.append_right
          (sideIds (matchLoop o (some o.price) false o.size st.asks).levels)
        refine hperm.nodup_iff.mpr ?_
        rw [List.nodup_append]
        refine ⟨?_, m2.of_append_right, ?_⟩
        · rw [List.nodup_append]
          refine ⟨m2.of_append_left, List.nodup_singleton _, ?_⟩
          intro a ha ha'
          simp at ha'
          subst ha'
          exact hrest (List.mem_append.mpr (Or.inl ha))
        · intro a ha ha'
          rcases List.mem_append.mp ha with ha | ha
          · exact (List.disjoint_of_nodup_append m2) ha ha'
          · simp at ha
            have hao : a ∈ sideIds st.asks :=
              (matchLoop_wf o (some o.price) false o.size st.asks hasks.2).2.1.mem_iff.mpr
                (List.mem_append.mpr (Or.inr ha'))
            rw [ha] at hao
            exact hrest (List.mem_append.mpr (Or.inr hao))
      · intro i
        constructor
        · intro hi
          rcases List.mem_append.mp hi with hi | hi
          · rcases List.mem_append.mp ((m3 i).mp hi) with hh | hh
            · exact List.mem_append.mpr
                (Or.inl (hidp.mem_iff.mpr (List.mem_append.mpr (Or.inl hh))))
            · exact List.mem_append.mpr (Or.inr hh)
          · have hio : i = o.id := by simpa using hi
            subst hio
            exact List.mem_append.mpr
              (Or.inl (hidp.mem_iff.mpr (List.mem_append.mpr (Or.inr (by simp)))))
        · intro hi
          rcases List.mem_append.mp hi with hi | hi
          · rcases List.mem_append.mp (hidp.mem_iff.mp hi) with hh | hh
            · exact List.mem_append.mpr
                (Or.inl ((m3 i).mpr (List.mem_append.mpr (Or.inl hh))))
            · have hio : i = o.id := by simpa using hh
              subst hio
              exact List.mem_append.mpr (Or.inr (by simp))
          · exact List.mem_append.mpr
              (Or.inl ((m3 i).mpr (List.mem_append.mpr (Or.inr hi))))
      · intro b hb a ha
        rcases (addToLevels_price_mem o.price _ st.bids b.price).mp
            (List.mem_map_of_mem _ hb) with hh | hh
        · obtain ⟨b0, hb0, hpb0⟩ := List.mem_map.mp hh
          rw [← hpb0]
          exact hcross1 b0 hb0 a ha
        · rw [hh]
          have hs := hstop a ha
          simp only [limitStop, hside, decide_eq_true_eq] at hs
          omega
    · rw [if_neg hrem] at h
      simp only [Except.ok.injEq, Prod.mk.injEq] at h
      obtain ⟨-, -, hst⟩ := h
      rw [← hst]
      simp only [BookInvariants, allIds]
      exact ⟨hbids, m1, m2, m3, hcross1⟩
  | sell =>
    simp only [Core.submitLimit, coreMatch_sell hside] at h
    rw [if_neg (show ¬ ¬ validateLimit o = true by simp [hval]), if_neg hdup] at h
    have hndswap : (sideIds st.asks ++ sideIds st.bids).Nodup :=
      (List.perm_append_comm).nodup_iff.mp hnodup
    have hordswap : ∀ i, i ∈ st.orders ↔ i ∈ sideIds st.asks ++ sideIds st.bids := by
      intro i
      rw [hord i]
      simp only [allIds, List.mem_append]
      tauto
    obtain ⟨m1, m2, m3, m4⟩ := afterMatch_inv o (some o.price) true
      o.size st.bids st.asks st.orders hbids hndswap hordswap
    have hcross1 : ∀ b ∈ (matchLoop o (some o.price) true o.size st.bids).levels,
        ∀ a ∈ st.asks, b.price < a.price := by
      intro b hb a ha
      obtain ⟨b0, hb0, hpb0⟩ := List.mem_map.mp (m4 b hb)
      rw [← hpb0]
      exact hcross b0 hb0 a ha
    have hnd1 : (sideIds (matchLoop o (some o.price) true o.size st.bids).levels
        ++ sideIds st.asks).Nodup := (List.perm_append_comm).nodup_iff.mp m2
    have hord1 : ∀ i, i ∈ st.orders.filter
          (fun i => ¬ i ∈ (matchLoop o (some o.price) true o.size st.bids).removed)
        ↔ i ∈ sideIds (matchLoop o (some o.price) true o.size st.bids).levels
          ++ sideIds st.asks := by
      intro i
      rw [m3 i]
      simp only [List.mem_append]
      tauto
    by_cases hrem : (matchLoop o (some o.price) true o.size st.bids).remaining > 0
    · rw [if_pos hrem] at h
      simp only [Except.ok.injEq, Prod.mk.injEq] at h
      obtain ⟨-, -, hst⟩ := h
      rw [← hst]
      simp only [CoreState.addResting, hside, BookInvariants, allIds]
      have hstop := matchLoop_stop o (some o.price) true
        (Or.inr ⟨hside, rfl⟩) o.size st.bids hrem
      have hidp := addToLevels_ids_perm o.price
        (⟨o.id, o.userID, Side.sell, o.price,
          (matchLoop o (some o.price) true o.size st.bids).remaining, o.time⟩ : RestingOrder)
        st.asks
      refine ⟨m1, ?_, ?_, ?_, ?_⟩
      · exact ⟨addToLevels_nodup _ _ hasks.1,
          addToLevels_wf Side.sell o.price _ hrem rfl rfl (fun l hl => hasks.2 l hl)⟩
      · have hperm := hidp.append_left
          (sideIds (matchLoop o (some o.price) true o.size st.bids).levels)
        refine hperm.nodup_iff.mpr ?_
        rw [List.nodup_append]
        refine ⟨hnd1.of_append_left, ?_, ?_⟩
        · rw [List.nodup_append]
          refine ⟨hnd1.of_append_right, List.nodup_singleton _, ?_⟩
          intro a ha ha'
          simp at ha'
          subst ha'
          exact hrest (List.mem_append.mpr (Or.inr ha))
        · intro a ha ha'
          rcases List.mem_append.mp ha' with ha' | ha'
          · exact (List.disjoint_of_nodup_append hnd1) ha ha'
          · simp at ha'
            have hao : a ∈ sideIds st.bids :=
              (matchLoop_wf o (some o.price) true o.size st.bids hbids.2).2.1.mem_iff.mpr
                (List.mem_append.mpr (Or.inr ha))
            rw [ha'] at hao
            exact hrest (List.mem_append.mpr (Or.inl hao))
      · intro i
        constructor
        · intro hi
          rcases List.mem_append.mp hi with hi | hi
          · rcases List.mem_append.mp ((hord1 i).mp hi) with hh | hh
            · exact List.mem_append.mpr (Or.inl hh)
            · exact List.mem_append.mpr
                (Or.inr (hidp.mem_iff.mpr (List.mem_append.mpr (Or.inl hh))))
          · have hio : i = o.id := by simpa using hi
            subst hio
            exact List.mem_append.mpr
              (Or.inr (hidp.mem_iff.mpr (List.mem_append.mpr (Or.inr (by simp)))))
        · intro hi
          rcases List.mem_append.mp hi with hi | hi
          · exact List.mem_append.mpr
              (Or.inl ((hord1 i).mpr (List.mem_append.mpr (Or.inl hi))))
          · rcases List.mem_append.mp (hidp.mem_iff.mp hi) with hh | hh
            · exact List.mem_append.mpr
                (Or.inl ((hord1 i).mpr (List.mem_append.mpr (Or.inr hh))))
            · have hio : i = o.id := by simpa using hh
              subst hio
              exact List.mem_append.mpr (Or.inr (by simp))
      · intro b hb a ha
        rcases (addToLevels_price_mem o.price _ st.asks a.price).mp
            (List.mem_map_of_mem _ ha) with hh | hh
        · obtain ⟨a0, ha0, hpa0⟩ := List.mem_map.mp hh
          rw [← hpa0]
          exact hcross1 b hb a0 ha0
        · rw [hh]
          have hs := hstop b hb
          simp only [limitStop, hside, decide_eq_true_eq] at hs
          omega
    · rw [if_neg hrem] at h
      simp only [Except.ok.injEq, Prod.mk.injEq] at h
      obtain ⟨-, -, hst⟩ := h
      rw [← hst]
      simp only [BookInvariants, allIds]
      exact ⟨m1, hasks, hnd1, hord1, hcross1⟩

theorem findResting_some {st : CoreState} {i : Int} {n : RestingOrder}
    (h : findResting st i = some n) :
    n.id = i ∧ ∃ l ∈ st.bids ++ st.asks, n ∈ l.fifo := by
  obtain ⟨l, hl, hf⟩ := List.exists_of_findSome?_eq_some h
  have h1 := List.find?_some hf
  simp only [decide_eq_true_eq] at h1
  exact ⟨h1, l, hl, List.mem_of_find?_eq_some hf⟩

theorem findResting_of_mem {st : CoreState} {i : Int} (h : i ∈ allIds st) :
    ∃ n, findResting st i = some n ∧ n.id = i := by
  cases hf : findResting st i with
  | none =>
    exfalso
    rw [findResting, List.findSome?_eq_none_iff] at hf
    rcases List.mem_append.mp h with h | h
    · obtain ⟨L, hL, o, ho, hid⟩ := sideIds_mem_inv h
      have := hf L (List.mem_append.mpr (Or.inl hL))
      rw [List.find?_eq_none] at this
      exact this o ho (by simp [hid])
    · obtain ⟨L, hL, o, ho, hid⟩ := sideIds_mem_inv h
      have := hf L (List.mem_append.mpr (Or.inr hL))
      rw [List.find?_eq_none] at this
      exact this o ho (by simp [hid])
  | some n =>
    exact ⟨n, rfl, (findResting_some hf).1⟩

/-- The book invariants are preserved by an accepted market submit. -/
theorem submitMarket_inv {st : CoreState} {o : Order} {rep : SubmitReport}
    {evs : List Event} {st' : CoreState}
    (hInv : BookInvariants st) (h : Core.submitMarket st o = .ok (rep, evs, st')) :
    BookInvariants st' := by
  obtain ⟨hbids, hasks, hnodup, hord, hcross⟩ := hInv
  by_cases hval : validateMarket o
  swap
  · simp [Core.submitMarket, hval] at h
  by_cases hdup : o.id ∈ st.orders
  · simp [Core.submitMarket, hval, hdup] at h
  cases hside : o.side with
  | buy =>
    simp only [Core.submitMarket, coreMatch_buy hside] at h
    rw [if_neg (show ¬ ¬ validateMarket o = true by simp [hval]), if_neg hdup] at h
    simp only [Except.ok.injEq, Prod.mk.injEq] at h
    obtain ⟨-, -, hst⟩ := h
    rw [← hst]
    obtain ⟨m1, m2, m3, m4⟩ := afterMatch_inv o none false
      o.size st.asks st.bids st.orders hasks hnodup hord
    have hcross1 : ∀ b ∈ st.bids,
        ∀ a ∈ (matchLoop o none false o.size st.asks).levels, b.price < a.price := by
      intro b hb a ha
      obtain ⟨a0, ha0, hpa0⟩ := List.mem_map.mp (m4 a ha)
      rw [← hpa0]
      exact hcross b hb a0 ha0
    simp only [BookInvariants, allIds]
    exact ⟨hbids, m1, m2, m3, hcross1⟩
  | sell =>
    simp only [Core.submitMarket, coreMatch_sell hside] at h
    rw [if_neg (show ¬ ¬ validateMarket o = true by simp [hval]), if_neg hdup] at h
    simp only [Except.ok.injEq, Prod.mk.injEq] at h
    obtain ⟨-, -, hst⟩ := h
    rw [← hst]
    have hndswap : (sideIds st.asks ++ sideIds st.bids).Nodup :=
      (List.perm_append_comm).nodup_iff.mp hnodup
    have hordswap : ∀ i, i ∈ st.orders ↔ i ∈ sideIds st.asks ++ sideIds st.bids := by
      intro i
      rw [hord i]
      simp only [allIds, List.mem_append]
      tauto
    obtain ⟨m1, m2, m3, m4⟩ := afterMatch_inv o none true
      o.size st.bids st.asks st.orders hbids hndswap hordswap
    have hcross1 : ∀ b ∈ (matchLoop o none true o.size st.bids).levels,
        ∀ a ∈ st.asks, b.price < a.price := by
      intro b hb a ha
      obtain ⟨b0, hb0, hpb0⟩ := List.mem_map.mp (m4 b hb)
      rw [← hpb0]
      exact hcross b0 hb0 a ha
    simp only [BookInvariants, allIds]
    refine ⟨m1, hasks, (List.perm_append_comm).nodup_iff.mp m2, ?_, hcross1⟩
    intro i
    rw [m3 i]
    simp only [List.mem_append]
    tauto

/-- The book invariants are preserved by an accepted cancel. -/
theorem cancel_inv {st : CoreState} {i now : Int} {rep : CancelReport}
    {evs : List Event} {st' : CoreState}
    (hInv : BookInvariants st) (h : Core.cancel st i now = .ok (rep, evs, st')) :
    BookInvariants st' := by
  obtain ⟨hbids, hasks, hnodup, hord, hcross⟩ := hInv
  by_cases hv : i = 0 ∨ now ≤ 0
  · simp [Core.cancel, hv] at h
  by_cases hmem : i ∈ st.orders
  swap
  · simp [Core.cancel, hv, hmem] at h
  cases hf : findResting st i with
  | none => simp [Core.cancel, hv, hmem, hf] at h
  | some n =>
    simp only [Core.cancel, hf] at h
    rw [if_neg hv, if_neg (by simpa using hmem)] at h
    obtain ⟨hnid, L, hL, hnL⟩ := findResting_some hf
    have hndbids : (sideIds st.bids).Nodup := hnodup.of_append_left
    have hndasks : (sideIds st.asks).Nodup := hnodup.of_append_right
    cases hns : n.side with
    | buy =>
      have hfound : ∃ L ∈ st.bids, n ∈ L.fifo := by
        rcases List.mem_append.mp hL with hL | hL
        · exact ⟨L, hL, hnL⟩
        · exact absurd ((hasks.2 L hL).2.2 n hnL).2.2 (by rw [hns]; intro hc; cases hc)
      rw [hns] at h
      simp only [Except.ok.injEq, Prod.mk.injEq] at h
      obtain ⟨-, -, hst⟩ := h
      rw [← hst, ← hnid]
      obtain ⟨c1, c2, c3, c4, c5, c6⟩ := cancelLevels_found hbids.2 hndbids hfound
      have hpermA : List.Perm (allIds st)
          (n.id :: (sideIds (cancelLevels n.id n.size st.bids) ++ sideIds st.asks)) := by
        have := c2.append_right (sideIds st.asks)
        simpa [allIds] using this
      have hndA := hpermA.nodup_iff.mp hnodup
      simp only [BookInvariants, allIds]
      refine ⟨⟨c5 hbids.1, c1⟩, hasks, hndA.of_cons, ?_, ?_⟩
      · intro j
        rw [List.mem_filter]
        constructor
        · rintro ⟨hj, hne⟩
          simp only [decide_eq_true_eq] at hne
          have := hpermA.mem_iff.mp ((hord j).mp hj)
          rcases List.mem_cons.mp this with rfl | hh
          · exact absurd rfl hne
          · exact hh
        · intro hj
          have hjA : j ∈ allIds st := hpermA.mem_iff.mpr (List.mem_cons_of_mem _ hj)
          refine ⟨(hord j).mpr hjA, ?_⟩
          simp only [decide_eq_true_eq]
          intro hne
          rw [hne] at hj
          exact (List.nodup_cons.mp hndA).1 hj
      · intro b hb a ha
        obtain ⟨b0, hb0, hpb0⟩ := List.mem_map.mp (c4 b.price (List.mem_map_of_mem _ hb))
        rw [← hpb0]
        exact hcross b0 hb0 a ha
    | sell =>
      have hfound : ∃ L ∈ st.asks, n ∈ L.fifo := by
        rcases List.mem_append.mp hL with hL | hL
        · exact absurd ((hbids.2 L hL).2.2 n hnL).2.2 (by rw [hns]; intro hc; cases hc)
        · exact ⟨L, hL, hnL⟩
      rw [hns] at h
      simp only [Except.ok.injEq, Prod.mk.injEq] at h
      obtain ⟨-, -, hst⟩ := h
      rw [← hst, ← hnid]
      obtain ⟨c1, c2, c3, c4, c5, c6⟩ := cancelLevels_found hasks.2 hndasks hfound
      have hpermA : List.Perm (allIds st)
          (n.id :: (sideIds (cancelLevels n.id n.size st.asks) ++ sideIds st.bids)) := by
        have h0 := c2.append_right (sideIds st.bids)
        have h1 : List.Perm (allIds st) (sideIds st.asks ++ sideIds st.bids) :=
          List.perm_append_comm
        exact h1.trans (by simpa using h0)
      have hndA := hpermA.nodup_iff.mp hnodup
      simp only [BookInvariants, allIds]
      have hnd2 : (sideIds st.bids ++ sideIds (cancelLevels n.id n.size st.asks)).Nodup :=
        (List.perm_append_comm).nodup_iff.mp hndA.of_cons
      refine ⟨hbids, ⟨c5 hasks.1, c1⟩, hnd2, ?_, ?_⟩
      · intro j
        rw [List.mem_filter]
        constructor
        · rintro ⟨hj, hne⟩
          simp only [decide_eq_true_eq] at hne
          have := hpermA.mem_iff.mp ((hord j).mp hj)
          rcases List.mem_cons.mp this with rfl | hh
          · exact absurd rfl hne
          · rcases List.mem_append.mp hh with hh | hh
            · exact List.mem_append.mpr (Or.inr hh)
            · exact List.mem_append.mpr (Or.inl hh)
        · intro hj
          have hj2 : j ∈ sideIds (cancelLevels n.id n.size st.asks) ++ sideIds st.bids := by
            rcases List.mem_append.mp hj with hh | hh
            · exact List.mem_append.mpr (Or.inr hh)
            · exact List.mem_append.mpr (Or.inl hh)
          have hjA : j ∈ allIds st := hpermA.mem_iff.mpr (List.mem_cons_of_mem _ hj2)
          refine ⟨(hord j).mpr hjA, ?_⟩
          simp only [decide_eq_true_eq]
          intro hne
          rw [hne] at hj2
          exact (List.nodup_cons.mp hndA).1 hj2
      · intro b hb a ha
        obtain ⟨a0, ha0, hpa0⟩ := List.mem_map.mp (c4 a.price (List.mem_map_of_mem _ ha))
        rw [← hpa0]
        exact hcross b hb a0 ha0

/-- The book invariants are preserved by every command, accepted or
rejected. -/
theorem applyCommand_inv {st : CoreState} (c : Command)
    (hInv : BookInvariants st) : BookInvariants (applyCommand st c).1 := by
  cases c with
  | limit o =>
    simp only [applyCommand]
    cases h : Core.submitLimit st o with
    | ok x =>
      obtain ⟨rep, evs, st'⟩ := x
      exact submitLimit_inv hInv h
    | error e => exact hInv
  | market o =>
    simp only [applyCommand]
    cases h : Core.submitMarket st o with
    | ok x =>
      obtain ⟨rep, evs, st'⟩ := x
      exact submitMarket_inv hInv h
    | error e => exact hInv
  | cancel i now =>
    simp only [applyCommand]
    cases h : Core.cancel st i now with
    | ok x =>
      obtain ⟨rep, evs, st'⟩ := x
      exact cancel_inv hInv h
    | error e => exact hInv

theorem empty_inv : BookInvariants CoreState.empty := by
  refine ⟨⟨by simp [CoreState.empty], ?_⟩, ⟨by simp [CoreState.empty], ?_⟩, ?_, ?_, ?_⟩ <;>
    simp [CoreState.empty, allIds, sideIds_nil]

theorem runCommands_foldl_inv (cmds : List Command) :
    ∀ (acc : CoreState × List Event), BookInvariants acc.1 →
      BookInvariants (cmds.foldl (fun acc c =>
        let r := applyCommand acc.1 c
        (r.1, acc.2 ++ r.2)) acc).1 := by
  induction cmds with
  | nil => intro acc h; exact h
  | cons c cmds ih =>
    intro acc h
    exact ih _ (applyCommand_inv c h)

theorem runCommands_inv (cmds : List Command) :
    BookInvariants (runCommands cmds).1 :=
  runCommands_foldl_inv cmds (CoreState.empty, []) empty_inv


/-! ## Claim theorems -/

theorem submitLimit_parts {st : CoreState} {o : Order} {rep : SubmitReport}
    {evs : List Event} {st' : CoreState}
    (h : Core.submitLimit st o = .ok (rep, evs, st')) :
    validateLimit o = true ∧ o.id ∉ st.orders
      ∧ rep.orderID = o.id
      ∧ rep.remaining = (coreMatch st o o.size (some o.price)).1
      ∧ rep.fills = (coreMatch st o o.size (some o.price)).2.2.1
      ∧ rep.rested = decide (0 < (coreMatch st o o.size (some o.price)).1)
      ∧ evs = (coreMatch st o o.size (some o.price)).2.2.2
          ++ (if 0 < (coreMatch st o o.size (some o.price)).1 then
            [Event.rested ⟨o.id, o.userID, o.side, o.price,
              (coreMatch st o o.size (some o.price)).1, o.time⟩] else [])
      ∧ st' = (if 0 < (coreMatch st o o.size (some o.price)).1 then
          (coreMatch st o o.size (some o.price)).2.1.addResting
            { o with size := (coreMatch st o o.size (some o.price)).1 }
        else (coreMatch st o o.size (some o.price)).2.1) := by
  by_cases hval : validateLimit o
  swap
  · simp [Core.submitLimit, hval] at h
  by_cases hdup : o.id ∈ st.orders
  · simp [Core.submitLimit, hval, hdup] at h
  simp only [Core.submitLimit] at h
  rw [if_neg (show ¬ ¬ validateLimit o = true by simp [hval]), if_neg hdup] at h
  by_cases hrem : (coreMatch st o o.size (some o.price)).1 > 0
  · rw [if_pos hrem] at h
    simp only [Except.ok.injEq, Prod.mk.injEq] at h
    obtain ⟨h1, h2, h3⟩ := h
    rw [← h1, ← h2, ← h3]
    refine ⟨hval, hdup, rfl, rfl, rfl, by simp [hrem], by rw [if_pos hrem], by rw [if_pos hrem]⟩
  · rw [if_neg hrem] at h
    simp only [Except.ok.injEq, Prod.mk.injEq] at h
    obtain ⟨h1, h2, h3⟩ := h
    rw [← h1, ← h2, ← h3]
    refine ⟨hval, hdup, rfl, rfl, rfl, by simp [hrem], by rw [if_neg hrem, List.append_nil],
      by rw [if_neg hrem]⟩

theorem submitMarket_parts {st : CoreState} {o : Order} {rep : SubmitReport}
    {evs : List Event} {st' : CoreState}
    (h : Core.submitMarket st o = .ok (rep, evs, st')) :
    validateMarket o = true ∧ o.id ∉ st.orders
      ∧ rep.orderID = o.id
      ∧ rep.remaining = (coreMatch st o o.size none).1
      ∧ rep.fills = (coreMatch st o o.size none).2.2.1
      ∧ rep.rested = false
      ∧ evs = (coreMatch st o o.size none).2.2.2
      ∧ st' = (coreMatch st o o.size none).2.1 := by
  by_cases hval : validateMarket o
  swap
  · simp [Core.submitMarket, hval] at h
  by_cases hdup : o.id ∈ st.orders
  · simp [Core.submitMarket, hval, hdup] at h
  simp only [Core.submitMarket] at h
  rw [if_neg (show ¬ ¬ validateMarket o = true by simp [hval]), if_neg hdup] at h
  simp only [Except.ok.injEq, Prod.mk.injEq] at h
  obtain ⟨h1, h2, h3⟩ := h
  rw [← h1, ← h2, ← h3]
  exact ⟨hval, hdup, rfl, rfl, rfl, rfl, rfl, rfl⟩

theorem coreMatch_components (st : CoreState) (o : Order) (rem : Int)
    (lp : Option Int) :
    (coreMatch st o rem lp).1
        = (matchLoop o lp (if o.side = Side.buy then false else true) rem
          (if o.side = Side.buy then st.asks else st.bids)).remaining
      ∧ (coreMatch st o rem lp).2.2.1
        = (matchLoop o lp (if o.side = Side.buy then false else true) rem
          (if o.side = Side.buy then st.asks else st.bids)).fills
      ∧ (coreMatch st o rem lp).2.2.2
        = (matchLoop o lp (if o.side = Side.buy then false else true) rem
          (if o.side = Side.buy then st.asks else st.bids)).events
      ∧ (coreMatch st o rem lp).2.1.orders = st.orders.filter
          (fun i => ¬ i ∈ (matchLoop o lp (if o.side = Side.buy then false else true) rem
            (if o.side = Side.buy then st.asks else st.bids)).removed) := by
  cases hside : o.side with
  | buy => rw [coreMatch_buy hside]; simp
  | sell => rw [coreMatch_sell hside]; simp

/-- C5: for every accepted submit, limit or market, the sum of the
fill sizes in the report equals the sum of the sizes of the Trade
events of the command, and both equal the submitted size minus the
reported remaining. -/
theorem c5_fill_trade_conservation :
    (∀ (st : CoreState) (o : Order) (rep : SubmitReport) (evs : List Event)
        (st' : CoreState), Core.submitLimit st o = .ok (rep, evs, st') →
      fillSizeSum rep.fills = tradeSizeSum evs
        ∧ fillSizeSum rep.fills = o.size - rep.remaining)
      ∧ (∀ (st : CoreState) (o : Order) (rep : SubmitReport) (evs : List Event)
          (st' : CoreState), Core.submitMarket st o = .ok (rep, evs, st') →
        fillSizeSum rep.fills = tradeSizeSum evs
          ∧ fillSizeSum rep.fills = o.size - rep.remaining) := by
  constructor
  · intro st o rep evs st' h
    obtain ⟨-, -, -, h4, h5, -, h7, -⟩ := submitLimit_parts h
    obtain ⟨k1, k2, k3, -⟩ := coreMatch_components st o o.size (some o.price)
    obtain ⟨j1, j2, -, -, -, -, -⟩ := matchLoop_facts o (some o.price)
      (if o.side = Side.buy then false else true) o.size
      (if o.side = Side.buy then st.asks else st.bids)
    have htr : tradeSizeSum evs = tradeSizeSum (coreMatch st o o.size (some o.price)).2.2.2 := by
      rw [h7, tradeSizeSum_append]
      have : tradeSizeSum (if 0 < (coreMatch st o o.size (some o.price)).1 then
          [Event.rested ⟨o.id, o.userID, o.side, o.price,
            (coreMatch st o o.size (some o.price)).1, o.time⟩] else []) = 0 := by
        split <;> simp [tradeSizeSum, tradeSizes]
      omega
    rw [htr, h5, h4, k1, k2, k3, j1, j2]
    omega
  · intro st o rep evs st' h
    obtain ⟨-, -, -, h4, h5, -, h7, -⟩ := submitMarket_parts h
    obtain ⟨k1, k2, k3, -⟩ := coreMatch_components st o o.size none
    obtain ⟨j1, j2, -, -, -, -, -⟩ := matchLoop_facts o none
      (if o.side = Side.buy then false else true) o.size
      (if o.side = Side.buy then st.asks else st.bids)
    rw [h7, h5, h4, k1, k2, k3, j1, j2]
    omega


/-- C5 witness: the conservation law evaluated on a concrete crossing
limit order. -/
theorem c5_witness :
    fillSizeSum (⟨2, 0, [⟨1, 101, 2⟩], false⟩ : SubmitReport).fills
        = tradeSizeSum [Event.trade ⟨101, 2, Side.buy, 1, 2, 20, 1, 10⟩,
          Event.reduced ⟨1, -2, 1, 101, Side.sell, 10, 1⟩]
      ∧ fillSizeSum (⟨2, 0, [⟨1, 101, 2⟩], false⟩ : SubmitReport).fills
        = (⟨2, 20, Side.buy, OrderKind.limit, 102, 2, 1⟩ : Order).size
          - (⟨2, 0, [⟨1, 101, 2⟩], false⟩ : SubmitReport).remaining :=
  c5_fill_trade_conservation.1
    ⟨[], [⟨101, [⟨1, 10, Side.sell, 101, 3, 1⟩], 3⟩], [1]⟩
    ⟨2, 20, Side.buy, OrderKind.limit, 102, 2, 1⟩
    ⟨2, 0, [⟨1, 101, 2⟩], false⟩
    [Event.trade ⟨101, 2, Side.buy, 1, 2, 20, 1, 10⟩,
      Event.reduced ⟨1, -2, 1, 101, Side.sell, 10, 1⟩]
    ⟨[], [⟨101, [⟨1, 10, Side.sell, 101, 1, 1⟩], 1⟩], [1]⟩
    (by simp [Core.submitLimit, validateLimit, coreMatch, matchLoop, matchInner,
      extractBest, limitStop, betterPrice])

/-- C7: a valid market order never rests: the report says rested=false,
its id is never added to the id map, and a market order against an
empty opposite side returns remaining=size with no fills, no events
and no error. -/
theorem c7_market_never_rests :
    (∀ (st : CoreState) (o : Order) (rep : SubmitReport) (evs : List Event)
        (st' : CoreState), Core.submitMarket st o = .ok (rep, evs, st') →
      rep.rested = false ∧ rep.orderID ∉ st'.orders
        ∧ ∀ i ∈ st'.orders, i ∈ st.orders)
      ∧ (∀ (st : CoreState) (o : Order), validateMarket o = true → o.id ∉ st.orders →
        (if o.side = Side.buy then st.asks else st.bids) = [] →
        Core.submitMarket st o = .ok (⟨o.id, o.size, [], false⟩, [], st)) := by
  constructor
  · intro st o rep evs st' h
    obtain ⟨-, hdup, h3, -, -, h6, -, h8⟩ := submitMarket_parts h
    obtain ⟨-, -, -, k4⟩ := coreMatch_components st o o.size none
    have hsub : ∀ i ∈ st'.orders, i ∈ st.orders := by
      intro i hi
      rw [h8, k4] at hi
      exact (List.mem_filter.mp hi).1
    exact ⟨h6, by rw [h3]; intro hc; exact hdup (hsub _ hc), hsub⟩
  · intro st o hval hdup hempty
    obtain ⟨sb, sa, so⟩ := st
    simp only [Core.submitMarket]
    rw [if_neg (show ¬ ¬ validateMarket o = true by simp [hval]), if_neg hdup]
    by_cases hside : o.side = Side.buy
    · rw [if_pos hside] at hempty
      dsimp only at hempty
      subst hempty
      rw [coreMatch_buy hside]
      simp [matchLoop_nil]
    · have hsell : o.side = Side.sell := by
        cases h2 : o.side
        · exact absurd h2 hside
        · rfl
      rw [if_neg hside] at hempty
      dsimp only at hempty
      subst hempty
      rw [coreMatch_sell hsell]
      simp [matchLoop_nil]

/-- C7 witness: a concrete market order against an empty book. -/
theorem c7_witness :
    Core.submitMarket CoreState.empty ⟨1, 10, Side.buy, OrderKind.market, 0, 5, 1⟩
      = .ok (⟨1, 5, [], false⟩, [], CoreState.empty) :=
  c7_market_never_rests.2 CoreState.empty ⟨1, 10, Side.buy, OrderKind.market, 0, 5, 1⟩
    (by decide) (by simp [CoreState.empty]) (by simp [CoreState.empty])


/-- C10: every non-positive capacity field passed to `NewService` is
replaced by its default (CommandBuffer 256, EventBuffer 1024,
TradeTapeSize 1000, ExternalEventBuffer 256), positive fields and the
DropExternalEvents flag are kept, and all normalized capacities are
strictly positive. -/
theorem c10_config_defaults (cfg : Config) :
    (normalizeConfig cfg).CommandBuffer
        = (if cfg.CommandBuffer ≤ 0 then 256 else cfg.CommandBuffer)
      ∧ (normalizeConfig cfg).EventBuffer
        = (if cfg.EventBuffer ≤ 0 then 1024 else cfg.EventBuffer)
      ∧ (normalizeConfig cfg).TradeTapeSize
        = (if cfg.TradeTapeSize ≤ 0 then 1000 else cfg.TradeTapeSize)
      ∧ (normalizeConfig cfg).ExternalEventBuffer
        = (if cfg.ExternalEventBuffer ≤ 0 then 256 else cfg.ExternalEventBuffer)
      ∧ (normalizeConfig cfg).DropExternalEvents = cfg.DropExternalEvents
      ∧ 0 < (normalizeConfig cfg).CommandBuffer
      ∧ 0 < (normalizeConfig cfg).EventBuffer
      ∧ 0 < (normalizeConfig cfg).TradeTapeSize
      ∧ 0 < (normalizeConfig cfg).ExternalEventBuffer := by
  obtain ⟨cb, eb, tt, de, xb⟩ := cfg
  simp only [normalizeConfig, DefaultConfig]
  split_ifs <;> simp_all

/-- C8 (amended): the orderbook service's Close is idempotent, and
every command invoked after Close returns fails — but with
`context.Canceled`, which is what the code returns after shutdown, not
a distinct Closed error. -/
theorem c8_close_semantics :
    (∀ s : ServiceState, s.close.close = s.close)
      ∧ (∀ (s : ServiceState) (o : Order),
          s.close.submitLimit o = .error .canceled)
      ∧ (∀ (s : ServiceState) (o : Order),
          s.close.submitMarket o = .error .canceled)
      ∧ (∀ (s : ServiceState) (id now : Int),
          s.close.cancel id now = .error .canceled) :=
  ⟨fun _ => rfl, fun _ _ => rfl, fun _ _ => rfl, fun _ _ _ => rfl⟩

/-- C8 counterexample to the original claim: a command submitted after
Close returns `context.Canceled`, which is not the Closed error the
specification's taxonomy names. -/
theorem c8_counterexample :
    ServiceState.new.close.submitLimit ⟨1, 10, Side.buy, OrderKind.limit, 100, 5, 1⟩
        = .error .canceled
      ∧ (Except.error ServiceError.canceled
          : Except ServiceError (SubmitReport × ServiceState))
        ≠ .error .closed := by
  refine ⟨rfl, ?_⟩
  simp

/-- C9: the first Close of a market service succeeds, but a second
Close panics — `close(s.externalEvents)` runs outside the
`sync.Once` guard and closing a closed channel panics — so Close is
not idempotent. -/
theorem c9_double_close_panics :
    MarketSvcState.new.close = some ⟨true, true⟩
      ∧ MarketSvcState.new.close.bind MarketSvcState.close = none :=
  ⟨rfl, rfl⟩


/-- C2: after every command of any valid sequence run from the empty
book, invariants 1-5 of spec section 3 hold: every present level has
totalVolume equal to the sum of the remaining sizes in its FIFO, a
non-empty FIFO, positive totalVolume and only positive-size nodes; an
id is in the id map iff it is linked into some level FIFO; whenever a
bid level and an ask level are simultaneously present the bid price is
strictly below the ask price; and a market order's id is never
inserted into the id map. -/
theorem c2_invariants (cmds : List Command) :
    ((∀ l ∈ (runCommands cmds).1.bids ++ (runCommands cmds).1.asks,
        l.totalVolume = fifoSum l.fifo ∧ l.fifo ≠ [] ∧ 0 < l.totalVolume
          ∧ ∀ o ∈ l.fifo, 0 < o.size)
      ∧ (∀ i, i ∈ (runCommands cmds).1.orders ↔ i ∈ allIds (runCommands cmds).1)
      ∧ (∀ b ∈ (runCommands cmds).1.bids, ∀ a ∈ (runCommands cmds).1.asks,
          b.price < a.price))
    ∧ ∀ (o : Order) (rep : SubmitReport) (evs : List Event) (st' : CoreState),
        Core.submitMarket (runCommands cmds).1 o = .ok (rep, evs, st') →
        o.id ∉ st'.orders := by
  obtain ⟨hb, ha, hnd, hord, hcross⟩ := runCommands_inv cmds
  refine ⟨⟨?_, hord, hcross⟩, ?_⟩
  · intro l hl
    have hwf : l.fifo ≠ [] ∧ l.totalVolume = fifoSum l.fifo
        ∧ ∀ o ∈ l.fifo, 0 < o.size := by
      rcases List.mem_append.mp hl with h | h
      · obtain ⟨h1, h2, h3⟩ := hb.2 l h
        exact ⟨h1, h2, fun o ho => (h3 o ho).1⟩
      · obtain ⟨h1, h2, h3⟩ := ha.2 l h
        exact ⟨h1, h2, fun o ho => (h3 o ho).1⟩
    obtain ⟨h1, h2, h3⟩ := hwf
    exact ⟨h2, h1, h2 ▸ fifoSum_pos h3 h1, h3⟩
  · intro o rep evs st' h
    obtain ⟨-, hdup, -, -, -, -, -, h8⟩ := submitMarket_parts h
    obtain ⟨-, -, -, k4⟩ :=
      coreMatch_components (runCommands cmds).1 o o.size none
    intro hc
    rw [h8, k4] at hc
    exact hdup (List.mem_filter.mp hc).1

/-- C2 witness: a concrete market order at the state reached by the
empty command sequence never enters the id map. -/
theorem c2_witness :
    (1 : Int) ∉ CoreState.empty.orders :=
  (c2_invariants []).2 ⟨1, 10, Side.buy, OrderKind.market, 0, 5, 1⟩
    ⟨1, 5, [], false⟩ [] CoreState.empty
    (by simp [runCommands, Core.submitMarket, validateMarket, coreMatch,
      matchLoop_nil, CoreState.empty])


/-- C6: under the book invariants, a valid Cancel fails with NotFound
exactly when the id is not resident (no state is returned and no event
is emitted); when the id is resident it returns canceledSize equal to
the resting order's remaining size, emits exactly one Removed event
with reason Canceled carrying that remaining and time = now, removes
the id from the id map, subtracts the remaining from the aggregate at
the order's price on its own side, leaves the other side untouched,
keeps that price level present iff positive volume remains, and
preserves the book invariants. -/
theorem c6_cancel_semantics (st : CoreState) (id now : Int)
    (hInv : BookInvariants st) (hval : ¬ (id = 0 ∨ now ≤ 0)) :
    (id ∉ st.orders → Core.cancel st id now = .error .notFound)
      ∧ (id ∈ st.orders →
        ∃ n st', findResting st id = some n ∧ n.id = id ∧ 0 < n.size
          ∧ Core.cancel st id now
            = .ok (⟨id, n.size⟩,
                [Event.removed ⟨id, RemoveReason.canceled, n.size, n.price,
                  n.side, n.userID, now⟩], st')
          ∧ (∀ i, i ∈ st'.orders ↔ i ∈ st.orders ∧ i ≠ id)
          ∧ (∀ q, sideAgg (if n.side = Side.buy then st'.bids else st'.asks) q
              = sideAgg (if n.side = Side.buy then st.bids else st.asks) q
                - (if q = n.price then n.size else 0))
          ∧ (if n.side = Side.buy then st'.asks = st.asks else st'.bids = st.bids)
          ∧ ((∃ l ∈ (if n.side = Side.buy then st'.bids else st'.asks),
                l.price = n.price)
              ↔ 0 < sideAgg (if n.side = Side.buy then st.bids else st.asks) n.price
                  - n.size)
          ∧ BookInvariants st') := by
  obtain ⟨hbids, hasks, hnodup, hord, hcross⟩ := hInv
  constructor
  · intro hmem
    simp [Core.cancel, hval, hmem]
  · intro hmem
    have hA : id ∈ allIds st := (hord id).mp hmem
    obtain ⟨n, hf, hnid⟩ := findResting_of_mem hA
    obtain ⟨-, L, hL, hnL⟩ := findResting_some hf
    have hpos : 0 < n.size := by
      rcases List.mem_append.mp hL with h | h
      · exact ((hbids.2 L h).2.2 n hnL).1
      · exact ((hasks.2 L h).2.2 n hnL).1
    cases hns : n.side with
    | buy =>
      have hfound : ∃ L ∈ st.bids, n ∈ L.fifo := by
        rcases List.mem_append.mp hL with h | h
        · exact ⟨L, h, hnL⟩
        · exact absurd ((hasks.2 L h).2.2 n hnL).2.2 (by rw [hns]; intro hc; cases hc)
      have hndbids : (sideIds st.bids).Nodup := hnodup.of_append_left
      obtain ⟨c1, c2, c3, c4, c5, c6⟩ := cancelLevels_found hbids.2 hndbids hfound
      have heq : Core.cancel st id now
          = .ok (⟨id, n.size⟩,
              [Event.removed ⟨id, RemoveReason.canceled, n.size, n.price,
                n.side, n.userID, now⟩],
              { st with bids := cancelLevels id n.size st.bids,
                        orders := st.orders.filter (fun i => ¬ i = id) }) := by
        simp only [Core.cancel, hf]
        rw [if_neg hval, if_neg (by simpa using hmem)]
        simp only [hns, hnid]
      refine ⟨n, _, hf, hnid, hpos, heq, ?_, ?_, ?_, ?_,
        cancel_inv ⟨hbids, hasks, hnodup, hord, hcross⟩ heq⟩
      · intro i
        simp [List.mem_filter]
      · intro q
        simp only [hns, if_pos rfl]
        rw [← hnid]
        exact c3 q
      · simp [hns]
      · simp only [hns, if_pos rfl]
        rw [← hnid]
        exact c6 hbids.1
    | sell =>
      have hfound : ∃ L ∈ st.asks, n ∈ L.fifo := by
        rcases List.mem_append.mp hL with h | h
        · exact absurd ((hbids.2 L h).2.2 n hnL).2.2 (by rw [hns]; intro hc; cases hc)
        · exact ⟨L, h, hnL⟩
      have hndasks : (sideIds st.asks).Nodup := hnodup.of_append_right
      obtain ⟨c1, c2, c3, c4, c5, c6⟩ := cancelLevels_found hasks.2 hndasks hfound
      have heq : Core.cancel st id now
          = .ok (⟨id, n.size⟩,
              [Event.removed ⟨id, RemoveReason.canceled, n.size, n.price,
                n.side, n.userID, now⟩],
              { st with asks := cancelLevels id n.size st.asks,
                        orders := st.orders.filter (fun i => ¬ i = id) }) := by
        simp only [Core.cancel, hf]
        rw [if_neg hval, if_neg (by simpa using hmem)]
        simp only [hns, hnid]
      have hne : ¬ (Side.sell = Side.buy) := by intro hc; cases hc
      refine ⟨n, _, hf, hnid, hpos, heq, ?_, ?_, ?_, ?_,
        cancel_inv ⟨hbids, hasks, hnodup, hord, hcross⟩ heq⟩
      · intro i
        simp [List.mem_filter]
      · intro q
        simp only [hns, if_neg hne]
        rw [← hnid]
        exact c3 q
      · simp [hns]
      · simp only [hns, if_neg hne]
        rw [← hnid]
        exact c6 hasks.1


/-- C6 witness: cancelling an id that is not resident in the empty
book fails with NotFound. -/
theorem c6_witness :
    Core.cancel CoreState.empty 1 1 = .error .notFound :=
  (c6_cancel_semantics CoreState.empty 1 1 empty_inv (by decide)).1 (by decide)


/-- C1: for every valid limit submit from an invariant-satisfying
book, every fill happens at an acceptable opposite price (buy: at or
below the taker's price; sell: at or above) taken from a pre-state
opposite level; within each opposite level the consumed makers form a
prefix of that level's FIFO; if the taker still has remaining size the
post-state opposite side holds no acceptable level; the report says
rested exactly when remaining size is positive; and in that case the
remaining size is appended at the tail of the taker's own side's FIFO
at the taker's price and exactly one Rested event is emitted for it. -/
theorem c1_limit_matching (st : CoreState) (o : Order) (rep : SubmitReport)
    (evs : List Event) (st' : CoreState)
    (hInv : BookInvariants st)
    (h : Core.submitLimit st o = .ok (rep, evs, st')) :
    (∀ f ∈ rep.fills,
        (if o.side = Side.buy then f.price ≤ o.price else o.price ≤ f.price)
          ∧ f.price ∈ (if o.side = Side.buy then st.asks else st.bids).map
              (fun l => l.price))
      ∧ (∀ l0 ∈ (if o.side = Side.buy then st.asks else st.bids), ∃ t,
          ((rep.fills.filter (fun f => f.price = l0.price)).map
              (fun f => f.makerOrderID)) ++ t
            = l0.fifo.map (fun n => n.id))
      ∧ (0 < rep.remaining →
          ∀ l ∈ (if o.side = Side.buy then st'.asks else st'.bids),
            (if o.side = Side.buy then o.price < l.price else l.price < o.price))
      ∧ (rep.rested = true ↔ 0 < rep.remaining)
      ∧ (rep.rested = true →
          (∃ l ∈ (if o.side = Side.buy then st'.bids else st'.asks),
              l.price = o.price ∧ ∃ pre, l.fifo
                = pre ++ [⟨o.id, o.userID, o.side, o.price, rep.remaining, o.time⟩])
            ∧ evs.filter (fun e => isRestedEv e)
              = [Event.rested ⟨o.id, o.userID, o.side, o.price, rep.remaining,
                  o.time⟩]) := by
  obtain ⟨hbids, hasks, hnd, hord, hcross⟩ := hInv
  obtain ⟨hv, hdup, h3, h4, h5, h6, h7, h8⟩ := submitLimit_parts h
  cases hside : o.side with
  | buy =>
    rw [coreMatch_buy hside] at h4 h5 h6 h7 h8
    dsimp only at h4 h5 h6 h7 h8
    obtain ⟨f1, f2, f3, f4, f5, f6, f7⟩ :=
      matchLoop_facts o (some o.price) false o.size st.asks
    refine ⟨?_, ?_, ?_, ?_, ?_⟩
    · intro f hf
      rw [h5] at hf
      obtain ⟨hstop, l0, hl0, hpl0⟩ := f7 f hf
      rw [hside, limitStop] at hstop
      simp only [decide_eq_false_iff_not, not_lt, gt_iff_lt] at hstop
      simp only [if_pos rfl]
      exact ⟨hstop, hpl0 ▸ List.mem_map_of_mem _ hl0⟩
    · simp only [if_pos rfl]
      intro l0 hl0
      rw [h5]
      exact matchLoop_fifo_prefix o (some o.price) false o.size st.asks
        hasks.2 hasks.1 l0 hl0
    · simp only [if_pos rfl]
      intro hpos l hl
      have hasks' : st'.asks
          = (matchLoop o (some o.price) false o.size st.asks).levels := by
        rw [h8]
        split
        · simp [CoreState.addResting, hside]
        · rfl
      rw [hasks'] at hl
      have hs := matchLoop_stop o (some o.price) false (Or.inl ⟨hside, rfl⟩)
        o.size st.asks (by rw [← h4]; exact hpos) l hl
      rw [hside, limitStop] at hs
      simpa using hs
    · rw [h6, h4]
      simp
    · intro hrest
      rw [h6] at hrest
      have hpos : 0 < (matchLoop o (some o.price) false o.size st.asks).remaining :=
        of_decide_eq_true hrest
      constructor
      · simp only [if_pos rfl]
        have hb' : st'.bids = addToLevels o.price
            ⟨o.id, o.userID, Side.buy, o.price,
              (matchLoop o (some o.price) false o.size st.asks).remaining, o.time⟩
            st.bids := by
          rw [h8, if_pos hpos]
          simp [CoreState.addResting, hside]
        rw [hb', h4]
        exact addToLevels_tail o.price _ st.bids
      · rw [h7, if_pos hpos, List.filter_append]
        have hbody : ((matchLoop o (some o.price) false o.size st.asks).events.filter
            (fun e => isRestedEv e)) = [] :=
          List.filter_eq_nil_iff.mpr (fun e he => by simpa using f4 e he)
        rw [hbody, h4]
        simp [isRestedEv, hside]
  | sell =>
    have hne : ¬ (Side.sell = Side.buy) := by intro hc; cases hc
    rw [coreMatch_sell hside] at h4 h5 h6 h7 h8
    dsimp only at h4 h5 h6 h7 h8
    obtain ⟨f1, f2, f3, f4, f5, f6, f7⟩ :=
      matchLoop_facts o (some o.price) true o.size st.bids
    refine ⟨?_, ?_, ?_, ?_, ?_⟩
    · intro f hf
      rw [h5] at hf
      obtain ⟨hstop, l0, hl0, hpl0⟩ := f7 f hf
      rw [hside, limitStop] at hstop
      simp only [decide_eq_false_iff_not, not_lt] at hstop
      simp only [if_neg hne]
      exact ⟨hstop, hpl0 ▸ List.mem_map_of_mem _ hl0⟩
    · simp only [if_neg hne]
      intro l0 hl0
      rw [h5]
      exact matchLoop_fifo_prefix o (some o.price) true o.size st.bids
        hbids.2 hbids.1 l0 hl0
    · simp only [if_neg hne]
      intro hpos l hl
      have hbids' : st'.bids
          = (matchLoop o (some o.price) true o.size st.bids).levels := by
        rw [h8]
        split
        · simp [CoreState.addResting, hside]
        · rfl
      rw [hbids'] at hl
      have hs := matchLoop_stop o (some o.price) true (Or.inr ⟨hside, rfl⟩)
        o.size st.bids (by rw [← h4]; exact hpos) l hl
      rw [hside, limitStop] at hs
      simpa using hs
    · rw [h6, h4]
      simp
    · intro hrest
      rw [h6] at hrest
      have hpos : 0 < (matchLoop o (some o.price) true o.size st.bids).remaining :=
        of_decide_eq_true hrest
      constructor
      · simp only [if_neg hne]
        have ha' : st'.asks = addToLevels o.price
            ⟨o.id, o.userID, Side.sell, o.price,
              (matchLoop o (some o.price) true o.size st.bids).remaining, o.time⟩
            st.asks := by
          rw [h8, if_pos hpos]
          simp [CoreState.addResting, hside]
        rw [ha', h4]
        exact addToLevels_tail o.price _ st.asks
      · rw [h7, if_pos hpos, List.filter_append]
        have hbody : ((matchLoop o (some o.price) true o.size st.bids).events.filter
            (fun e => isRestedEv e)) = [] :=
          List.filter_eq_nil_iff.mpr (fun e he => by simpa using f4 e he)
        rw [hbody, h4]
        simp [isRestedEv, hside]

/-- C1 witness: a concrete limit order resting in the empty book,
with the acceptability, stop and rest properties instantiated. -/
theorem c1_witness :
    (⟨1, 5, [], true⟩ : SubmitReport).rested = true
      ↔ 0 < (⟨1, 5, [], true⟩ : SubmitReport).remaining :=
  (c1_limit_matching CoreState.empty ⟨1, 10, Side.buy, OrderKind.limit, 100, 5, 1⟩
    ⟨1, 5, [], true⟩ [Event.rested ⟨1, 10, Side.buy, 100, 5, 1⟩]
    ⟨[⟨100, [⟨1, 10, Side.buy, 100, 5, 1⟩], 5⟩], [], [1]⟩
    empty_inv
    (by simp [Core.submitLimit, validateLimit, coreMatch, matchLoop_nil,
      CoreState.empty, CoreState.addResting, addToLevels])).2.2.2.1


/-! ## View-map lemmas (Go map semantics of the association lists) -/

theorem alGet_nil (q : Int) : alGet [] q = 0 := rfl

theorem alGet_cons (e : Int × Int) (es : List (Int × Int)) (q : Int) :
    alGet (e :: es) q = if e.1 = q then e.2 else alGet es q := by
  by_cases h : e.1 = q <;> simp [alGet, List.find?, h]

theorem osGet_nil (q : Int) : osGet [] q = none := rfl

theorem osGet_cons (e : Int × OrderSnap) (es : List (Int × OrderSnap)) (q : Int) :
    osGet (e :: es) q = if e.1 = q then some e.2 else osGet es q := by
  by_cases h : e.1 = q <;> simp [osGet, List.find?, h]

theorem alGet_alSet (k v : Int) :
    ∀ (m : List (Int × Int)) (q : Int),
      alGet (alSet k v m) q = if q = k then v else alGet m q := by
  intro m
  induction m with
  | nil =>
    intro q
    rw [show alSet k v [] = [(k, v)] from rfl, alGet_cons, alGet_nil]
    by_cases h : q = k
    · simp only [if_pos h, if_pos (h ▸ rfl : k = q).symm]
      simp [h]
    · simp only [if_neg h, if_neg (show ¬ k = q from fun hc => h hc.symm)]
  | cons e es ih =>
    intro q
    by_cases hek : e.1 = k
    · rw [show alSet k v (e :: es) = (k, v) :: es by simp [alSet, hek], alGet_cons,
        alGet_cons]
      by_cases h : q = k
      · simp [h]
      · simp only [if_neg h, if_neg (show ¬ k = q from fun hc => h hc.symm),
          if_neg (show ¬ e.1 = q by rw [hek]; exact fun hc => h hc.symm)]
    · rw [show alSet k v (e :: es) = e :: alSet k v es by simp [alSet, hek], alGet_cons,
        alGet_cons, ih q]
      by_cases heq : e.1 = q
      · have hq : ¬ q = k := fun hc => hek (heq.trans hc)
        simp only [if_pos heq, if_neg hq]
      · simp only [if_neg heq]

theorem alGet_alErase (k : Int) :
    ∀ (m : List (Int × Int)) (q : Int),
      alGet (alErase k m) q = if q = k then 0 else alGet m q := by
  intro m
  induction m with
  | nil =>
    intro q
    rw [show alErase k [] = [] from rfl, alGet_nil]
    by_cases h : q = k
    · simp only [if_pos h]
    · simp only [if_neg h, alGet_nil]
  | cons e es ih =>
    intro q
    by_cases hek : e.1 = k
    · rw [show alErase k (e :: es) = alErase k es by
        simp [alErase, List.filter_cons, hek], ih q, alGet_cons]
      by_cases h : q = k
      · simp only [if_pos h]
      · simp only [if_neg h,
          if_neg (show ¬ e.1 = q by rw [hek]; exact fun hc => h hc.symm)]
    · rw [show alErase k (e :: es) = e :: alErase k es by
        simp [alErase, List.filter_cons, hek], alGet_cons, ih q, alGet_cons]
      by_cases heq : e.1 = q
      · have hq : ¬ q = k := fun hc => hek (heq.trans hc)
        simp only [if_pos heq, if_neg hq]
      · simp only [if_neg heq]

theorem osGet_osSet (k : Int) (v : OrderSnap) :
    ∀ (m : List (Int × OrderSnap)) (q : Int),
      osGet (osSet k v m) q = if q = k then some v else osGet m q := by
  intro m
  induction m with
  | nil =>
    intro q
    rw [show osSet k v [] = [(k, v)] from rfl, osGet_cons, osGet_nil]
    by_cases h : q = k
    · simp [h]
    · simp only [if_neg h, if_neg (show ¬ k = q from fun hc => h hc.symm)]
  | cons e es ih =>
    intro q
    by_cases hek : e.1 = k
    · rw [show osSet k v (e :: es) = (k, v) :: es by simp [osSet, hek], osGet_cons,
        osGet_cons]
      by_cases h : q = k
      · simp [h]
      · simp only [if_neg h, if_neg (show ¬ k = q from fun hc => h hc.symm),
          if_neg (show ¬ e.1 = q by rw [hek]; exact fun hc => h hc.symm)]
    · rw [show osSet k v (e :: es) = e :: osSet k v es by simp [osSet, hek], osGet_cons,
        osGet_cons, ih q]
      by_cases heq : e.1 = q
      · have hq : ¬ q = k := fun hc => hek (heq.trans hc)
        simp only [if_pos heq, if_neg hq]
      · simp only [if_neg heq]

theorem osGet_osErase (k : Int) :
    ∀ (m : List (Int × OrderSnap)) (q : Int),
      osGet (osErase k m) q = if q = k then none else osGet m q := by
  intro m
  induction m with
  | nil =>
    intro q
    rw [show osErase k [] = [] from rfl, osGet_nil]
    by_cases h : q = k
    · simp only [if_pos h]
    · simp only [if_neg h, osGet_nil]
  | cons e es ih =>
    intro q
    by_cases hek : e.1 = k
    · rw [show osErase k (e :: es) = osErase k es by
        simp [osErase, List.filter_cons, hek], ih q, osGet_cons]
      by_cases h : q = k
      · simp only [if_pos h]
      · simp only [if_neg h,
          if_neg (show ¬ e.1 = q by rw [hek]; exact fun hc => h hc.symm)]
    · rw [show osErase k (e :: es) = e :: osErase k es by
        simp [osErase, List.filter_cons, hek], osGet_cons, ih q, osGet_cons]
      by_cases heq : e.1 = q
      · have hq : ¬ q = k := fun hc => hek (heq.trans hc)
        simp only [if_pos heq, if_neg hq]
      · simp only [if_neg heq]

/-! ## Per-event view transitions -/

theorem apply_trade (v : BookView) (t : TradeEvent) :
    (v.apply (.trade t)).orders = v.orders
      ∧ (v.apply (.trade t)).bids = v.bids
      ∧ (v.apply (.trade t)).asks = v.asks
      ∧ (v.apply (.trade t)).tape = tapeAppend v.tapeCap v.tape t
      ∧ (v.apply (.trade t)).tapeCap = v.tapeCap :=
  ⟨rfl, rfl, rfl, rfl, rfl⟩

theorem apply_rested_buy (v : BookView) (e : OrderRestedEvent)
    (hside : e.side = Side.buy) :
    (v.apply (.rested e)).orders
        = osSet e.orderID ⟨e.userID, e.side, e.price, e.size, e.time⟩ v.orders
      ∧ (v.apply (.rested e)).bids
        = alSet e.price (alGet v.bids e.price + e.size) v.bids
      ∧ (v.apply (.rested e)).asks = v.asks
      ∧ (v.apply (.rested e)).tape = v.tape := by
  simp [BookView.apply, hside]

theorem apply_rested_sell (v : BookView) (e : OrderRestedEvent)
    (hside : e.side = Side.sell) :
    (v.apply (.rested e)).orders
        = osSet e.orderID ⟨e.userID, e.side, e.price, e.size, e.time⟩ v.orders
      ∧ (v.apply (.rested e)).asks
        = alSet e.price (alGet v.asks e.price + e.size) v.asks
      ∧ (v.apply (.rested e)).bids = v.bids
      ∧ (v.apply (.rested e)).tape = v.tape := by
  simp [BookView.apply, hside]

theorem apply_reduced_buy (v : BookView) (e : OrderReducedEvent) (st : OrderSnap)
    (hget : osGet v.orders e.orderID = some st) (hside : st.side = Side.buy) :
    (v.apply (.reduced e)).orders
        = osSet e.orderID { st with size := e.remaining } v.orders
      ∧ (v.apply (.reduced e)).bids
        = (if alGet v.bids st.price + e.delta ≤ 0 then alErase st.price v.bids
          else alSet st.price (alGet v.bids st.price + e.delta) v.bids)
      ∧ (v.apply (.reduced e)).asks = v.asks
      ∧ (v.apply (.reduced e)).tape = v.tape := by
  simp [BookView.apply, hget, hside]

theorem apply_reduced_sell (v : BookView) (e : OrderReducedEvent) (st : OrderSnap)
    (hget : osGet v.orders e.orderID = some st) (hside : st.side = Side.sell) :
    (v.apply (.reduced e)).orders
        = osSet e.orderID { st with size := e.remaining } v.orders
      ∧ (v.apply (.reduced e)).asks
        = (if alGet v.asks st.price + e.delta ≤ 0 then alErase st.price v.asks
          else alSet st.price (alGet v.asks st.price + e.delta) v.asks)
      ∧ (v.apply (.reduced e)).bids = v.bids
      ∧ (v.apply (.reduced e)).tape = v.tape := by
  simp [BookView.apply, hget, hside]

theorem apply_removed_buy (v : BookView) (e : OrderRemovedEvent) (st : OrderSnap)
    (hget : osGet v.orders e.orderID = some st) (hside : st.side = Side.buy) :
    (v.apply (.removed e)).orders = osErase e.orderID v.orders
      ∧ (v.apply (.removed e)).bids
        = (if alGet v.bids st.price - st.size ≤ 0 then alErase st.price v.bids
          else alSet st.price (alGet v.bids st.price - st.size) v.bids)
      ∧ (v.apply (.removed e)).asks = v.asks
      ∧ (v.apply (.removed e)).tape = v.tape := by
  simp [BookView.apply, hget, hside]

theorem apply_removed_sell (v : BookView) (e : OrderRemovedEvent) (st : OrderSnap)
    (hget : osGet v.orders e.orderID = some st) (hside : st.side = Side.sell) :
    (v.apply (.removed e)).orders = osErase e.orderID v.orders
      ∧ (v.apply (.removed e)).asks
        = (if alGet v.asks st.price - st.size ≤ 0 then alErase st.price v.asks
          else alSet st.price (alGet v.asks st.price - st.size) v.asks)
      ∧ (v.apply (.removed e)).bids = v.bids
      ∧ (v.apply (.removed e)).tape = v.tape := by
  simp [BookView.apply, hget, hside]

theorem applyEvents_nil (v : BookView) : applyEvents v [] = v := rfl

theorem applyEvents_cons (v : BookView) (e : Event) (evs : List Event) :
    applyEvents v (e :: evs) = applyEvents (v.apply e) evs := rfl

theorem applyEvents_append (v : BookView) (a b : List Event) :
    applyEvents v (a ++ b) = applyEvents (applyEvents v a) b :=
  List.foldl_append ..

theorem apply_tapeCap (v : BookView) (e : Event) : (v.apply e).tapeCap = v.tapeCap := by
  cases e with
  | trade t => rfl
  | rested r =>
    cases h : r.side <;> simp [BookView.apply, h]
  | reduced r =>
    cases hg : osGet v.orders r.orderID with
    | none => simp [BookView.apply, hg]
    | some st => cases h : st.side <;> simp [BookView.apply, hg, h]
  | removed r =>
    cases hg : osGet v.orders r.orderID with
    | none => simp [BookView.apply, hg]
    | some st => cases h : st.side <;> simp [BookView.apply, hg, h]


/-! ## Composite view steps (one maker consumed: Trade then
Reduced/Removed) -/

theorem alGet_setOrErase (p nv : Int) (m : List (Int × Int)) (q : Int) :
    alGet (if nv ≤ 0 then alErase p m else alSet p nv m) q
      = if q = p then (if nv ≤ 0 then 0 else nv) else alGet m q := by
  by_cases h : nv ≤ 0
  · simp only [if_pos h, alGet_alErase]
  · simp only [if_neg h, alGet_alSet]

theorem step_full_sell (v : BookView) (t : TradeEvent) (e : OrderRemovedEvent)
    (sn : OrderSnap) (hget : osGet v.orders e.orderID = some sn)
    (hside : sn.side = Side.sell) :
    (∀ i, osGet ((v.apply (.trade t)).apply (.removed e)).orders i
        = if i = e.orderID then none else osGet v.orders i)
      ∧ (∀ q, alGet ((v.apply (.trade t)).apply (.removed e)).asks q
          = if q = sn.price then
              (if alGet v.asks sn.price - sn.size ≤ 0 then 0
                else alGet v.asks sn.price - sn.size)
            else alGet v.asks q)
      ∧ (∀ q, alGet ((v.apply (.trade t)).apply (.removed e)).bids q
          = alGet v.bids q) := by
  obtain ⟨t1, t2, t3, -, -⟩ := apply_trade v t
  obtain ⟨r1, r2, r3, -⟩ := apply_removed_sell (v.apply (.trade t)) e sn hget hside
  rw [t1] at r1
  rw [t3] at r2
  rw [t2] at r3
  exact ⟨fun i => by rw [r1, osGet_osErase],
    fun q => by rw [r2, alGet_setOrErase],
    fun q => by rw [r3]⟩

theorem step_partial_sell (v : BookView) (t : TradeEvent) (e : OrderReducedEvent)
    (sn : OrderSnap) (hget : osGet v.orders e.orderID = some sn)
    (hside : sn.side = Side.sell) :
    (∀ i, osGet ((v.apply (.trade t)).apply (.reduced e)).orders i
        = if i = e.orderID then some { sn with size := e.remaining }
          else osGet v.orders i)
      ∧ (∀ q, alGet ((v.apply (.trade t)).apply (.reduced e)).asks q
          = if q = sn.price then
              (if alGet v.asks sn.price + e.delta ≤ 0 then 0
                else alGet v.asks sn.price + e.delta)
            else alGet v.asks q)
      ∧ (∀ q, alGet ((v.apply (.trade t)).apply (.reduced e)).bids q
          = alGet v.bids q) := by
  obtain ⟨t1, t2, t3, -, -⟩ := apply_trade v t
  obtain ⟨r1, r2, r3, -⟩ := apply_reduced_sell (v.apply (.trade t)) e sn hget hside
  rw [t1] at r1
  rw [t3] at r2
  rw [t2] at r3
  exact ⟨fun i => by rw [r1, osGet_osSet],
    fun q => by rw [r2, alGet_setOrErase],
    fun q => by rw [r3]⟩

theorem step_full_buy (v : BookView) (t : TradeEvent) (e : OrderRemovedEvent)
    (sn : OrderSnap) (hget : osGet v.orders e.orderID = some sn)
    (hside : sn.side = Side.buy) :
    (∀ i, osGet ((v.apply (.trade t)).apply (.removed e)).orders i
        = if i = e.orderID then none else osGet v.orders i)
      ∧ (∀ q, alGet ((v.apply (.trade t)).apply (.removed e)).bids q
          = if q = sn.price then
              (if alGet v.bids sn.price - sn.size ≤ 0 then 0
                else alGet v.bids sn.price - sn.size)
            else alGet v.bids q)
      ∧ (∀ q, alGet ((v.apply (.trade t)).apply (.removed e)).asks q
          = alGet v.asks q) := by
  obtain ⟨t1, t2, t3, -, -⟩ := apply_trade v t
  obtain ⟨r1, r2, r3, -⟩ := apply_removed_buy (v.apply (.trade t)) e sn hget hside
  rw [t1] at r1
  rw [t2] at r2
  rw [t3] at r3
  exact ⟨fun i => by rw [r1, osGet_osErase],
    fun q => by rw [r2, alGet_setOrErase],
    fun q => by rw [r3]⟩

theorem step_partial_buy (v : BookView) (t : TradeEvent) (e : OrderReducedEvent)
    (sn : OrderSnap) (hget : osGet v.orders e.orderID = some sn)
    (hside : sn.side = Side.buy) :
    (∀ i, osGet ((v.apply (.trade t)).apply (.reduced e)).orders i
        = if i = e.orderID then some { sn with size := e.remaining }
          else osGet v.orders i)
      ∧ (∀ q, alGet ((v.apply (.trade t)).apply (.reduced e)).bids q
          = if q = sn.price then
              (if alGet v.bids sn.price + e.delta ≤ 0 then 0
                else alGet v.bids sn.price + e.delta)
            else alGet v.bids q)
      ∧ (∀ q, alGet ((v.apply (.trade t)).apply (.reduced e)).asks q
          = alGet v.asks q) := by
  obtain ⟨t1, t2, t3, -, -⟩ := apply_trade v t
  obtain ⟨r1, r2, r3, -⟩ := apply_reduced_buy (v.apply (.trade t)) e sn hget hside
  rw [t1] at r1
  rw [t2] at r2
  rw [t3] at r3
  exact ⟨fun i => by rw [r1, osGet_osSet],
    fun q => by rw [r2, alGet_setOrErase],
    fun q => by rw [r3]⟩


/-! ## View simulation of the inner maker loop -/

theorem matchInner_sim_sell (taker : Order) (p : Int) :
    ∀ (remaining vol : Int) (fifo : List RestingOrder) (v : BookView),
      (∀ o ∈ fifo, 0 < o.size ∧ o.price = p ∧ o.side = Side.sell) →
      (fifo.map (fun o => o.id)).Nodup →
      (∀ o ∈ fifo, osGet v.orders o.id = some (restSnap o)) →
      alGet v.asks p = fifoSum fifo →
      (∀ i, i ∉ fifo.map (fun o => o.id) →
          osGet (applyEvents v (matchInner taker p remaining vol fifo).events).orders i
            = osGet v.orders i)
        ∧ (∀ o ∈ (matchInner taker p remaining vol fifo).fifo,
            osGet (applyEvents v (matchInner taker p remaining vol fifo).events).orders o.id
              = some (restSnap o))
        ∧ (∀ i ∈ (matchInner taker p remaining vol fifo).removed,
            osGet (applyEvents v (matchInner taker p remaining vol fifo).events).orders i
              = none)
        ∧ (∀ q, alGet (applyEvents v (matchInner taker p remaining vol fifo).events).asks q
            = if q = p then fifoSum (matchInner taker p remaining vol fifo).fifo
              else alGet v.asks q)
        ∧ (∀ q, alGet (applyEvents v (matchInner taker p remaining vol fifo).events).bids q
            = alGet v.bids q) := by
  intro remaining vol fifo
  induction remaining, vol, fifo using matchInner.induct taker p with
  | case1 remaining vol =>
    intro v hWF hnd hacc hagg
    simp only [matchInner, applyEvents_nil]
    refine ⟨fun i _ => by trivial, by simp, by simp, ?_, fun q => by trivial⟩
    intro q
    by_cases hq : q = p
    · subst hq
      rw [if_pos rfl, hagg, fifoSum_nil]
    · rw [if_neg hq]
  | case2 remaining vol maker rest h =>
    intro v hWF hnd hacc hagg
    simp only [matchInner, if_pos h, applyEvents_nil]
    refine ⟨fun i _ => by trivial, hacc, by simp, ?_, fun q => by trivial⟩
    intro q
    by_cases hq : q = p
    · subst hq
      rw [if_pos rfl, hagg]
    · rw [if_neg hq]
  | case3 remaining vol maker rest h1 h2 ih =>
    intro v hWF hnd hacc hagg
    exact absurd (hWF maker (by simp)).1 (by omega)
  | case4 remaining vol maker rest h1 h2 traded htr ih =>
    intro v hWF hnd hacc hagg
    simp only [show traded = min remaining maker.size from rfl] at htr
    have := (hWF maker (by simp)).1
    omega
  | case5 remaining vol maker rest h1 h2 traded htr hfill ih =>
    intro v hWF hnd hacc hagg
    simp only [show traded = min remaining maker.size from rfl] at htr hfill ih
    simp only [matchInner, if_neg h1, if_neg h2, if_neg htr, if_pos hfill]
    rw [applyEvents_cons, applyEvents_cons]
    have hmk := hWF maker (by simp)
    have hgetm : osGet v.orders maker.id = some (restSnap maker) := hacc maker (by simp)
    obtain ⟨s1, s2, s3⟩ := step_full_sell v
      ⟨p, min remaining maker.size, taker.side, taker.time, taker.id, taker.userID,
        maker.id, maker.userID⟩
      ⟨maker.id, RemoveReason.filled, 0, maker.price, maker.side, maker.userID,
        taker.time⟩ (restSnap maker) hgetm hmk.2.2
    simp only [restSnap] at s1 s2 s3
    rw [List.map_cons, List.nodup_cons] at hnd
    have hfs : fifoSum (maker :: rest) - maker.size = fifoSum rest := by
      rw [fifoSum_cons]; omega
    have hr0 : 0 ≤ fifoSum rest :=
      fifoSum_nonneg (fun o ho => le_of_lt (hWF o (by simp [ho])).1)
    have s2' : ∀ q,
        alGet ((v.apply (.trade ⟨p, min remaining maker.size, taker.side, taker.time,
            taker.id, taker.userID, maker.id, maker.userID⟩)).apply
          (.removed ⟨maker.id, RemoveReason.filled, 0, maker.price, maker.side,
            maker.userID, taker.time⟩)).asks q
          = if q = p then fifoSum rest else alGet v.asks q := by
      intro q
      rw [s2 q, hmk.2.1, hagg, hfs]
      by_cases hq : q = p
      · rw [if_pos hq, if_pos hq]
        split_ifs with h0
        · omega
        · rfl
      · rw [if_neg hq, if_neg hq]
    have hWFr : ∀ o ∈ rest, 0 < o.size ∧ o.price = p ∧ o.side = Side.sell :=
      fun o ho => hWF o (by simp [ho])
    have hacc2 : ∀ o ∈ rest,
        osGet ((v.apply (.trade ⟨p, min remaining maker.size, taker.side, taker.time,
            taker.id, taker.userID, maker.id, maker.userID⟩)).apply
          (.removed ⟨maker.id, RemoveReason.filled, 0, maker.price, maker.side,
            maker.userID, taker.time⟩)).orders o.id = some (restSnap o) := by
      intro o ho
      rw [s1 o.id, if_neg (fun (hc : o.id = maker.id) => hnd.1 (hc ▸ List.mem_map_of_mem _ ho))]
      exact hacc o (by simp [ho])
    have hagg2 : alGet ((v.apply (.trade ⟨p, min remaining maker.size, taker.side,
        taker.time, taker.id, taker.userID, maker.id, maker.userID⟩)).apply
          (.removed ⟨maker.id, RemoveReason.filled, 0, maker.price, maker.side,
            maker.userID, taker.time⟩)).asks p = fifoSum rest := by
      rw [s2' p, if_pos rfl]
    obtain ⟨i1, i2, i3, i4, i5⟩ := ih _ hWFr hnd.2 hacc2 hagg2
    refine ⟨?_, ?_, ?_, ?_, ?_⟩
    · intro i hi
      have hi1 : ¬ i = maker.id := fun hc => hi (by simp [hc])
      have hi2 : i ∉ rest.map (fun o => o.id) := fun hc => hi (by simp [hc])
      rw [i1 i hi2, s1 i, if_neg hi1]
    · exact i2
    · intro i hi
      rcases List.mem_cons.mp hi with rfl | hi
      · rw [i1 maker.id hnd.1, s1 maker.id, if_pos rfl]
      · exact i3 i hi
    · intro q
      rw [i4 q]
      by_cases hq : q = p
      · rw [if_pos hq, if_pos hq]
      · rw [if_neg hq, if_neg hq, s2' q, if_neg hq]
    · intro q
      rw [i5 q, s3 q]
  | case6 remaining vol maker rest h1 h2 traded htr hfill =>
    intro v hWF hnd hacc hagg
    simp only [show traded = min remaining maker.size from rfl] at htr hfill
    simp only [matchInner, if_neg h1, if_neg h2, if_neg htr, if_neg hfill]
    rw [applyEvents_cons, applyEvents_cons, applyEvents_nil]
    have hmk := hWF maker (by simp)
    have hgetm : osGet v.orders maker.id = some (restSnap maker) := hacc maker (by simp)
    obtain ⟨s1, s2, s3⟩ := step_partial_sell v
      ⟨p, min remaining maker.size, taker.side, taker.time, taker.id, taker.userID,
        maker.id, maker.userID⟩
      ⟨maker.id, -(min remaining maker.size), maker.size - min remaining maker.size,
        maker.price, maker.side, maker.userID, taker.time⟩
      (restSnap maker) hgetm hmk.2.2
    simp only [restSnap] at s1 s2 s3
    rw [List.map_cons, List.nodup_cons] at hnd
    have hr0 : 0 ≤ fifoSum rest :=
      fifoSum_nonneg (fun o ho => le_of_lt (hWF o (by simp [ho])).1)
    have hfs : fifoSum (maker :: rest) + -(min remaining maker.size)
        = fifoSum ({ maker with size := maker.size - min remaining maker.size } :: rest) := by
      rw [fifoSum_cons, fifoSum_cons]
      dsimp only
      omega
    refine ⟨?_, ?_, ?_, ?_, ?_⟩
    · intro i hi
      have hi1 : ¬ i = maker.id := fun hc => hi (by simp [hc])
      rw [s1 i, if_neg hi1]
    · intro o ho
      rcases List.mem_cons.mp ho with rfl | ho
      · rw [s1, if_pos rfl]
        simp [restSnap]
      · have ho1 : ¬ o.id = maker.id := fun hc => hnd.1 (hc ▸ List.mem_map_of_mem _ ho)
        rw [s1 o.id, if_neg ho1]
        exact hacc o (by simp [ho])
    · intro i hi
      exact absurd hi (by simp)
    · intro q
      rw [s2 q, hmk.2.1, hagg, hfs]
      by_cases hq : q = p
      · rw [if_pos hq, if_pos hq]
        have hpos2 : 0 < fifoSum ({ maker with
            size := maker.size - min remaining maker.size } :: rest) := by
          rw [fifoSum_cons]
          dsimp only
          omega
        rw [if_neg (by omega)]
        simp [fifoSum_cons]
      · rw [if_neg hq, if_neg hq]
    · intro q
      rw [s3 q]


theorem matchInner_sim_buy (taker : Order) (p : Int) :
    ∀ (remaining vol : Int) (fifo : List RestingOrder) (v : BookView),
      (∀ o ∈ fifo, 0 < o.size ∧ o.price = p ∧ o.side = Side.buy) →
      (fifo.map (fun o => o.id)).Nodup →
      (∀ o ∈ fifo, osGet v.orders o.id = some (restSnap o)) →
      alGet v.bids p = fifoSum fifo →
      (∀ i, i ∉ fifo.map (fun o => o.id) →
          osGet (applyEvents v (matchInner taker p remaining vol fifo).events).orders i
            = osGet v.orders i)
        ∧ (∀ o ∈ (matchInner taker p remaining vol fifo).fifo,
            osGet (applyEvents v (matchInner taker p remaining vol fifo).events).orders o.id
              = some (restSnap o))
        ∧ (∀ i ∈ (matchInner taker p remaining vol fifo).removed,
            osGet (applyEvents v (matchInner taker p remaining vol fifo).events).orders i
              = none)
        ∧ (∀ q, alGet (applyEvents v (matchInner taker p remaining vol fifo).events).bids q
            = if q = p then fifoSum (matchInner taker p remaining vol fifo).fifo
              else alGet v.bids q)
        ∧ (∀ q, alGet (applyEvents v (matchInner taker p remaining vol fifo).events).asks q
            = alGet v.asks q) := by
  intro remaining vol fifo
  induction remaining, vol, fifo using matchInner.induct taker p with
  | case1 remaining vol =>
    intro v hWF hnd hacc hagg
    simp only [matchInner, applyEvents_nil]
    refine ⟨fun i _ => by trivial, by simp, by simp, ?_, fun q => by trivial⟩
    intro q
    by_cases hq : q = p
    · subst hq
      rw [if_pos rfl, hagg, fifoSum_nil]
    · rw [if_neg hq]
  | case2 remaining vol maker rest h =>
    intro v hWF hnd hacc hagg
    simp only [matchInner, if_pos h, applyEvents_nil]
    refine ⟨fun i _ => by trivial, hacc, by simp, ?_, fun q => by trivial⟩
    intro q
    by_cases hq : q = p
    · subst hq
      rw [if_pos rfl, hagg]
    · rw [if_neg hq]
  | case3 remaining vol maker rest h1 h2 ih =>
    intro v hWF hnd hacc hagg
    exact absurd (hWF maker (by simp)).1 (by omega)
  | case4 remaining vol maker rest h1 h2 traded htr ih =>
    intro v hWF hnd hacc hagg
    simp only [show traded = min remaining maker.size from rfl] at htr
    have := (hWF maker (by simp)).1
    omega
  | case5 remaining vol maker rest h1 h2 traded htr hfill ih =>
    intro v hWF hnd hacc hagg
    simp only [show traded = min remaining maker.size from rfl] at htr hfill ih
    simp only [matchInner, if_neg h1, if_neg h2, if_neg htr, if_pos hfill]
    rw [applyEvents_cons, applyEvents_cons]
    have hmk := hWF maker (by simp)
    have hgetm : osGet v.orders maker.id = some (restSnap maker) := hacc maker (by simp)
    obtain ⟨s1, s2, s3⟩ := step_full_buy v
      ⟨p, min remaining maker.size, taker.side, taker.time, taker.id, taker.userID,
        maker.id, maker.userID⟩
      ⟨maker.id, RemoveReason.filled, 0, maker.price, maker.side, maker.userID,
        taker.time⟩ (restSnap maker) hgetm hmk.2.2
    simp only [restSnap] at s1 s2 s3
    rw [List.map_cons, List.nodup_cons] at hnd
    have hfs : fifoSum (maker :: rest) - maker.size = fifoSum rest := by
      rw [fifoSum_cons]; omega
    have hr0 : 0 ≤ fifoSum rest :=
      fifoSum_nonneg (fun o ho => le_of_lt (hWF o (by simp [ho])).1)
    have s2' : ∀ q,
        alGet ((v.apply (.trade ⟨p, min remaining maker.size, taker.side, taker.time,
            taker.id, taker.userID, maker.id, maker.userID⟩)).apply
          (.removed ⟨maker.id, RemoveReason.filled, 0, maker.price, maker.side,
            maker.userID, taker.time⟩)).bids q
          = if q = p then fifoSum rest else alGet v.bids q := by
      intro q
      rw [s2 q, hmk.2.1, hagg, hfs]
      by_cases hq : q = p
      · rw [if_pos hq, if_pos hq]
        split_ifs with h0
        · omega
        · rfl
      · rw [if_neg hq, if_neg hq]
    have hWFr : ∀ o ∈ rest, 0 < o.size ∧ o.price = p ∧ o.side = Side.buy :=
      fun o ho => hWF o (by simp [ho])
    have hacc2 : ∀ o ∈ rest,
        osGet ((v.apply (.trade ⟨p, min remaining maker.size, taker.side, taker.time,
            taker.id, taker.userID, maker.id, maker.userID⟩)).apply
          (.removed ⟨maker.id, RemoveReason.filled, 0, maker.price, maker.side,
            maker.userID, taker.time⟩)).orders o.id = some (restSnap o) := by
      intro o ho
      rw [s1 o.id, if_neg (fun (hc : o.id = maker.id) => hnd.1 (hc ▸ List.mem_map_of_mem _ ho))]
      exact hacc o (by simp [ho])
    have hagg2 : alGet ((v.apply (.trade ⟨p, min remaining maker.size, taker.side,
        taker.time, taker.id, taker.userID, maker.id, maker.userID⟩)).apply
          (.removed ⟨maker.id, RemoveReason.filled, 0, maker.price, maker.side,
            maker.userID, taker.time⟩)).bids p = fifoSum rest := by
      rw [s2' p, if_pos rfl]
    obtain ⟨i1, i2, i3, i4, i5⟩ := ih _ hWFr hnd.2 hacc2 hagg2
    refine ⟨?_, ?_, ?_, ?_, ?_⟩
    · intro i hi
      have hi1 : ¬ i = maker.id := fun hc => hi (by simp [hc])
      have hi2 : i ∉ rest.map (fun o => o.id) := fun hc => hi (by simp [hc])
      rw [i1 i hi2, s1 i, if_neg hi1]
    · exact i2
    · intro i hi
      rcases List.mem_cons.mp hi with rfl | hi
      · rw [i1 maker.id hnd.1, s1 maker.id, if_pos rfl]
      · exact i3 i hi
    · intro q
      rw [i4 q]
      by_cases hq : q = p
      · rw [if_pos hq, if_pos hq]
      · rw [if_neg hq, if_neg hq, s2' q, if_neg hq]
    · intro q
      rw [i5 q, s3 q]
  | case6 remaining vol maker rest h1 h2 traded htr hfill =>
    intro v hWF hnd hacc hagg
    simp only [show traded = min remaining maker.size from rfl] at htr hfill
    simp only [matchInner, if_neg h1, if_neg h2, if_neg htr, if_neg hfill]
    rw [applyEvents_cons, applyEvents_cons, applyEvents_nil]
    have hmk := hWF maker (by simp)
    have hgetm : osGet v.orders maker.id = some (restSnap maker) := hacc maker (by simp)
    obtain ⟨s1, s2, s3⟩ := step_partial_buy v
      ⟨p, min remaining maker.size, taker.side, taker.time, taker.id, taker.userID,
        maker.id, maker.userID⟩
      ⟨maker.id, -(min remaining maker.size), maker.size - min remaining maker.size,
        maker.price, maker.side, maker.userID, taker.time⟩
      (restSnap maker) hgetm hmk.2.2
    simp only [restSnap] at s1 s2 s3
    rw [List.map_cons, List.nodup_cons] at hnd
    have hr0 : 0 ≤ fifoSum rest :=
      fifoSum_nonneg (fun o ho => le_of_lt (hWF o (by simp [ho])).1)
    have hfs : fifoSum (maker :: rest) + -(min remaining maker.size)
        = fifoSum ({ maker with size := maker.size - min remaining maker.size } :: rest) := by
      rw [fifoSum_cons, fifoSum_cons]
      dsimp only
      omega
    refine ⟨?_, ?_, ?_, ?_, ?_⟩
    · intro i hi
      have hi1 : ¬ i = maker.id := fun hc => hi (by simp [hc])
      rw [s1 i, if_neg hi1]
    · intro o ho
      rcases List.mem_cons.mp ho with rfl | ho
      · rw [s1, if_pos rfl]
        simp [restSnap]
      · have ho1 : ¬ o.id = maker.id := fun hc => hnd.1 (hc ▸ List.mem_map_of_mem _ ho)
        rw [s1 o.id, if_neg ho1]
        exact hacc o (by simp [ho])
    · intro i hi
      exact absurd hi (by simp)
    · intro q
      rw [s2 q, hmk.2.1, hagg, hfs]
      by_cases hq : q = p
      · rw [if_pos hq, if_pos hq]
        have hpos2 : 0 < fifoSum ({ maker with
            size := maker.size - min remaining maker.size } :: rest) := by
          rw [fifoSum_cons]
          dsimp only
          omega
        rw [if_neg (by omega)]
        simp [fifoSum_cons]
      · rw [if_neg hq, if_neg hq]
    · intro q
      rw [s3 q]


/-! ## View simulation of the outer matching loop -/

theorem matchLoop_sim_asks (taker : Order) (limitPrice : Option Int) :
    ∀ (remaining : Int) (opp : List Level) (v : BookView),
      SideWF Side.sell opp →
      (sideIds opp).Nodup →
      (∀ l ∈ opp, ∀ o ∈ l.fifo, osGet v.orders o.id = some (restSnap o)) →
      (∀ q, alGet v.asks q = sideAgg opp q) →
      (∀ i, i ∉ sideIds opp →
          osGet (applyEvents v
            (matchLoop taker limitPrice false remaining opp).events).orders i
            = osGet v.orders i)
        ∧ (∀ l ∈ (matchLoop taker limitPrice false remaining opp).levels,
            ∀ o ∈ l.fifo,
            osGet (applyEvents v
              (matchLoop taker limitPrice false remaining opp).events).orders o.id
              = some (restSnap o))
        ∧ (∀ i ∈ (matchLoop taker limitPrice false remaining opp).removed,
            osGet (applyEvents v
              (matchLoop taker limitPrice false remaining opp).events).orders i
              = none)
        ∧ (∀ q, alGet (applyEvents v
              (matchLoop taker limitPrice false remaining opp).events).asks q
            = sideAgg (matchLoop taker limitPrice false remaining opp).levels q)
        ∧ (∀ q, alGet (applyEvents v
              (matchLoop taker limitPrice false remaining opp).events).bids q
            = alGet v.bids q) := by
  intro remaining opp
  induction remaining, opp using matchLoop.induct taker limitPrice false with
  | case1 remaining opp h =>
    intro v hWFs hnd hacc hagg
    rw [matchLoop_exhausted h]
    exact ⟨fun i _ => rfl, hacc, by simp, hagg, fun q => rfl⟩
  | case2 remaining opp h1 hnone =>
    intro v hWFs hnd hacc hagg
    rw [matchLoop_empty h1 hnone]
    exact ⟨fun i _ => rfl, hacc, by simp, hagg, fun q => rfl⟩
  | case3 remaining opp h1 best rest hex hstop =>
    intro v hWFs hnd hacc hagg
    rw [matchLoop_limit h1 hex hstop]
    exact ⟨fun i _ => rfl, hacc, by simp, hagg, fun q => rfl⟩
  | case4 remaining opp h1 best rest hex hstop r hrem ih =>
    intro v hWFs hnd hacc hagg
    simp only [show r = matchInner taker best.price remaining best.totalVolume best.fifo
      from rfl] at hrem ih
    rw [matchLoop_removed h1 hex hstop hrem]
    dsimp only
    have hperm := extractBest_perm hex
    have hbest : best ∈ opp := hperm.mem_iff.mpr (by simp)
    obtain ⟨hpricesNd, hWF⟩ := hWFs
    have hbwf := hWF best hbest
    have hWFrest : ∀ l ∈ rest, LevelWF Side.sell l :=
      fun l hl => hWF l (hperm.mem_iff.mpr (by simp [hl]))
    have hmapPerm : List.Perm (opp.map (·.price)) (best.price :: rest.map (·.price)) := by
      simpa using hperm.map (·.price)
    have hpricesNd2 := hmapPerm.nodup_iff.mp hpricesNd
    have hpnotin : best.price ∉ rest.map (·.price) := (List.nodup_cons.mp hpricesNd2).1
    have hRestNd : (rest.map (·.price)).Nodup := (List.nodup_cons.mp hpricesNd2).2
    have hidsPerm : List.Perm (sideIds opp) (levelIds best ++ sideIds rest) := by
      have := sideIds_perm hperm
      rwa [sideIds_cons] at this
    have hndBR := hidsPerm.nodup_iff.mp hnd
    have hndB : (levelIds best).Nodup := hndBR.of_append_left
    have hndR : (sideIds rest).Nodup := hndBR.of_append_right
    have hdisj := List.disjoint_of_nodup_append hndBR
    obtain ⟨w1, w2, -⟩ := matchInner_wf taker Side.sell best.price remaining
      best.totalVolume best.fifo (hbwf.2.2) (hbwf.2.1)
    obtain ⟨-, -, -, i4, -, -, -, -, -, -⟩ :=
      matchInner_facts taker best.price remaining best.totalVolume best.fifo
    have hfifo : (matchInner taker best.price remaining best.totalVolume best.fifo).fifo
        = [] := by
      rcases hrem with hv | hf
      · by_contra hne
        have : 0 < fifoSum (matchInner taker best.price remaining best.totalVolume
            best.fifo).fifo := fifoSum_pos (fun o ho => (w1 o ho).1) hne
        omega
      · exact hf
    have hrumv : (matchInner taker best.price remaining best.totalVolume
        best.fifo).removed = levelIds best := by
      have h := i4
      rw [hfifo] at h
      simpa [levelIds] using h
    have haggB : alGet v.asks best.price = fifoSum best.fifo := by
      rw [hagg best.price, sideAgg_perm hperm, sideAgg_cons, if_pos rfl,
        sideAgg_not_mem hpnotin, add_zero]
    obtain ⟨m1, m2, m3, m4, m5⟩ := matchInner_sim_sell taker best.price remaining
      best.totalVolume best.fifo v (hbwf.2.2) hndB
      (fun o ho => hacc best hbest o ho) haggB
    rw [applyEvents_append]
    have hacc2 : ∀ l ∈ rest, ∀ o ∈ l.fifo,
        osGet (applyEvents v (matchInner taker best.price remaining best.totalVolume
          best.fifo).events).orders o.id = some (restSnap o) := by
      intro l hl o ho
      have hoid : o.id ∈ sideIds rest := mem_sideIds hl ho
      have hnotb : o.id ∉ levelIds best := fun hc => hdisj hc hoid
      rw [m1 o.id hnotb]
      exact hacc l (hperm.mem_iff.mpr (by simp [hl])) o ho
    have hagg2 : ∀ q, alGet (applyEvents v (matchInner taker best.price remaining
        best.totalVolume best.fifo).events).asks q = sideAgg rest q := by
      intro q
      rw [m4 q]
      by_cases hq : q = best.price
      · subst hq
        rw [if_pos rfl, hfifo, fifoSum_nil, sideAgg_not_mem hpnotin]
      · rw [if_neg hq, hagg q, sideAgg_perm hperm, sideAgg_cons,
          if_neg (fun hc => hq hc.symm), zero_add]
    obtain ⟨j1, j2, j3, j4, j5⟩ := ih _ ⟨hRestNd, hWFrest⟩ hndR hacc2 hagg2
    refine ⟨?_, ?_, ?_, ?_, ?_⟩
    · intro i hi
      have hi1 : i ∉ levelIds best :=
        fun hc => hi (hidsPerm.mem_iff.mpr (List.mem_append.mpr (Or.inl hc)))
      have hi2 : i ∉ sideIds rest :=
        fun hc => hi (hidsPerm.mem_iff.mpr (List.mem_append.mpr (Or.inr hc)))
      rw [j1 i hi2, m1 i hi1]
    · exact j2
    · intro i hi
      rcases List.mem_append.mp hi with hi | hi
      · have hib : i ∈ levelIds best := by rw [← hrumv]; exact hi
        have hi2 : i ∉ sideIds rest := fun hc => hdisj hib hc
        rw [j1 i hi2]
        exact m3 i hi
      · exact j3 i hi
    · exact j4
    · intro q
      rw [j5 q, m5 q]
  | case5 remaining opp h1 best rest hex hstop r hkept =>
    intro v hWFs hnd hacc hagg
    simp only [show r = matchInner taker best.price remaining best.totalVolume best.fifo
      from rfl] at hkept
    rw [matchLoop_kept h1 hex hstop hkept]
    dsimp only
    have hperm := extractBest_perm hex
    have hbest : best ∈ opp := hperm.mem_iff.mpr (by simp)
    obtain ⟨hpricesNd, hWF⟩ := hWFs
    have hbwf := hWF best hbest
    have hmapPerm : List.Perm (opp.map (·.price)) (best.price :: rest.map (·.price)) := by
      simpa using hperm.map (·.price)
    have hpricesNd2 := hmapPerm.nodup_iff.mp hpricesNd
    have hpnotin : best.price ∉ rest.map (·.price) := (List.nodup_cons.mp hpricesNd2).1
    have hidsPerm : List.Perm (sideIds opp) (levelIds best ++ sideIds rest) := by
      have := sideIds_perm hperm
      rwa [sideIds_cons] at this
    have hndBR := hidsPerm.nodup_iff.mp hnd
    have hndB : (levelIds best).Nodup := hndBR.of_append_left
    have hdisj := List.disjoint_of_nodup_append hndBR
    have haggB : alGet v.asks best.price = fifoSum best.fifo := by
      rw [hagg best.price, sideAgg_perm hperm, sideAgg_cons, if_pos rfl,
        sideAgg_not_mem hpnotin, add_zero]
    obtain ⟨m1, m2, m3, m4, m5⟩ := matchInner_sim_sell taker best.price remaining
      best.totalVolume best.fifo v (hbwf.2.2) hndB
      (fun o ho => hacc best hbest o ho) haggB
    refine ⟨?_, ?_, ?_, ?_, ?_⟩
    · intro i hi
      have hi1 : i ∉ levelIds best :=
        fun hc => hi (hidsPerm.mem_iff.mpr (List.mem_append.mpr (Or.inl hc)))
      exact m1 i hi1
    · intro l hl o ho
      rcases List.mem_append.mp hl with hl | hl
      · have hoid : o.id ∈ sideIds rest := mem_sideIds hl ho
        have hnotb : o.id ∉ levelIds best := fun hc => hdisj hc hoid
        rw [m1 o.id hnotb]
        exact hacc l (hperm.mem_iff.mpr (by simp [hl])) o ho
      · simp at hl
        subst hl
        exact m2 o ho
    · exact m3
    · intro q
      rw [m4 q, sideAgg_append, sideAgg_cons, sideAgg_nil]
      dsimp only
      by_cases hq : q = best.price
      · subst hq
        rw [if_pos rfl, if_pos rfl, sideAgg_not_mem hpnotin]
        omega
      · rw [if_neg hq, if_neg (fun hc => hq hc.symm), hagg q, sideAgg_perm hperm,
          sideAgg_cons, if_neg (fun hc => hq hc.symm)]
        omega
    · exact m5


theorem matchLoop_sim_bids (taker : Order) (limitPrice : Option Int) :
    ∀ (remaining : Int) (opp : List Level) (v : BookView),
      SideWF Side.buy opp →
      (sideIds opp).Nodup →
      (∀ l ∈ opp, ∀ o ∈ l.fifo, osGet v.orders o.id = some (restSnap o)) →
      (∀ q, alGet v.bids q = sideAgg opp q) →
      (∀ i, i ∉ sideIds opp →
          osGet (applyEvents v
            (matchLoop taker limitPrice true remaining opp).events).orders i
            = osGet v.orders i)
        ∧ (∀ l ∈ (matchLoop taker limitPrice true remaining opp).levels,
            ∀ o ∈ l.fifo,
            osGet (applyEvents v
              (matchLoop taker limitPrice true remaining opp).events).orders o.id
              = some (restSnap o))
        ∧ (∀ i ∈ (matchLoop taker limitPrice true remaining opp).removed,
            osGet (applyEvents v
              (matchLoop taker limitPrice true remaining opp).events).orders i
              = none)
        ∧ (∀ q, alGet (applyEvents v
              (matchLoop taker limitPrice true remaining opp).events).bids q
            = sideAgg (matchLoop taker limitPrice true remaining opp).levels q)
        ∧ (∀ q, alGet (applyEvents v
              (matchLoop taker limitPrice true remaining opp).events).asks q
            = alGet v.asks q) := by
  intro remaining opp
  induction remaining, opp using matchLoop.induct taker limitPrice true with
  | case1 remaining opp h =>
    intro v hWFs hnd hacc hagg
    rw [matchLoop_exhausted h]
    exact ⟨fun i _ => rfl, hacc, by simp, hagg, fun q => rfl⟩
  | case2 remaining opp h1 hnone =>
    intro v hWFs hnd hacc hagg
    rw [matchLoop_empty h1 hnone]
    exact ⟨fun i _ => rfl, hacc, by simp, hagg, fun q => rfl⟩
  | case3 remaining opp h1 best rest hex hstop =>
    intro v hWFs hnd hacc hagg
    rw [matchLoop_limit h1 hex hstop]
    exact ⟨fun i _ => rfl, hacc, by simp, hagg, fun q => rfl⟩
  | case4 remaining opp h1 best rest hex hstop r hrem ih =>
    intro v hWFs hnd hacc hagg
    simp only [show r = matchInner taker best.price remaining best.totalVolume best.fifo
      from rfl] at hrem ih
    rw [matchLoop_removed h1 hex hstop hrem]
    dsimp only
    have hperm := extractBest_perm hex
    have hbest : best ∈ opp := hperm.mem_iff.mpr (by simp)
    obtain ⟨hpricesNd, hWF⟩ := hWFs
    have hbwf := hWF best hbest
    have hWFrest : ∀ l ∈ rest, LevelWF Side.buy l :=
      fun l hl => hWF l (hperm.mem_iff.mpr (by simp [hl]))
    have hmapPerm : List.Perm (opp.map (·.price)) (best.price :: rest.map (·.price)) := by
      simpa using hperm.map (·.price)
    have hpricesNd2 := hmapPerm.nodup_iff.mp hpricesNd
    have hpnotin : best.price ∉ rest.map (·.price) := (List.nodup_cons.mp hpricesNd2).1
    have hRestNd : (rest.map (·.price)).Nodup := (List.nodup_cons.mp hpricesNd2).2
    have hidsPerm : List.Perm (sideIds opp) (levelIds best ++ sideIds rest) := by
      have := sideIds_perm hperm
      rwa [sideIds_cons] at this
    have hndBR := hidsPerm.nodup_iff.mp hnd
    have hndB : (levelIds best).Nodup := hndBR.of_append_left
    have hndR : (sideIds rest).Nodup := hndBR.of_append_right
    have hdisj := List.disjoint_of_nodup_append hndBR
    obtain ⟨w1, w2, -⟩ := matchInner_wf taker Side.buy best.price remaining
      best.totalVolume best.fifo (hbwf.2.2) (hbwf.2.1)
    obtain ⟨-, -, -, i4, -, -, -, -, -, -⟩ :=
      matchInner_facts taker best.price remaining best.totalVolume best.fifo
    have hfifo : (matchInner taker best.price remaining best.totalVolume best.fifo).fifo
        = [] := by
      rcases hrem with hv | hf
      · by_contra hne
        have : 0 < fifoSum (matchInner taker best.price remaining best.totalVolume
            best.fifo).fifo := fifoSum_pos (fun o ho => (w1 o ho).1) hne
        omega
      · exact hf
    have hrumv : (matchInner taker best.price remaining best.totalVolume
        best.fifo).removed = levelIds best := by
      have h := i4
      rw [hfifo] at h
      simpa [levelIds] using h
    have haggB : alGet v.bids best.price = fifoSum best.fifo := by
      rw [hagg best.price, sideAgg_perm hperm, sideAgg_cons, if_pos rfl,
        sideAgg_not_mem hpnotin, add_zero]
    obtain ⟨m1, m2, m3, m4, m5⟩ := matchInner_sim_buy taker best.price remaining
      best.totalVolume best.fifo v (hbwf.2.2) hndB
      (fun o ho => hacc best hbest o ho) haggB
    rw [applyEvents_append]
    have hacc2 : ∀ l ∈ rest, ∀ o ∈ l.fifo,
        osGet (applyEvents v (matchInner taker best.price remaining best.totalVolume
          best.fifo).events).orders o.id = some (restSnap o) := by
      intro l hl o ho
      have hoid : o.id ∈ sideIds rest := mem_sideIds hl ho
      have hnotb : o.id ∉ levelIds best := fun hc => hdisj hc hoid
      rw [m1 o.id hnotb]
      exact hacc l (hperm.mem_iff.mpr (by simp [hl])) o ho
    have hagg2 : ∀ q, alGet (applyEvents v (matchInner taker best.price remaining
        best.totalVolume best.fifo).events).bids q = sideAgg rest q := by
      intro q
      rw [m4 q]
      by_cases hq : q = best.price
      · subst hq
        rw [if_pos rfl, hfifo, fifoSum_nil, sideAgg_not_mem hpnotin]
      · rw [if_neg hq, hagg q, sideAgg_perm hperm, sideAgg_cons,
          if_neg (fun hc => hq hc.symm), zero_add]
    obtain ⟨j1, j2, j3, j4, j5⟩ := ih _ ⟨hRestNd, hWFrest⟩ hndR hacc2 hagg2
    refine ⟨?_, ?_, ?_, ?_, ?_⟩
    · intro i hi
      have hi1 : i ∉ levelIds best :=
        fun hc => hi (hidsPerm.mem_iff.mpr (List.mem_append.mpr (Or.inl hc)))
      have hi2 : i ∉ sideIds rest :=
        fun hc => hi (hidsPerm.mem_iff.mpr (List.mem_append.mpr (Or.inr hc)))
      rw [j1 i hi2, m1 i hi1]
    · exact j2
    · intro i hi
      rcases List.mem_append.mp hi with hi | hi
      · have hib : i ∈ levelIds best := by rw [← hrumv]; exact hi
        have hi2 : i ∉ sideIds rest := fun hc => hdisj hib hc
        rw [j1 i hi2]
        exact m3 i hi
      · exact j3 i hi
    · exact j4
    · intro q
      rw [j5 q, m5 q]
  | case5 remaining opp h1 best rest hex hstop r hkept =>
    intro v hWFs hnd hacc hagg
    simp only [show r = matchInner taker best.price remaining best.totalVolume best.fifo
      from rfl] at hkept
    rw [matchLoop_kept h1 hex hstop hkept]
    dsimp only
    have hperm := extractBest_perm hex
    have hbest : best ∈ opp := hperm.mem_iff.mpr (by simp)
    obtain ⟨hpricesNd, hWF⟩ := hWFs
    have hbwf := hWF best hbest
    have hmapPerm : List.Perm (opp.map (·.price)) (best.price :: rest.map (·.price)) := by
      simpa using hperm.map (·.price)
    have hpricesNd2 := hmapPerm.nodup_iff.mp hpricesNd
    have hpnotin : best.price ∉ rest.map (·.price) := (List.nodup_cons.mp hpricesNd2).1
    have hidsPerm : List.Perm (sideIds opp) (levelIds best ++ sideIds rest) := by
      have := sideIds_perm hperm
      rwa [sideIds_cons] at this
    have hndBR := hidsPerm.nodup_iff.mp hnd
    have hndB : (levelIds best).Nodup := hndBR.of_append_left
    have hdisj := List.disjoint_of_nodup_append hndBR
    have haggB : alGet v.bids best.price = fifoSum best.fifo := by
      rw [hagg best.price, sideAgg_perm hperm, sideAgg_cons, if_pos rfl,
        sideAgg_not_mem hpnotin, add_zero]
    obtain ⟨m1, m2, m3, m4, m5⟩ := matchInner_sim_buy taker best.price remaining
      best.totalVolume best.fifo v (hbwf.2.2) hndB
      (fun o ho => hacc best hbest o ho) haggB
    refine ⟨?_, ?_, ?_, ?_, ?_⟩
    · intro i hi
      have hi1 : i ∉ levelIds best :=
        fun hc => hi (hidsPerm.mem_iff.mpr (List.mem_append.mpr (Or.inl hc)))
      exact m1 i hi1
    · intro l hl o ho
      rcases List.mem_append.mp hl with hl | hl
      · have hoid : o.id ∈ sideIds rest := mem_sideIds hl ho
        have hnotb : o.id ∉ levelIds best := fun hc => hdisj hc hoid
        rw [m1 o.id hnotb]
        exact hacc l (hperm.mem_iff.mpr (by simp [hl])) o ho
      · simp at hl
        subst hl
        exact m2 o ho
    · exact m3
    · intro q
      rw [m4 q, sideAgg_append, sideAgg_cons, sideAgg_nil]
      dsimp only
      by_cases hq : q = best.price
      · subst hq
        rw [if_pos rfl, if_pos rfl, sideAgg_not_mem hpnotin]
        omega
      · rw [if_neg hq, if_neg (fun hc => hq hc.symm), hagg q, sideAgg_perm hperm,
          sideAgg_cons, if_neg (fun hc => hq hc.symm)]
        omega
    · exact m5


/-! ## Remaining bricks for the refinement proof -/

theorem addToLevels_fifo_mem (p : Int) (n : RestingOrder) :
    ∀ (ls : List Level) (l : Level) (o2 : RestingOrder),
      l ∈ addToLevels p n ls → o2 ∈ l.fifo →
      o2 = n ∨ ∃ l0 ∈ ls, o2 ∈ l0.fifo := by
  intro ls
  induction ls with
  | nil =>
    intro l o2 hl ho
    simp only [addToLevels, List.mem_singleton] at hl
    subst hl
    simp only [List.mem_singleton] at ho
    exact Or.inl ho
  | cons l0 ls ih =>
    intro l o2 hl ho
    simp only [addToLevels] at hl
    by_cases hp : l0.price = p
    · rw [if_pos hp] at hl
      rcases List.mem_cons.mp hl with rfl | hl
      · rcases List.mem_append.mp ho with ho | ho
        · exact Or.inr ⟨l0, by simp, ho⟩
        · simp only [List.mem_singleton] at ho
          exact Or.inl ho
      · exact Or.inr ⟨l, by simp [hl], ho⟩
    · rw [if_neg hp] at hl
      rcases List.mem_cons.mp hl with rfl | hl
      · exact Or.inr ⟨l, by simp, ho⟩
      · rcases ih l o2 hl ho with h | ⟨l1, h1, h2⟩
        · exact Or.inl h
        · exact Or.inr ⟨l1, by simp [h1], h2⟩

theorem cancelLevels_fifo_mem (i sz : Int) :
    ∀ (ls : List Level) (l : Level) (o2 : RestingOrder),
      l ∈ cancelLevels i sz ls → o2 ∈ l.fifo →
      ∃ l0 ∈ ls, o2 ∈ l0.fifo := by
  intro ls
  induction ls with
  | nil =>
    intro l o2 hl ho
    simp [cancelLevels] at hl
  | cons l0 ls ih =>
    intro l o2 hl ho
    simp only [cancelLevels] at hl
    by_cases hin : l0.fifo.any (fun o => o.id = i)
    · rw [if_pos hin] at hl
      split at hl
      · exact ⟨l, by simp [hl], ho⟩
      · rcases List.mem_cons.mp hl with rfl | hl
        · exact ⟨l0, by simp, List.mem_of_mem_filter ho⟩
        · exact ⟨l, by simp [hl], ho⟩
    · rw [if_neg hin] at hl
      rcases List.mem_cons.mp hl with rfl | hl
      · exact ⟨l, by simp, ho⟩
      · obtain ⟨l1, h1, h2⟩ := ih l o2 hl ho
        exact ⟨l1, by simp [h1], h2⟩

theorem tapeAppend_getLast (cap : Nat) (tp : List TradeEvent) (t : TradeEvent) :
    (tapeAppend cap tp t).getLast? = some t := by
  unfold tapeAppend
  split
  · rw [List.getLast?_concat]
  · rw [List.getLast?_concat]

theorem apply_tape (v : BookView) (e : Event) :
    (v.apply e).tape
      = match e with
        | .trade t => tapeAppend v.tapeCap v.tape t
        | _ => v.tape := by
  cases e with
  | trade t => rfl
  | rested r =>
    cases h : r.side <;> simp [BookView.apply, h]
  | reduced r =>
    cases hg : osGet v.orders r.orderID with
    | none => simp [BookView.apply, hg]
    | some st => cases h : st.side <;> simp [BookView.apply, hg, h]
  | removed r =>
    cases hg : osGet v.orders r.orderID with
    | none => simp [BookView.apply, hg]
    | some st => cases h : st.side <;> simp [BookView.apply, hg, h]

theorem tradesOf_nil : tradesOf [] = [] := rfl

theorem tradesOf_trade_cons (t : TradeEvent) (evs : List Event) :
    tradesOf (.trade t :: evs) = t :: tradesOf evs := rfl

theorem applyEvents_tape_getLast (evs : List Event) :
    ∀ (v : BookView),
      (applyEvents v evs).tape.getLast?
        = if tradesOf evs = [] then v.tape.getLast? else (tradesOf evs).getLast? := by
  induction evs with
  | nil =>
    intro v
    rw [applyEvents_nil, if_pos tradesOf_nil]
  | cons e evs ih =>
    intro v
    rw [applyEvents_cons, ih (v.apply e)]
    cases e with
    | trade t =>
      rw [tradesOf_trade_cons]
      by_cases h : tradesOf evs = []
      · rw [if_pos h, if_neg (by simp), h]
        rw [show (v.apply (.trade t)).tape = tapeAppend v.tapeCap v.tape t from rfl,
          tapeAppend_getLast]
        simp
      · rw [if_neg h, if_neg (by simp)]
        rw [show t :: tradesOf evs = [t] ++ tradesOf evs from rfl,
          List.getLast?_append_of_ne_nil _ h]
    | rested r =>
      rw [show tradesOf (.rested r :: evs) = tradesOf evs from rfl,
        apply_tape v (.rested r)]
    | reduced r =>
      rw [show tradesOf (.reduced r :: evs) = tradesOf evs from rfl,
        apply_tape v (.reduced r)]
    | removed r =>
      rw [show tradesOf (.removed r :: evs) = tradesOf evs from rfl,
        apply_tape v (.removed r)]

theorem corresponds_empty (cap : Int) :
    Corresponds CoreState.empty (BookView.new cap) := by
  refine ⟨?_, ?_, ?_, ?_⟩
  · intro l hl
    simp [CoreState.empty] at hl
  · intro i _
    rfl
  · intro p
    simp [BookView.new, CoreState.empty, alGet_nil, sideAgg_nil]
  · intro p
    simp [BookView.new, CoreState.empty, alGet_nil, sideAgg_nil]


/-- Resting the remainder: the `Rested` event applied to a
corresponding view tracks `orderBook.addResting`. -/
theorem addResting_sim (st1 : CoreState) (w : BookView) (o : Order)
    (hC : Corresponds st1 w) (hfresh : o.id ∉ allIds st1) :
    Corresponds (st1.addResting o)
      (w.apply (.rested ⟨o.id, o.userID, o.side, o.price, o.size, o.time⟩)) := by
  obtain ⟨c1, c2, c3, c4⟩ := hC
  by_cases hside : o.side = Side.buy
  · obtain ⟨r1, r2, r3, -⟩ := apply_rested_buy w
      ⟨o.id, o.userID, o.side, o.price, o.size, o.time⟩ hside
    dsimp only at r1 r2 r3
    have hadd : st1.addResting o
        = { st1 with
            bids := (addToLevels o.price
              ⟨o.id, o.userID, o.side, o.price, o.size, o.time⟩ st1.bids),
            orders := st1.orders ++ [o.id] } := by
      simp [CoreState.addResting, hside]
    rw [hadd]
    have hidsp := addToLevels_ids_perm o.price
      ⟨o.id, o.userID, o.side, o.price, o.size, o.time⟩ st1.bids
    refine ⟨?_, ?_, ?_, ?_⟩
    · intro l hl o2 ho2
      rw [r1, osGet_osSet]
      rcases List.mem_append.mp hl with hl | hl
      · rcases addToLevels_fifo_mem o.price _ st1.bids l o2 hl ho2 with rfl | ⟨l0, h0, h2⟩
        · rw [if_pos rfl]
          simp [restSnap]
        · have hold : o2.id ∈ allIds st1 := List.mem_append.mpr
            (Or.inl (mem_sideIds h0 h2))
          rw [if_neg (fun (hc : o2.id = o.id) => hfresh (hc ▸ hold))]
          exact c1 l0 (List.mem_append.mpr (Or.inl h0)) o2 h2
      · have hold : o2.id ∈ allIds st1 := List.mem_append.mpr
          (Or.inr (mem_sideIds hl ho2))
        rw [if_neg (fun (hc : o2.id = o.id) => hfresh (hc ▸ hold))]
        exact c1 l (List.mem_append.mpr (Or.inr hl)) o2 ho2
    · intro i hi
      rw [r1, osGet_osSet]
      simp only [allIds] at hi
      have hi1 : i ∉ sideIds (addToLevels o.price
          ⟨o.id, o.userID, o.side, o.price, o.size, o.time⟩ st1.bids) :=
        fun hc => hi (List.mem_append.mpr (Or.inl hc))
      have hi2 : i ∉ sideIds st1.asks := fun hc => hi (List.mem_append.mpr (Or.inr hc))
      have hio : ¬ i = o.id := by
        intro hc
        exact hi1 (hidsp.mem_iff.mpr (List.mem_append.mpr (Or.inr (by simp [hc]))))
      have hib : i ∉ sideIds st1.bids := by
        intro hc
        exact hi1 (hidsp.mem_iff.mpr (List.mem_append.mpr (Or.inl hc)))
      rw [if_neg hio]
      exact c2 i (fun hc => (List.mem_append.mp hc).elim hib hi2)
    · intro q
      rw [r2, alGet_alSet, addToLevels_agg]
      by_cases hq : q = o.price
      · rw [if_pos hq, if_pos hq, c3, hq]
      · rw [if_neg hq, if_neg hq, c3]
        omega
    · intro q
      rw [r3]
      exact c4 q
  · have hside2 : o.side = Side.sell := by
      cases h2 : o.side
      · exact absurd h2 hside
      · rfl
    obtain ⟨r1, r2, r3, -⟩ := apply_rested_sell w
      ⟨o.id, o.userID, o.side, o.price, o.size, o.time⟩ hside2
    dsimp only at r1 r2 r3
    have hadd : st1.addResting o
        = { st1 with
            asks := (addToLevels o.price
              ⟨o.id, o.userID, o.side, o.price, o.size, o.time⟩ st1.asks),
            orders := st1.orders ++ [o.id] } := by
      simp [CoreState.addResting, hside2]
    rw [hadd]
    have hidsp := addToLevels_ids_perm o.price
      ⟨o.id, o.userID, o.side, o.price, o.size, o.time⟩ st1.asks
    refine ⟨?_, ?_, ?_, ?_⟩
    · intro l hl o2 ho2
      rw [r1, osGet_osSet]
      rcases List.mem_append.mp hl with hl | hl
      · have hold : o2.id ∈ allIds st1 := List.mem_append.mpr
          (Or.inl (mem_sideIds hl ho2))
        rw [if_neg (fun (hc : o2.id = o.id) => hfresh (hc ▸ hold))]
        exact c1 l (List.mem_append.mpr (Or.inl hl)) o2 ho2
      · rcases addToLevels_fifo_mem o.price _ st1.asks l o2 hl ho2 with rfl | ⟨l0, h0, h2⟩
        · rw [if_pos rfl]
          simp [restSnap]
        · have hold : o2.id ∈ allIds st1 := List.mem_append.mpr
            (Or.inr (mem_sideIds h0 h2))
          rw [if_neg (fun (hc : o2.id = o.id) => hfresh (hc ▸ hold))]
          exact c1 l0 (List.mem_append.mpr (Or.inr h0)) o2 h2
    · intro i hi
      rw [r1, osGet_osSet]
      simp only [allIds] at hi
      have hi1 : i ∉ sideIds (addToLevels o.price
          ⟨o.id, o.userID, o.side, o.price, o.size, o.time⟩ st1.asks) :=
        fun hc => hi (List.mem_append.mpr (Or.inr hc))
      have hi2 : i ∉ sideIds st1.bids := fun hc => hi (List.mem_append.mpr (Or.inl hc))
      have hio : ¬ i = o.id := by
        intro hc
        exact hi1 (hidsp.mem_iff.mpr (List.mem_append.mpr (Or.inr (by simp [hc]))))
      have hia : i ∉ sideIds st1.asks := by
        intro hc
        exact hi1 (hidsp.mem_iff.mpr (List.mem_append.mpr (Or.inl hc)))
      rw [if_neg hio]
      exact c2 i (fun hc => (List.mem_append.mp hc).elim hi2 hia)
    · intro q
      rw [r3]
      exact c3 q
    · intro q
      rw [r2, alGet_alSet, addToLevels_agg]
      by_cases hq : q = o.price
      · rw [if_pos hq, if_pos hq, c4, hq]
      · rw [if_neg hq, if_neg hq, c4]
        omega


/-- Corresponding views track the post-match core state (before any
resting), taker side buy. -/
theorem matchState_sim_buy {st : CoreState} {o : Order} {v : BookView}
    (hasks : SideWF Side.sell st.asks)
    (hnd : (allIds st).Nodup)
    (hC : Corresponds st v) (lp : Option Int) (rem : Int) :
    Corresponds
      ⟨st.bids, (matchLoop o lp false rem st.asks).levels,
        st.orders.filter (fun i => ¬ i ∈ (matchLoop o lp false rem st.asks).removed)⟩
      (applyEvents v (matchLoop o lp false rem st.asks).events) := by
  obtain ⟨c1, c2, c3, c4⟩ := hC
  have hndasks : (sideIds st.asks).Nodup := hnd.of_append_right
  have hndbids : (sideIds st.bids).Nodup := hnd.of_append_left
  have hdisj := List.disjoint_of_nodup_append hnd
  obtain ⟨m1, m2, m3, m4, m5⟩ := matchLoop_sim_asks o lp rem st.asks v
    hasks hndasks (fun l hl o2 ho2 => c1 l (List.mem_append.mpr (Or.inr hl)) o2 ho2) c4
  obtain ⟨-, lw2, -, -⟩ := matchLoop_wf o lp false rem st.asks hasks.2
  refine ⟨?_, ?_, ?_, ?_⟩
  · intro l hl o2 ho2
    rcases List.mem_append.mp hl with hl | hl
    · have hid : o2.id ∈ sideIds st.bids := mem_sideIds hl ho2
      rw [m1 o2.id (fun hc => hdisj hid hc)]
      exact c1 l (List.mem_append.mpr (Or.inl hl)) o2 ho2
    · exact m2 l hl o2 ho2
  · intro i hi
    simp only [allIds] at hi
    have hi1 : i ∉ sideIds st.bids := fun hc => hi (List.mem_append.mpr (Or.inl hc))
    have hi2 : i ∉ sideIds (matchLoop o lp false rem st.asks).levels :=
      fun hc => hi (List.mem_append.mpr (Or.inr hc))
    by_cases hia : i ∈ sideIds st.asks
    · rcases List.mem_append.mp (lw2.mem_iff.mp hia) with hr | hr
      · exact m3 i hr
      · exact absurd hr hi2
    · rw [m1 i hia]
      exact c2 i (fun hc => (List.mem_append.mp hc).elim hi1 hia)
  · intro q
    rw [m5 q]
    exact c3 q
  · intro q
    exact m4 q

/-- Corresponding views track the post-match core state (before any
resting), taker side sell. -/
theorem matchState_sim_sell {st : CoreState} {o : Order} {v : BookView}
    (hbids : SideWF Side.buy st.bids)
    (hnd : (allIds st).Nodup)
    (hC : Corresponds st v) (lp : Option Int) (rem : Int) :
    Corresponds
      ⟨(matchLoop o lp true rem st.bids).levels, st.asks,
        st.orders.filter (fun i => ¬ i ∈ (matchLoop o lp true rem st.bids).removed)⟩
      (applyEvents v (matchLoop o lp true rem st.bids).events) := by
  obtain ⟨c1, c2, c3, c4⟩ := hC
  have hndasks : (sideIds st.asks).Nodup := hnd.of_append_right
  have hndbids : (sideIds st.bids).Nodup := hnd.of_append_left
  have hdisj := List.disjoint_of_nodup_append hnd
  obtain ⟨m1, m2, m3, m4, m5⟩ := matchLoop_sim_bids o lp rem st.bids v
    hbids hndbids (fun l hl o2 ho2 => c1 l (List.mem_append.mpr (Or.inl hl)) o2 ho2) c3
  obtain ⟨-, lw2, -, -⟩ := matchLoop_wf o lp true rem st.bids hbids.2
  refine ⟨?_, ?_, ?_, ?_⟩
  · intro l hl o2 ho2
    rcases List.mem_append.mp hl with hl | hl
    · exact m2 l hl o2 ho2
    · have hid : o2.id ∈ sideIds st.asks := mem_sideIds hl ho2
      rw [m1 o2.id (fun hc => hdisj hc hid)]
      exact c1 l (List.mem_append.mpr (Or.inr hl)) o2 ho2
  · intro i hi
    simp only [allIds] at hi
    have hi1 : i ∉ sideIds (matchLoop o lp true rem st.bids).levels :=
      fun hc => hi (List.mem_append.mpr (Or.inl hc))
    have hi2 : i ∉ sideIds st.asks := fun hc => hi (List.mem_append.mpr (Or.inr hc))
    by_cases hib : i ∈ sideIds st.bids
    · rcases List.mem_append.mp (lw2.mem_iff.mp hib) with hr | hr
      · exact m3 i hr
      · exact absurd hr hi1
    · rw [m1 i hib]
      exact c2 i (fun hc => (List.mem_append.mp hc).elim hib hi2)
  · intro q
    exact m4 q
  · intro q
    rw [m5 q]
    exact c4 q

/-- An accepted limit submit keeps the view corresponding: applying
its event list to a view matching the pre-state yields a view matching
the post-state. -/
theorem submitLimit_sim {st : CoreState} {o : Order} {rep : SubmitReport}
    {evs : List Event} {st' : CoreState} {v : BookView}
    (hInv : BookInvariants st) (hC : Corresponds st v)
    (h : Core.submitLimit st o = .ok (rep, evs, st')) :
    Corresponds st' (applyEvents v evs) := by
  obtain ⟨hbids, hasks, hnd, hord, hcross⟩ := hInv
  obtain ⟨hv, hdup, h3, h4, h5, h6, h7, h8⟩ := submitLimit_parts h
  have hoid : o.id ∉ allIds st := fun hc => hdup ((hord o.id).mpr hc)
  by_cases hside : o.side = Side.buy
  · rw [coreMatch_buy hside] at h7 h8
    dsimp only at h7 h8
    have hC1 := matchState_sim_buy (o := o) hasks hnd hC (some o.price) o.size
    obtain ⟨-, lw2, -, -⟩ := matchLoop_wf o (some o.price) false o.size st.asks hasks.2
    rw [h7, h8, applyEvents_append]
    by_cases hpos : 0 < (matchLoop o (some o.price) false o.size st.asks).remaining
    · rw [if_pos hpos, if_pos hpos]
      have hfresh : o.id ∉ allIds
          ⟨st.bids, (matchLoop o (some o.price) false o.size st.asks).levels,
            st.orders.filter (fun i => ¬ i ∈
              (matchLoop o (some o.price) false o.size st.asks).removed)⟩ := by
        intro hc
        rcases List.mem_append.mp hc with hc | hc
        · exact hoid (List.mem_append.mpr (Or.inl hc))
        · exact hoid (List.mem_append.mpr
            (Or.inr (lw2.mem_iff.mpr (List.mem_append.mpr (Or.inr hc)))))
      exact addResting_sim _ _
        { o with size := (matchLoop o (some o.price) false o.size st.asks).remaining }
        hC1 hfresh
    · rw [if_neg hpos, if_neg hpos, applyEvents_nil]
      exact hC1
  · have hside2 : o.side = Side.sell := by
      cases h2 : o.side
      · exact absurd h2 hside
      · rfl
    rw [coreMatch_sell hside2] at h7 h8
    dsimp only at h7 h8
    have hC1 := matchState_sim_sell (o := o) hbids hnd hC (some o.price) o.size
    obtain ⟨-, lw2, -, -⟩ := matchLoop_wf o (some o.price) true o.size st.bids hbids.2
    rw [h7, h8, applyEvents_append]
    by_cases hpos : 0 < (matchLoop o (some o.price) true o.size st.bids).remaining
    · rw [if_pos hpos, if_pos hpos]
      have hfresh : o.id ∉ allIds
          ⟨(matchLoop o (some o.price) true o.size st.bids).levels, st.asks,
            st.orders.filter (fun i => ¬ i ∈
              (matchLoop o (some o.price) true o.size st.bids).removed)⟩ := by
        intro hc
        rcases List.mem_append.mp hc with hc | hc
        · exact hoid (List.mem_append.mpr
            (Or.inl (lw2.mem_iff.mpr (List.mem_append.mpr (Or.inr hc)))))
        · exact hoid (List.mem_append.mpr (Or.inr hc))
      exact addResting_sim _ _
        { o with size := (matchLoop o (some o.price) true o.size st.bids).remaining }
        hC1 hfresh
    · rw [if_neg hpos, if_neg hpos, applyEvents_nil]
      exact hC1

/-- An accepted market submit keeps the view corresponding. -/
theorem submitMarket_sim {st : CoreState} {o : Order} {rep : SubmitReport}
    {evs : List Event} {st' : CoreState} {v : BookView}
    (hInv : BookInvariants st) (hC : Corresponds st v)
    (h : Core.submitMarket st o = .ok (rep, evs, st')) :
    Corresponds st' (applyEvents v evs) := by
  obtain ⟨hbids, hasks, hnd, hord, hcross⟩ := hInv
  obtain ⟨hv, hdup, h3, h4, h5, h6, h7, h8⟩ := submitMarket_parts h
  by_cases hside : o.side = Side.buy
  · rw [coreMatch_buy hside] at h7 h8
    dsimp only at h7 h8
    rw [h7, h8]
    exact matchState_sim_buy (o := o) hasks hnd hC none o.size
  · have hside2 : o.side = Side.sell := by
      cases h2 : o.side
      · exact absurd h2 hside
      · rfl
    rw [coreMatch_sell hside2] at h7 h8
    dsimp only at h7 h8
    rw [h7, h8]
    exact matchState_sim_sell (o := o) hbids hnd hC none o.size


/-- An accepted cancel keeps the view corresponding. -/
theorem cancel_sim {st : CoreState} {i now : Int} {rep : CancelReport}
    {evs : List Event} {st' : CoreState} {v : BookView}
    (hInv : BookInvariants st) (hC : Corresponds st v)
    (h : Core.cancel st i now = .ok (rep, evs, st')) :
    Corresponds st' (applyEvents v evs) := by
  obtain ⟨hbids, hasks, hnodup, hord, hcross⟩ := hInv
  obtain ⟨c1, c2, c3, c4⟩ := hC
  by_cases hv : i = 0 ∨ now ≤ 0
  · simp [Core.cancel, hv] at h
  by_cases hmem : i ∈ st.orders
  swap
  · simp [Core.cancel, hv, hmem] at h
  cases hf : findResting st i with
  | none => simp [Core.cancel, hv, hmem, hf] at h
  | some n =>
    simp only [Core.cancel, hf] at h
    rw [if_neg hv, if_neg (by simpa using hmem)] at h
    obtain ⟨hnid, L, hL, hnL⟩ := findResting_some hf
    have hndbids : (sideIds st.bids).Nodup := hnodup.of_append_left
    have hndasks : (sideIds st.asks).Nodup := hnodup.of_append_right
    have hdisj := List.disjoint_of_nodup_append hnodup
    have hget : osGet v.orders n.id = some (restSnap n) :=
      c1 L hL n hnL
    cases hns : n.side with
    | buy =>
      have hfound : ∃ L ∈ st.bids, n ∈ L.fifo := by
        rcases List.mem_append.mp hL with hL | hL
        · exact ⟨L, hL, hnL⟩
        · exact absurd ((hasks.2 L hL).2.2 n hnL).2.2 (by rw [hns]; intro hc; cases hc)
      rw [hns] at h
      simp only [Except.ok.injEq, Prod.mk.injEq] at h
      obtain ⟨-, hevs, hst⟩ := h
      obtain ⟨d1, d2, d3, d4, d5, d6⟩ := cancelLevels_found hbids.2 hndbids hfound
      have hnin : n.id ∈ sideIds st.bids := by
        obtain ⟨L0, hL0, hnL0⟩ := hfound
        exact mem_sideIds hL0 hnL0
      have hnidNotSurv : n.id ∉ sideIds (cancelLevels n.id n.size st.bids) := by
        have hnd2 := d2.nodup_iff.mp hndbids
        exact (List.nodup_cons.mp hnd2).1
      obtain ⟨r1, r2, r3, -⟩ := apply_removed_buy v
        ⟨n.id, RemoveReason.canceled, n.size, n.price, Side.buy, n.userID, now⟩
        (restSnap n) hget hns
      simp only [restSnap] at r1 r2 r3
      rw [← hevs, ← hst, ← hnid]
      rw [show applyEvents v [Event.removed ⟨n.id, RemoveReason.canceled, n.size,
        n.price, Side.buy, n.userID, now⟩]
        = v.apply (.removed ⟨n.id, RemoveReason.canceled, n.size, n.price, Side.buy,
          n.userID, now⟩) from rfl]
      have hsurv0 : 0 ≤ sideAgg (cancelLevels n.id n.size st.bids) n.price :=
        sideAgg_nonneg d1 n.price
      refine ⟨?_, ?_, ?_, ?_⟩
      · intro l hl o2 ho2
        rw [r1, osGet_osErase]
        rcases List.mem_append.mp hl with hl | hl
        · obtain ⟨l0, h0, h2⟩ := cancelLevels_fifo_mem n.id n.size st.bids l o2 hl ho2
          have ho2id : o2.id ∈ sideIds (cancelLevels n.id n.size st.bids) :=
            mem_sideIds hl ho2
          rw [if_neg (fun (hc : o2.id = n.id) => hnidNotSurv (hc ▸ ho2id))]
          exact c1 l0 (List.mem_append.mpr (Or.inl h0)) o2 h2
        · have ho2id : o2.id ∈ sideIds st.asks := mem_sideIds hl ho2
          rw [if_neg (fun (hc : o2.id = n.id) => hdisj (hc ▸ hnin) ho2id)]
          exact c1 l (List.mem_append.mpr (Or.inr hl)) o2 ho2
      · intro j hj
        rw [r1, osGet_osErase]
        simp only [allIds] at hj
        have hj1 : j ∉ sideIds (cancelLevels n.id n.size st.bids) :=
          fun hc => hj (List.mem_append.mpr (Or.inl hc))
        have hj2 : j ∉ sideIds st.asks := fun hc => hj (List.mem_append.mpr (Or.inr hc))
        by_cases hjn : j = n.id
        · rw [if_pos hjn]
        · rw [if_neg hjn]
          refine c2 j ?_
          intro hc
          rcases List.mem_append.mp hc with hc | hc
          · rcases List.mem_cons.mp (d2.mem_iff.mp hc) with hc2 | hc2
            · exact hjn hc2
            · exact hj1 hc2
          · exact hj2 hc
      · intro q
        rw [r2, alGet_setOrErase, d3 q, c3 n.price, c3 q]
        have hd := d3 n.price
        rw [if_pos rfl] at hd
        by_cases hq : q = n.price
        · subst hq
          rw [if_pos rfl, if_pos rfl]
          split_ifs with h0
          · omega
          · rfl
        · rw [if_neg hq, if_neg hq]
          omega
      · intro q
        rw [r3]
        exact c4 q
    | sell =>
      have hfound : ∃ L ∈ st.asks, n ∈ L.fifo := by
        rcases List.mem_append.mp hL with hL | hL
        · exact absurd ((hbids.2 L hL).2.2 n hnL).2.2 (by rw [hns]; intro hc; cases hc)
        · exact ⟨L, hL, hnL⟩
      rw [hns] at h
      simp only [Except.ok.injEq, Prod.mk.injEq] at h
      obtain ⟨-, hevs, hst⟩ := h
      obtain ⟨d1, d2, d3, d4, d5, d6⟩ := cancelLevels_found hasks.2 hndasks hfound
      have hnin : n.id ∈ sideIds st.asks := by
        obtain ⟨L0, hL0, hnL0⟩ := hfound
        exact mem_sideIds hL0 hnL0
      have hnidNotSurv : n.id ∉ sideIds (cancelLevels n.id n.size st.asks) := by
        have hnd2 := d2.nodup_iff.mp hndasks
        exact (List.nodup_cons.mp hnd2).1
      obtain ⟨r1, r2, r3, -⟩ := apply_removed_sell v
        ⟨n.id, RemoveReason.canceled, n.size, n.price, Side.sell, n.userID, now⟩
        (restSnap n) hget hns
      simp only [restSnap] at r1 r2 r3
      rw [← hevs, ← hst, ← hnid]
      rw [show applyEvents v [Event.removed ⟨n.id, RemoveReason.canceled, n.size,
        n.price, Side.sell, n.userID, now⟩]
        = v.apply (.removed ⟨n.id, RemoveReason.canceled, n.size, n.price, Side.sell,
          n.userID, now⟩) from rfl]
      have hsurv0 : 0 ≤ sideAgg (cancelLevels n.id n.size st.asks) n.price :=
        sideAgg_nonneg d1 n.price
      refine ⟨?_, ?_, ?_, ?_⟩
      · intro l hl o2 ho2
        rw [r1, osGet_osErase]
        rcases List.mem_append.mp hl with hl | hl
        · have ho2id : o2.id ∈ sideIds st.bids := mem_sideIds hl ho2
          rw [if_neg (fun (hc : o2.id = n.id) => hdisj ho2id (hc ▸ hnin))]
          exact c1 l (List.mem_append.mpr (Or.inl hl)) o2 ho2
        · obtain ⟨l0, h0, h2⟩ := cancelLevels_fifo_mem n.id n.size st.asks l o2 hl ho2
          have ho2id : o2.id ∈ sideIds (cancelLevels n.id n.size st.asks) :=
            mem_sideIds hl ho2
          rw [if_neg (fun (hc : o2.id = n.id) => hnidNotSurv (hc ▸ ho2id))]
          exact c1 l0 (List.mem_append.mpr (Or.inr h0)) o2 h2
      · intro j hj
        rw [r1, osGet_osErase]
        simp only [allIds] at hj
        have hj1 : j ∉ sideIds st.bids := fun hc => hj (List.mem_append.mpr (Or.inl hc))
        have hj2 : j ∉ sideIds (cancelLevels n.id n.size st.asks) :=
          fun hc => hj (List.mem_append.mpr (Or.inr hc))
        by_cases hjn : j = n.id
        · rw [if_pos hjn]
        · rw [if_neg hjn]
          refine c2 j ?_
          intro hc
          rcases List.mem_append.mp hc with hc | hc
          · exact hj1 hc
          · rcases List.mem_cons.mp (d2.mem_iff.mp hc) with hc2 | hc2
            · exact hjn hc2
            · exact hj2 hc2
      · intro q
        rw [r3]
        exact c3 q
      · intro q
        rw [r2, alGet_setOrErase, d3 q, c4 n.price, c4 q]
        have hd := d3 n.price
        rw [if_pos rfl] at hd
        by_cases hq : q = n.price
        · subst hq
          rw [if_pos rfl, if_pos rfl]
          split_ifs with h0
          · omega
          · rfl
        · rw [if_neg hq, if_neg hq]
          omega


/-- One dispatched command keeps the view corresponding (rejected
commands change neither side). -/
theorem applyCommand_sim (c : Command) {st : CoreState} {v : BookView}
    (hInv : BookInvariants st) (hC : Corresponds st v) :
    Corresponds (applyCommand st c).1 (applyEvents v (applyCommand st c).2) := by
  cases c with
  | limit o =>
    simp only [applyCommand]
    cases h : Core.submitLimit st o with
    | ok r =>
      obtain ⟨rep, r2⟩ := r
      obtain ⟨evs, st2⟩ := r2
      dsimp only
      exact submitLimit_sim hInv hC h
    | error e =>
      dsimp only
      exact hC
  | market o =>
    simp only [applyCommand]
    cases h : Core.submitMarket st o with
    | ok r =>
      obtain ⟨rep, r2⟩ := r
      obtain ⟨evs, st2⟩ := r2
      dsimp only
      exact submitMarket_sim hInv hC h
    | error e =>
      dsimp only
      exact hC
  | cancel j now =>
    simp only [applyCommand]
    cases h : Core.cancel st j now with
    | ok r =>
      obtain ⟨rep, r2⟩ := r
      obtain ⟨evs, st2⟩ := r2
      dsimp only
      exact cancel_sim hInv hC h
    | error e =>
      dsimp only
      exact hC

theorem runCommands_foldl_sim (cmds : List Command) (v0 : BookView) :
    ∀ (acc : CoreState × List Event), BookInvariants acc.1 →
      Corresponds acc.1 (applyEvents v0 acc.2) →
      Corresponds (cmds.foldl (fun acc c =>
          let r := applyCommand acc.1 c
          (r.1, acc.2 ++ r.2)) acc).1
        (applyEvents v0 (cmds.foldl (fun acc c =>
          let r := applyCommand acc.1 c
          (r.1, acc.2 ++ r.2)) acc).2) := by
  induction cmds with
  | nil =>
    intro acc h1 h2
    exact h2
  | cons c cmds ih =>
    intro acc h1 h2
    refine ih _ (applyCommand_inv c h1) ?_
    dsimp only
    rw [applyEvents_append]
    exact applyCommand_sim c h1 h2

/-- Replaying the full event log of a command sequence from a fresh
view reconstructs it: the view corresponds to the final core state. -/
theorem runCommands_sim (cmds : List Command) (cap : Int) :
    Corresponds (runCommands cmds).1
      (applyEvents (BookView.new cap) (runCommands cmds).2) :=
  runCommands_foldl_sim cmds (BookView.new cap) (CoreState.empty, [])
    empty_inv (corresponds_empty cap)


/-- C3: for every command applied to a core state with a corresponding
view, applying the command's event list in order yields a view whose
aggregate levels and resting orders correspond to the post-command
core state, and whose last tape entry is the command's last Trade
event (or the previous last trade when the command traded nothing);
and replaying the full event log of any command sequence from a fresh
view reconstructs the view of the final core state. -/
theorem c3_view_refinement :
    (∀ (st : CoreState) (v : BookView) (c : Command) (st' : CoreState)
        (evs : List Event), BookInvariants st → Corresponds st v →
      applyCommand st c = (st', evs) →
      Corresponds st' (applyEvents v evs)
        ∧ (applyEvents v evs).tape.getLast?
          = (if tradesOf evs = [] then v.tape.getLast?
            else (tradesOf evs).getLast?))
      ∧ ∀ (cmds : List Command) (cap : Int),
          Corresponds (runCommands cmds).1
            (applyEvents (BookView.new cap) (runCommands cmds).2) := by
  constructor
  · intro st v c st' evs hInv hC h
    have hsim := applyCommand_sim c hInv hC
    rw [h] at hsim
    exact ⟨hsim, applyEvents_tape_getLast evs v⟩
  · exact runCommands_sim

/-- C3 witness: a concrete resting limit order replayed into a fresh
view. -/
theorem c3_witness :
    Corresponds
        (⟨[⟨100, [⟨1, 10, Side.buy, 100, 5, 1⟩], 5⟩], [], [1]⟩ : CoreState)
        (applyEvents (BookView.new 5) [Event.rested ⟨1, 10, Side.buy, 100, 5, 1⟩])
      ∧ (applyEvents (BookView.new 5)
            [Event.rested ⟨1, 10, Side.buy, 100, 5, 1⟩]).tape.getLast?
        = (if tradesOf [Event.rested ⟨1, 10, Side.buy, 100, 5, 1⟩] = []
            then (BookView.new 5).tape.getLast?
            else (tradesOf [Event.rested ⟨1, 10, Side.buy, 100, 5, 1⟩]).getLast?) :=
  c3_view_refinement.1 CoreState.empty (BookView.new 5)
    (Command.limit ⟨1, 10, Side.buy, OrderKind.limit, 100, 5, 1⟩)
    ⟨[⟨100, [⟨1, 10, Side.buy, 100, 5, 1⟩], 5⟩], [], [1]⟩
    [Event.rested ⟨1, 10, Side.buy, 100, 5, 1⟩]
    empty_inv (corresponds_empty 5)
    (by simp [applyCommand, Core.submitLimit, validateLimit, coreMatch, matchLoop_nil,
      CoreState.empty, CoreState.addResting, addToLevels])


/-! ## Per-maker decomposition of the match events (for the event
shape claim) -/

theorem pairwise_of_mem_pairs {α : Type} {R : α → α → Prop} :
    ∀ {l : List α}, (∀ a ∈ l, ∀ b ∈ l, R a b) → l.Pairwise R := by
  intro l
  induction l with
  | nil => intro h; exact List.Pairwise.nil
  | cons x l ih =>
    intro h
    refine List.Pairwise.cons (fun b hb => h x (by simp) b (by simp [hb])) (ih ?_)
    intro a ha b hb
    exact h a (by simp [ha]) b (by simp [hb])

theorem betterPrice_flip {b : Bool} {p q : Int} (h : betterPrice b p q = false)
    (hne : ¬ p = q) : betterPrice b q p = true := by
  cases b <;> simp [betterPrice] at h ⊢ <;> omega

/-- The inner maker loop's events come one consumed maker at a time:
a Trade followed by that same maker's Reduced (partial fill, with
delta the negated traded size and a positive remaining) or
Removed(Filled) (full fill, remaining zero); the Trades project
exactly onto the returned fills. -/
theorem matchInner_steps (taker : Order) (p : Int) :
    ∀ (remaining vol : Int) (fifo : List RestingOrder),
      (∀ o ∈ fifo, 0 < o.size) →
      ∃ steps : List (TradeEvent × Event),
        (matchInner taker p remaining vol fifo).events
            = (steps.map (fun s => [Event.trade s.1, s.2])).flatten
          ∧ (∀ s ∈ steps,
              (∃ r, s.2 = Event.reduced r ∧ r.orderID = s.1.makerOrderID
                  ∧ r.delta = -s.1.size ∧ 0 < r.remaining)
                ∨ (∃ r, s.2 = Event.removed r ∧ r.orderID = s.1.makerOrderID
                  ∧ r.reason = RemoveReason.filled ∧ r.remaining = 0))
          ∧ steps.map (fun s => (⟨s.1.makerOrderID, s.1.price, s.1.size⟩ : Fill))
            = (matchInner taker p remaining vol fifo).fills := by
  intro remaining vol fifo
  induction remaining, vol, fifo using matchInner.induct taker p with
  | case1 remaining vol =>
    intro hWF
    exact ⟨[], by simp [matchInner], by simp, by simp [matchInner]⟩
  | case2 remaining vol maker rest h =>
    intro hWF
    exact ⟨[], by simp [matchInner, if_pos h], by simp, by simp [matchInner, if_pos h]⟩
  | case3 remaining vol maker rest h1 h2 ih =>
    intro hWF
    exact absurd (hWF maker (by simp)) (by omega)
  | case4 remaining vol maker rest h1 h2 traded htr ih =>
    intro hWF
    simp only [show traded = min remaining maker.size from rfl] at htr
    have := hWF maker (by simp)
    omega
  | case5 remaining vol maker rest h1 h2 traded htr hfill ih =>
    intro hWF
    simp only [show traded = min remaining maker.size from rfl] at htr hfill ih
    simp only [matchInner, if_neg h1, if_neg h2, if_neg htr, if_pos hfill]
    obtain ⟨stepsR, e1, e2, e3⟩ := ih (fun o ho => hWF o (by simp [ho]))
    refine ⟨(⟨p, min remaining maker.size, taker.side, taker.time, taker.id,
        taker.userID, maker.id, maker.userID⟩,
      Event.removed ⟨maker.id, RemoveReason.filled, 0, maker.price, maker.side,
        maker.userID, taker.time⟩) :: stepsR, ?_, ?_, ?_⟩
    · simp [e1]
    · intro s hs
      rcases List.mem_cons.mp hs with rfl | hs
      · exact Or.inr ⟨_, rfl, rfl, rfl, rfl⟩
      · exact e2 s hs
    · simp [e3]
  | case6 remaining vol maker rest h1 h2 traded htr hfill =>
    intro hWF
    simp only [show traded = min remaining maker.size from rfl] at htr hfill
    simp only [matchInner, if_neg h1, if_neg h2, if_neg htr, if_neg hfill]
    refine ⟨[(⟨p, min remaining maker.size, taker.side, taker.time, taker.id,
        taker.userID, maker.id, maker.userID⟩,
      Event.reduced ⟨maker.id, -(min remaining maker.size),
        maker.size - min remaining maker.size, maker.price, maker.side,
        maker.userID, taker.time⟩)], ?_, ?_, ?_⟩
    · simp
    · intro s hs
      rcases List.mem_cons.mp hs with rfl | hs
      · refine Or.inl ⟨_, rfl, rfl, rfl, ?_⟩
        show (0:Int) < maker.size - min remaining maker.size
        omega
      · exact absurd hs (by simp)
    · simp

/-- The outer loop inherits the per-maker event decomposition. -/
theorem matchLoop_steps (taker : Order) (limitPrice : Option Int) (isBidOpp : Bool)
    {S : Side} :
    ∀ (remaining : Int) (opp : List Level),
      (∀ l ∈ opp, LevelWF S l) →
      ∃ steps : List (TradeEvent × Event),
        (matchLoop taker limitPrice isBidOpp remaining opp).events
            = (steps.map (fun s => [Event.trade s.1, s.2])).flatten
          ∧ (∀ s ∈ steps,
              (∃ r, s.2 = Event.reduced r ∧ r.orderID = s.1.makerOrderID
                  ∧ r.delta = -s.1.size ∧ 0 < r.remaining)
                ∨ (∃ r, s.2 = Event.removed r ∧ r.orderID = s.1.makerOrderID
                  ∧ r.reason = RemoveReason.filled ∧ r.remaining = 0))
          ∧ steps.map (fun s => (⟨s.1.makerOrderID, s.1.price, s.1.size⟩ : Fill))
            = (matchLoop taker limitPrice isBidOpp remaining opp).fills := by
  intro remaining opp
  induction remaining, opp using matchLoop.induct taker limitPrice isBidOpp with
  | case1 remaining opp h =>
    intro hWF
    rw [matchLoop_exhausted h]
    exact ⟨[], by simp, by simp, by simp⟩
  | case2 remaining opp h1 hnone =>
    intro hWF
    rw [matchLoop_empty h1 hnone]
    exact ⟨[], by simp, by simp, by simp⟩
  | case3 remaining opp h1 best rest hex hstop =>
    intro hWF
    rw [matchLoop_limit h1 hex hstop]
    exact ⟨[], by simp, by simp, by simp⟩
  | case4 remaining opp h1 best rest hex hstop r hrem ih =>
    intro hWF
    simp only [show r = matchInner taker best.price remaining best.totalVolume best.fifo
      from rfl] at hrem ih
    rw [matchLoop_removed h1 hex hstop hrem]
    dsimp only
    have hperm := extractBest_perm hex
    have hbest : best ∈ opp := hperm.mem_iff.mpr (by simp)
    have hbwf := hWF best hbest
    have hWFrest : ∀ l ∈ rest, LevelWF S l :=
      fun l hl => hWF l (hperm.mem_iff.mpr (by simp [hl]))
    obtain ⟨stepsI, a1, a2, a3⟩ := matchInner_steps taker best.price remaining
      best.totalVolume best.fifo (fun o ho => (hbwf.2.2 o ho).1)
    obtain ⟨stepsR, b1, b2, b3⟩ := ih hWFrest
    refine ⟨stepsI ++ stepsR, ?_, ?_, ?_⟩
    · simp [a1, b1]
    · intro s hs
      rcases List.mem_append.mp hs with hs | hs
      · exact a2 s hs
      · exact b2 s hs
    · simp [a3, b3]
  | case5 remaining opp h1 best rest hex hstop r hkept =>
    intro hWF
    simp only [show r = matchInner taker best.price remaining best.totalVolume best.fifo
      from rfl] at hkept
    rw [matchLoop_kept h1 hex hstop hkept]
    dsimp only
    have hperm := extractBest_perm hex
    have hbest : best ∈ opp := hperm.mem_iff.mpr (by simp)
    have hbwf := hWF best hbest
    obtain ⟨stepsI, a1, a2, a3⟩ := matchInner_steps taker best.price remaining
      best.totalVolume best.fifo (fun o ho => (hbwf.2.2 o ho).1)
    exact ⟨stepsI, a1, a2, a3⟩

/-- The fills of the outer loop are struck in best-price-first level
order: their price sequence is sorted by the side's price priority
(equal prices within one level). -/
theorem matchLoop_fills_sorted (taker : Order) (limitPrice : Option Int)
    (isBidOpp : Bool) {S : Side} :
    ∀ (remaining : Int) (opp : List Level),
      (∀ l ∈ opp, LevelWF S l) → ((opp.map (·.price)).Nodup) →
      List.Pairwise (fun a b => a = b ∨ betterPrice isBidOpp a b = true)
        ((matchLoop taker limitPrice isBidOpp remaining opp).fills.map
          (fun f => f.price)) := by
  intro remaining opp
  induction remaining, opp using matchLoop.induct taker limitPrice isBidOpp with
  | case1 remaining opp h =>
    intro hWF hnd
    rw [matchLoop_exhausted h]
    simp
  | case2 remaining opp h1 hnone =>
    intro hWF hnd
    rw [matchLoop_empty h1 hnone]
    simp
  | case3 remaining opp h1 best rest hex hstop =>
    intro hWF hnd
    rw [matchLoop_limit h1 hex hstop]
    simp
  | case4 remaining opp h1 best rest hex hstop r hrem ih =>
    intro hWF hnd
    simp only [show r = matchInner taker best.price remaining best.totalVolume best.fifo
      from rfl] at hrem ih
    rw [matchLoop_removed h1 hex hstop hrem]
    dsimp only
    have hperm := extractBest_perm hex
    have hbest : best ∈ opp := hperm.mem_iff.mpr (by simp)
    have hbwf := hWF best hbest
    have hWFrest : ∀ l ∈ rest, LevelWF S l :=
      fun l hl => hWF l (hperm.mem_iff.mpr (by simp [hl]))
    have hmapPerm : List.Perm (opp.map (·.price)) (best.price :: rest.map (·.price)) := by
      simpa using hperm.map (·.price)
    have hnd2 := hmapPerm.nodup_iff.mp hnd
    have hpnotin : best.price ∉ rest.map (·.price) := (List.nodup_cons.mp hnd2).1
    have hRestNd : (rest.map (·.price)).Nodup := (List.nodup_cons.mp hnd2).2
    obtain ⟨-, -, -, -, -, -, i7, -, -, -⟩ :=
      matchInner_facts taker best.price remaining best.totalVolume best.fifo
    obtain ⟨-, -, -, -, -, -, j7⟩ := matchLoop_facts taker limitPrice isBidOpp
      (matchInner taker best.price remaining best.totalVolume best.fifo).remaining rest
    rw [List.map_append]
    refine List.pairwise_append.mpr ⟨?_, ih hWFrest hRestNd, ?_⟩
    · refine pairwise_of_mem_pairs ?_
      intro a ha b hb
      obtain ⟨f, hf, rfl⟩ := List.mem_map.mp ha
      obtain ⟨g, hg, rfl⟩ := List.mem_map.mp hb
      exact Or.inl ((i7 f hf).trans (i7 g hg).symm)
    · intro a ha b hb
      obtain ⟨f, hf, rfl⟩ := List.mem_map.mp ha
      obtain ⟨g, hg, rfl⟩ := List.mem_map.mp hb
      obtain ⟨l0, hl0, hl0p⟩ := (j7 g hg).2
      have hl0opp : l0 ∈ opp := hperm.mem_iff.mpr (List.mem_cons_of_mem _ hl0)
      have htop := extractBest_is_top hex l0 hl0opp
      have hne : ¬ l0.price = best.price := by
        intro hc
        exact hpnotin (hc ▸ List.mem_map_of_mem _ hl0)
      rw [i7 f hf, ← hl0p]
      exact Or.inr (betterPrice_flip htop hne)
  | case5 remaining opp h1 best rest hex hstop r hkept =>
    intro hWF hnd
    simp only [show r = matchInner taker best.price remaining best.totalVolume best.fifo
      from rfl] at hkept
    rw [matchLoop_kept h1 hex hstop hkept]
    dsimp only
    obtain ⟨-, -, -, -, -, -, i7, -, -, -⟩ :=
      matchInner_facts taker best.price remaining best.totalVolume best.fifo
    refine pairwise_of_mem_pairs ?_
    intro a ha b hb
    obtain ⟨f, hf, rfl⟩ := List.mem_map.mp ha
    obtain ⟨g, hg, rfl⟩ := List.mem_map.mp hb
    exact Or.inl ((i7 f hf).trans (i7 g hg).symm)

theorem steps_fill_filter (steps : List (TradeEvent × Event)) (c : Int) :
    ((steps.map (fun s => (⟨s.1.makerOrderID, s.1.price, s.1.size⟩ : Fill))).filter
        (fun f => f.price = c)).map (fun f => f.makerOrderID)
      = (steps.filter (fun s => s.1.price = c)).map (fun s => s.1.makerOrderID) := by
  induction steps with
  | nil => rfl
  | cons s steps ih =>
    by_cases h : s.1.price = c <;>
      simp [List.filter_cons, h, ih]

theorem steps_fill_prices (steps : List (TradeEvent × Event)) :
    ((steps.map (fun s => (⟨s.1.makerOrderID, s.1.price, s.1.size⟩ : Fill))).map
        (fun f => f.price))
      = steps.map (fun s => s.1.price) := by
  induction steps with
  | nil => rfl
  | cons s steps ih => simp [ih]


/-- C4: within one accepted submit the events decompose, one consumed
maker at a time, into a Trade followed immediately by that same
maker's Reduced (maker partially filled: delta is the negated traded
size and the remaining is positive) or Removed(Filled) (maker fully
filled: remaining zero); the Trades project exactly onto the report's
fills, so within each level the consumed makers form a FIFO prefix and
the levels are taken in best-price order (buy: non-decreasing ask
prices; sell: non-increasing bid prices); a limit submit additionally
ends with exactly one Rested event, after all other events, exactly
when the report says rested, and a market submit never emits
Rested. -/
theorem c4_event_shape :
    (∀ (st : CoreState) (o : Order) (rep : SubmitReport) (evs : List Event)
        (st' : CoreState), BookInvariants st →
      Core.submitLimit st o = .ok (rep, evs, st') →
      ∃ steps : List (TradeEvent × Event),
        evs = (steps.map (fun s => [Event.trade s.1, s.2])).flatten
            ++ (if rep.rested then
              [Event.rested ⟨o.id, o.userID, o.side, o.price, rep.remaining, o.time⟩]
              else [])
          ∧ (∀ s ∈ steps,
              (∃ r, s.2 = Event.reduced r ∧ r.orderID = s.1.makerOrderID
                  ∧ r.delta = -s.1.size ∧ 0 < r.remaining)
                ∨ (∃ r, s.2 = Event.removed r ∧ r.orderID = s.1.makerOrderID
                  ∧ r.reason = RemoveReason.filled ∧ r.remaining = 0))
          ∧ steps.map (fun s => (⟨s.1.makerOrderID, s.1.price, s.1.size⟩ : Fill))
            = rep.fills
          ∧ (∀ l0 ∈ (if o.side = Side.buy then st.asks else st.bids), ∃ t,
              ((steps.filter (fun s => s.1.price = l0.price)).map
                  (fun s => s.1.makerOrderID)) ++ t
                = l0.fifo.map (fun n => n.id))
          ∧ List.Pairwise
              (fun a b => if o.side = Side.buy then a ≤ b else b ≤ a)
              (steps.map (fun s => s.1.price)))
      ∧ (∀ (st : CoreState) (o : Order) (rep : SubmitReport) (evs : List Event)
          (st' : CoreState), BookInvariants st →
        Core.submitMarket st o = .ok (rep, evs, st') →
        rep.rested = false
          ∧ ∃ steps : List (TradeEvent × Event),
            evs = (steps.map (fun s => [Event.trade s.1, s.2])).flatten
              ∧ (∀ s ∈ steps,
                  (∃ r, s.2 = Event.reduced r ∧ r.orderID = s.1.makerOrderID
                      ∧ r.delta = -s.1.size ∧ 0 < r.remaining)
                    ∨ (∃ r, s.2 = Event.removed r ∧ r.orderID = s.1.makerOrderID
                      ∧ r.reason = RemoveReason.filled ∧ r.remaining = 0))
              ∧ steps.map (fun s => (⟨s.1.makerOrderID, s.1.price, s.1.size⟩ : Fill))
                = rep.fills
              ∧ (∀ l0 ∈ (if o.side = Side.buy then st.asks else st.bids), ∃ t,
                  ((steps.filter (fun s => s.1.price = l0.price)).map
                      (fun s => s.1.makerOrderID)) ++ t
                    = l0.fifo.map (fun n => n.id))
              ∧ List.Pairwise
                  (fun a b => if o.side = Side.buy then a ≤ b else b ≤ a)
                  (steps.map (fun s => s.1.price))) := by
  constructor
  · intro st o rep evs st' hInv h
    obtain ⟨hbids, hasks, hnd, hord, hcross⟩ := hInv
    obtain ⟨hv, hdup, h3, h4, h5, h6, h7, h8⟩ := submitLimit_parts h
    by_cases hside : o.side = Side.buy
    · rw [coreMatch_buy hside] at h4 h5 h6 h7
      dsimp only at h4 h5 h6 h7
      obtain ⟨steps, e1, e2, e3⟩ := matchLoop_steps o (some o.price) false
        o.size st.asks hasks.2
      have hfills : steps.map (fun s => (⟨s.1.makerOrderID, s.1.price, s.1.size⟩ : Fill))
          = rep.fills := e3.trans h5.symm
      refine ⟨steps, ?_, e2, hfills, ?_, ?_⟩
      · rw [h7, h6, h4, e1]
        by_cases hpos : 0 < (matchLoop o (some o.price) false o.size st.asks).remaining <;>
          simp [hpos]
      · rw [if_pos hside]
        intro l0 hl0
        obtain ⟨t, ht⟩ := matchLoop_fifo_prefix o (some o.price) false o.size st.asks
          hasks.2 hasks.1 l0 hl0
        refine ⟨t, ?_⟩
        rw [← ht, ← steps_fill_filter, e3]
      · have hs := matchLoop_fills_sorted o (some o.price) false o.size st.asks
          hasks.2 hasks.1
        rw [← e3, steps_fill_prices] at hs
        refine hs.imp ?_
        intro a b hab
        rw [if_pos hside]
        rcases hab with rfl | hab
        · exact le_refl a
        · simp [betterPrice] at hab
          omega
    · have hside2 : o.side = Side.sell := by
        cases h2 : o.side
        · exact absurd h2 hside
        · rfl
      rw [coreMatch_sell hside2] at h4 h5 h6 h7
      dsimp only at h4 h5 h6 h7
      obtain ⟨steps, e1, e2, e3⟩ := matchLoop_steps o (some o.price) true
        o.size st.bids hbids.2
      have hfills : steps.map (fun s => (⟨s.1.makerOrderID, s.1.price, s.1.size⟩ : Fill))
          = rep.fills := e3.trans h5.symm
      refine ⟨steps, ?_, e2, hfills, ?_, ?_⟩
      · rw [h7, h6, h4, e1]
        by_cases hpos : 0 < (matchLoop o (some o.price) true o.size st.bids).remaining <;>
          simp [hpos]
      · rw [if_neg hside]
        intro l0 hl0
        obtain ⟨t, ht⟩ := matchLoop_fifo_prefix o (some o.price) true o.size st.bids
          hbids.2 hbids.1 l0 hl0
        refine ⟨t, ?_⟩
        rw [← ht, ← steps_fill_filter, e3]
      · have hs := matchLoop_fills_sorted o (some o.price) true o.size st.bids
          hbids.2 hbids.1
        rw [← e3, steps_fill_prices] at hs
        refine hs.imp ?_
        intro a b hab
        rw [if_neg hside]
        rcases hab with rfl | hab
        · exact le_refl a
        · simp [betterPrice] at hab
          omega
  · intro st o rep evs st' hInv h
    obtain ⟨hbids, hasks, hnd, hord, hcross⟩ := hInv
    obtain ⟨hv, hdup, h3, h4, h5, h6, h7, h8⟩ := submitMarket_parts h
    refine ⟨h6, ?_⟩
    by_cases hside : o.side = Side.buy
    · rw [coreMatch_buy hside] at h4 h5 h7
      dsimp only at h4 h5 h7
      obtain ⟨steps, e1, e2, e3⟩ := matchLoop_steps o none false o.size st.asks hasks.2
      have hfills : steps.map (fun s => (⟨s.1.makerOrderID, s.1.price, s.1.size⟩ : Fill))
          = rep.fills := e3.trans h5.symm
      refine ⟨steps, ?_, e2, hfills, ?_, ?_⟩
      · rw [h7, e1]
      · rw [if_pos hside]
        intro l0 hl0
        obtain ⟨t, ht⟩ := matchLoop_fifo_prefix o none false o.size st.asks
          hasks.2 hasks.1 l0 hl0
        refine ⟨t, ?_⟩
        rw [← ht, ← steps_fill_filter, e3]
      · have hs := matchLoop_fills_sorted o none false o.size st.asks
          hasks.2 hasks.1
        rw [← e3, steps_fill_prices] at hs
        refine hs.imp ?_
        intro a b hab
        rw [if_pos hside]
        rcases hab with rfl | hab
        · exact le_refl a
        · simp [betterPrice] at hab
          omega
    · have hside2 : o.side = Side.sell := by
        cases h2 : o.side
        · exact absurd h2 hside
        · rfl
      rw [coreMatch_sell hside2] at h4 h5 h7
      dsimp only at h4 h5 h7
      obtain ⟨steps, e1, e2, e3⟩ := matchLoop_steps o none true o.size st.bids hbids.2
      have hfills : steps.map (fun s => (⟨s.1.makerOrderID, s.1.price, s.1.size⟩ : Fill))
          = rep.fills := e3.trans h5.symm
      refine ⟨steps, ?_, e2, hfills, ?_, ?_⟩
      · rw [h7, e1]
      · rw [if_neg hside]
        intro l0 hl0
        obtain ⟨t, ht⟩ := matchLoop_fifo_prefix o none true o.size st.bids
          hbids.2 hbids.1 l0 hl0
        refine ⟨t, ?_⟩
        rw [← ht, ← steps_fill_filter, e3]
      · have hs := matchLoop_fills_sorted o none true o.size st.bids
          hbids.2 hbids.1
        rw [← e3, steps_fill_prices] at hs
        refine hs.imp ?_
        intro a b hab
        rw [if_neg hside]
        rcases hab with rfl | hab
        · exact le_refl a
        · simp [betterPrice] at hab
          omega

/-- C4 witness: the per-maker event decomposition evaluated on a
concrete crossing limit order that fully fills one resting ask and
rests its remainder. -/
theorem c4_witness :
    ∃ steps : List (TradeEvent × Event),
      [Event.trade ⟨101, 1, Side.buy, 1, 3, 20, 1, 10⟩,
          Event.removed ⟨1, RemoveReason.filled, 0, 101, Side.sell, 10, 1⟩,
          Event.rested ⟨3, 20, Side.buy, 102, 4, 1⟩]
          = (steps.map (fun s => [Event.trade s.1, s.2])).flatten
            ++ (if (⟨3, 4, [⟨1, 101, 1⟩], true⟩ : SubmitReport).rested then
              [Event.rested ⟨3, 20, Side.buy, 102, 4, 1⟩] else [])
        ∧ (∀ s ∈ steps,
            (∃ r, s.2 = Event.reduced r ∧ r.orderID = s.1.makerOrderID
                ∧ r.delta = -s.1.size ∧ 0 < r.remaining)
              ∨ (∃ r, s.2 = Event.removed r ∧ r.orderID = s.1.makerOrderID
                ∧ r.reason = RemoveReason.filled ∧ r.remaining = 0))
        ∧ steps.map (fun s => (⟨s.1.makerOrderID, s.1.price, s.1.size⟩ : Fill))
          = (⟨3, 4, [⟨1, 101, 1⟩], true⟩ : SubmitReport).fills
        ∧ (∀ l0 ∈ (if (⟨3, 20, Side.buy, OrderKind.limit, 102, 5, 1⟩ : Order).side
              = Side.buy
            then (runCommands [Command.limit
              ⟨1, 10, Side.sell, OrderKind.limit, 101, 1, 1⟩]).1.asks
            else (runCommands [Command.limit
              ⟨1, 10, Side.sell, OrderKind.limit, 101, 1, 1⟩]).1.bids), ∃ t,
            ((steps.filter (fun s => s.1.price = l0.price)).map
                (fun s => s.1.makerOrderID)) ++ t
              = l0.fifo.map (fun n => n.id))
        ∧ List.Pairwise
            (fun a b => if (⟨3, 20, Side.buy, OrderKind.limit, 102, 5, 1⟩
              : Order).side = Side.buy then a ≤ b else b ≤ a)
            (steps.map (fun s => s.1.price)) :=
  c4_event_shape.1
    (runCommands [Command.limit ⟨1, 10, Side.sell, OrderKind.limit, 101, 1, 1⟩]).1
    ⟨3, 20, Side.buy, OrderKind.limit, 102, 5, 1⟩
    ⟨3, 4, [⟨1, 101, 1⟩], true⟩
    [Event.trade ⟨101, 1, Side.buy, 1, 3, 20, 1, 10⟩,
      Event.removed ⟨1, RemoveReason.filled, 0, 101, Side.sell, 10, 1⟩,
      Event.rested ⟨3, 20, Side.buy, 102, 4, 1⟩]
    (⟨[⟨102, [⟨3, 20, Side.buy, 102, 4, 1⟩], 4⟩], [], [3]⟩ : CoreState)
    (runCommands_inv _)
    (by
      have h0 : runCommands [Command.limit ⟨1, 10, Side.sell, OrderKind.limit, 101, 1, 1⟩]
          = (⟨[], [⟨101, [⟨1, 10, Side.sell, 101, 1, 1⟩], 1⟩], [1]⟩,
            [Event.rested ⟨1, 10, Side.sell, 101, 1, 1⟩]) := by
        simp [runCommands, applyCommand, Core.submitLimit, validateLimit, coreMatch,
          matchLoop_nil, CoreState.addResting, addToLevels, CoreState.empty]
      rw [h0]
      simp [Core.submitLimit, validateLimit, coreMatch, matchLoop, matchInner,
        extractBest, limitStop, betterPrice, CoreState.addResting, addToLevels])


end Stockcraft
